import Mathlib

/-!
# Othello engine (`my_player.c`)

A shallow embedding of the C source: board and move legality, move
application, evaluation, the depth-limited search, and the master/worker
round that distributes the root moves over the MPI ranks.

An `int *` buffer is a `List Int`; every read and write is bounds-checked and
an access outside the buffer (undefined behaviour in C) makes the computation
return `none`.  Loops whose termination depends on the data carry a fuel
argument; running out of fuel also yields `none`.  Memory returned by
`malloc` holds arbitrary values, supplied by a parameter.  The collective
operations of MPI are synchronous, so one round of the protocol is a function
of the state of the ranks.
-/

namespace Othello

/-! ## Constants -/

def EMPTY : Int := 0
def BLACK : Int := 1
def WHITE : Int := 2
def OUTER : Int := 3
def ALLDIRECTIONS : List Int := [-11, -10, -9, -1, 1, 9, 10, 11]
def BOARDSIZE : Nat := 100
def PRUNE : Int := -200
def DEPTH : Int := 7
def LEGALMOVSBUFSIZE : Nat := 65

/-! ## Memory access -/

/-- Read `buf[c]`; `none` when `c` is outside the buffer. -/
def rd (buf : List Int) (c : Int) : Option Int :=
  if 0 ≤ c then buf[c.toNat]? else none

/-- Write `buf[c] = v`; `none` when `c` is outside the buffer. -/
def wr (buf : List Int) (c : Int) (v : Int) : Option (List Int) :=
  if 0 ≤ c ∧ c.toNat < buf.length then some (buf.set c.toNat v) else none

/-! ## Board set-up -/

/-- The three loops of `initialise_board`, before the four centre pieces. -/
def initialise_board_frame : List Int :=
  (List.range 10).map (fun _ => OUTER)
    ++ (List.range' 10 80).map
        (fun i => if i % 10 ≥ 1 ∧ i % 10 ≤ 8 then EMPTY else OUTER)
    ++ (List.range' 90 10).map (fun _ => OUTER)

/-- The board built by `initialise_board`. -/
def initialise_board : List Int :=
  (((initialise_board_frame.set 44 WHITE).set 45 BLACK).set 54 BLACK).set 55 WHITE

/-! ## Move legality -/

/-- The C function `opponent`; the third case logs and returns `EMPTY`. -/
def opponent (player : Int) : Int :=
  if player = BLACK then WHITE
  else if player = WHITE then BLACK
  else EMPTY

/-- The C function `validp` (the remainder is C's truncating `%`). -/
def validp (move : Int) : Int :=
  if move ≥ 11 ∧ move ≤ 88 ∧ move.tmod 10 ≥ 1 ∧ move.tmod 10 ≤ 8 then 1 else 0

/-- The `while` loop of `find_bracket_piece` followed by its final test. -/
def find_bracket_piece_loop : Nat → List Int → Int → Int → Int → Option Int
  | 0, _, _, _, _ => none
  | fuel + 1, curr_board, square, dir, player =>
    match rd curr_board square with
    | none => none
    | some v =>
      if v = opponent player then
        find_bracket_piece_loop fuel curr_board (square + dir) dir player
      else if v = player then some square
      else some 0

/-- The C function `find_bracket_piece`.  A walk that stays inside the buffer
visits each of its `BOARDSIZE` cells at most once. -/
def find_bracket_piece (curr_board : List Int) (square dir player : Int) : Option Int :=
  find_bracket_piece_loop BOARDSIZE curr_board square dir player

/-- The C function `would_flip`. -/
def would_flip (curr_board : List Int) (move dir player : Int) : Option Int :=
  match rd curr_board (move + dir) with
  | none => none
  | some v =>
    if v = opponent player then
      find_bracket_piece curr_board (move + dir + dir) dir player
    else some 0

/-- The `while (i <= 7 && !would_flip(...)) i++` loop of `legalp`: the value of
`i` when the loop exits, started at `i` with the directions still to try. -/
def legalp_loop (curr_board : List Int) (move player : Int) : List Int → Int → Option Int
  | [], i => some i
  | d :: ds, i =>
    match would_flip curr_board move d player with
    | none => none
    | some r => if r ≠ 0 then some i else legalp_loop curr_board move player ds (i + 1)

/-- The C function `legalp`. -/
def legalp (curr_board : List Int) (move player : Int) : Option Int :=
  if validp move = 0 then some 0
  else
    match rd curr_board move with
    | none => none
    | some v =>
      if v = EMPTY then
        match legalp_loop curr_board move player ALLDIRECTIONS 0 with
        | none => none
        | some i => if i = 8 then some 0 else some 1
      else some 0

/-- The cells `11 .. 88` scanned by `legal_moves`, in scan order. -/
def scanCells : List Int := (List.range' 11 78).map Int.ofNat

/-- The `for` loop of `legal_moves`: the moves stored in `moves[1..]`. -/
def legal_moves_loop (curr_board : List Int) (player : Int) : List Int → Option (List Int)
  | [] => some []
  | move :: rest =>
    match legalp curr_board move player with
    | none => none
    | some r =>
      match legal_moves_loop curr_board player rest with
      | none => none
      | some ms => some (if r ≠ 0 then move :: ms else ms)

/-- The C function `legal_moves`: the written part of the `moves` buffer,
`moves[0]` (the count) followed by `moves[1..moves[0]]`. -/
def legal_moves (curr_board : List Int) (player : Int) : Option (List Int) :=
  match legal_moves_loop curr_board player scanCells with
  | none => none
  | some ms => some ((ms.length : Int) :: ms)

/-! ## Move application -/

/-- The `do ... while (c != bracketer)` loop of `make_flips`. -/
def make_flips_loop : Nat → List Int → Int → Int → Int → Int → Option (List Int)
  | 0, _, _, _, _, _ => none
  | fuel + 1, curr_board, c, dir, player, bracketer =>
    match wr curr_board c player with
    | none => none
    | some b1 =>
      if c + dir ≠ bracketer then make_flips_loop fuel b1 (c + dir) dir player bracketer
      else some b1

/-- The C function `make_flips`. -/
def make_flips (curr_board : List Int) (move dir player : Int) : Option (List Int) :=
  match would_flip curr_board move dir player with
  | none => none
  | some bracketer =>
    if bracketer ≠ 0 then
      make_flips_loop BOARDSIZE curr_board (move + dir) dir player bracketer
    else some curr_board

/-- The `for` loop of `make_move` over the directions still to process. -/
def make_move_loop (move player : Int) : List Int → List Int → Option (List Int)
  | [], curr_board => some curr_board
  | d :: ds, curr_board =>
    match make_flips curr_board move d player with
    | none => none
    | some b1 => make_move_loop move player ds b1

/-- The C function `make_move`. -/
def make_move (curr_board : List Int) (move player : Int) : Option (List Int) :=
  match wr curr_board move player with
  | none => none
  | some b1 => make_move_loop move player ALLDIRECTIONS b1

/-- The `for (i = 1; i <= 88; i++)` loop of `count` over the indices still to
visit, with the running total. -/
def count_loop (curr_board : List Int) (player : Int) : List Nat → Int → Option Int
  | [], cnt => some cnt
  | i :: rest, cnt =>
    match curr_board[i]? with
    | none => none
    | some v => count_loop curr_board player rest (if v = player then cnt + 1 else cnt)

/-- The C function `count`. -/
def count (curr_board : List Int) (player : Int) : Option Int :=
  count_loop curr_board player (List.range' 1 88) 0

/-! ## Move encoding -/

/-- The C function `get_move_string`: the four bytes written to `ms`. -/
def get_move_string (loc : Int) : List Int :=
  let new_loc := loc - (9 + 2 * (loc.tdiv 10))
  let row := new_loc.tdiv 8
  let col := new_loc.tmod 8
  [row + 48, col + 48, 10, 0]

/-- The C function `get_loc`; reads `movestring[0]` and `movestring[1]`. -/
def get_loc (movestring : List Int) : Option Int :=
  match rd movestring 0, rd movestring 1 with
  | some c0, some c1 =>
    let row := c0 - 48
    let col := c1 - 48
    some ((10 * (row + 1)) + col + 1)
  | _, _ => none

/-! ## Well-formed boards -/

/-- Index of a cell of the sentinel border of the 10 x 10 grid. -/
def isBorder (i : Nat) : Bool :=
  i < 10 || 90 ≤ i || i % 10 = 0 || i % 10 = 9

/-- A board of 100 cells whose border holds `OUTER` and whose interior holds
only `EMPTY`, `BLACK` or `WHITE`. -/
def wellFormed (b : List Int) : Prop :=
  b.length = 100 ∧
  ∀ i, i < 100 →
    if isBorder i then b[i]? = some OUTER
    else (b[i]? = some EMPTY ∨ b[i]? = some BLACK ∨ b[i]? = some WHITE)

instance (b : List Int) : Decidable (wellFormed b) := by
  unfold wellFormed; infer_instance

/-- Starting from `m`, direction `d` holds a run of `k ≥ 1` opponent cells
`m + d, ..., m + k*d` that ends on a cell `m + (k+1)*d` holding `player`. -/
def brackets (b : List Int) (m d player : Int) : Prop :=
  ∃ k : Nat, 1 ≤ k ∧
    (∀ j : Nat, 1 ≤ j → j ≤ k → rd b (m + j * d) = some (opponent player)) ∧
    rd b (m + (k + 1) * d) = some player

/-! ## Evaluation and search -/

/-- The `for` loop of `find_maxmin` over the indices still to visit. -/
def find_maxmin_loop (maxlayer : Int) (util : List Int) : List Nat → Int → Option Int
  | [], maxmin => some maxmin
  | i :: rest, maxmin =>
    match util[i]? with
    | none => none
    | some u =>
      if u ≠ PRUNE then
        if maxlayer = 0 then
          find_maxmin_loop maxlayer util rest (if u > maxmin then u else maxmin)
        else
          find_maxmin_loop maxlayer util rest (if u < maxmin then u else maxmin)
      else find_maxmin_loop maxlayer util rest maxmin

/-- The C function `find_maxmin`. -/
def find_maxmin (maxlayer : Int) (util : List Int) (amount_moves : Int) : Option Int :=
  find_maxmin_loop maxlayer util (List.range amount_moves.toNat)
    (if maxlayer = 0 then -1000 else 1000)

/-- Size of a C `int` in bytes on the target platform. -/
def SIZEOF_INT : Nat := 4

/-- A block of `n` ints as returned by `malloc`: its cells hold whatever the
memory held before, given by `junk`. -/
def malloc (junk : Nat → Int) (n : Nat) : List Int :=
  (List.range n).map junk

/-- The C function `duplicate_board`: a block of `n` ints is allocated and
`memcpy` copies `n` bytes, that is `n / sizeof(int)` ints, into it; the other
cells keep the content `junk` of the fresh block. -/
def duplicate_board (junk : Nat → Int) (curr_board : List Int) (n : Nat) : Option (List Int) :=
  if n % SIZEOF_INT = 0 ∧ n / SIZEOF_INT ≤ curr_board.length then
    some (curr_board.take (n / SIZEOF_INT) ++ (malloc junk n).drop (n / SIZEOF_INT))
  else none

/-- The C function `calc_util`. -/
def calc_util (curr_board : List Int) (curr_player curr_bcount curr_wcount curr_depth : Int) :
    Option Int :=
  match count curr_board BLACK, count curr_board WHITE with
  | some cb, some cw =>
    let b_diff := cb - curr_bcount
    let w_diff := cw - curr_wcount
    let util := if curr_player = BLACK then b_diff - w_diff else w_diff - b_diff
    some
      (if curr_depth.tmod 2 = 0 ∧ curr_depth ≠ DEPTH then
        if curr_bcount + curr_wcount < 25 then util + curr_depth
        else if curr_bcount + curr_wcount < 50 then util + curr_depth * 2
        else util + curr_depth * 3
      else util)
  | _, _ => none

/-- The inner loop `for (i = i; i <= amount_moves; i++) util_arr[i-1] = PRUNE`. -/
def prune_fill (amount_moves : Int) : Nat → Int → List Int → Option (List Int)
  | 0, i, util_arr => if i ≤ amount_moves then none else some util_arr
  | n + 1, i, util_arr =>
    if i ≤ amount_moves then
      match wr util_arr (i - 1) PRUNE with
      | none => none
      | some ua => prune_fill amount_moves n (i + 1) ua
    else some util_arr

/-- The candidate loop of `minmax`, `for (i = 1; i <= amount_moves; i++)`.
`child i mv` stands for the three statements that clone the board, apply
candidate `mv = moves[i]` and recurse.  When `alpha >= beta` the inner loop
leaves `i = amount_moves + 1` and the rest of the body still runs with that
`i`. -/
def minmax_loop (child : Int → Int → Option Int) (alpha beta amount_moves : Int)
    (moves : List Int) : Nat → Int → List Int → Option (List Int)
  | 0, i, util_arr => if i ≤ amount_moves then none else some util_arr
  | n + 1, i, util_arr =>
    if i ≤ amount_moves then
      match (if alpha ≥ beta then
              (prune_fill amount_moves (amount_moves.toNat + 1) i util_arr).map
                (fun ua => (amount_moves + 1, ua))
            else some (i, util_arr)) with
      | none => none
      | some (i1, ua1) =>
        match rd moves i1 with
        | none => none
        | some mv =>
          match child i1 mv with
          | none => none
          | some u =>
            match wr ua1 (i1 - 1) u with
            | none => none
            | some ua2 => minmax_loop child alpha beta amount_moves moves n (i1 + 1) ua2
    else some util_arr

/-- The C function `minmax`.  The first argument bounds the recursion depth
(one unit per ply).  `heap key` is the prior content of the block that the
allocation identified by `key` returns: `0 :: path` for the copy of `moves`
made at ply 0 and `i :: path` for the board cloned for candidate `i`, where
`path` lists the candidate indices from the root call down to this call.
Every cell of `util_arr` is written before it is read, so the block starts
as zeros here; `new_moves`, left unset when `curr_layer = 0 = depth`, is then
never used and stands as the empty list. -/
def minmax : Nat → (List Nat → Nat → Int) → List Nat → List Int → List Int →
    Int → Int → Int → Int → Int → Int → Int → Int → Int → Option Int
  | 0, _, _, _, _, _, _, _, _, _, _, _, _, _ => none
  | fuel + 1, heap, path, curr_board, moves, depth, curr_layer, curr_player,
      curr_bcount, curr_wcount, alpha, beta, maxmin, first_player =>
    match rd moves 0 with
    | none => none
    | some amount_moves =>
      let next_player := if curr_player = BLACK then WHITE else BLACK
      match (if curr_layer ≠ 0 then legal_moves curr_board curr_player
            else if curr_layer ≠ depth then
              duplicate_board (heap (0 :: path)) moves (LEGALMOVSBUFSIZE * SIZEOF_INT)
            else some []) with
      | none => none
      | some new_moves =>
        if depth > curr_layer ∧ amount_moves ≠ 0 then
          match minmax_loop
              (fun i mv =>
                match duplicate_board (heap (i.toNat :: path)) curr_board BOARDSIZE with
                | none => none
                | some sim_board =>
                  match make_move sim_board mv curr_player with
                  | none => none
                  | some sim_board1 =>
                    minmax fuel heap (i.toNat :: path) sim_board1 new_moves depth
                      (curr_layer + 1) next_player curr_bcount curr_wcount alpha beta
                      (if maxmin = 0 then 1 else 0) first_player)
              alpha beta amount_moves moves amount_moves.toNat 1
              (List.replicate amount_moves.toNat 0) with
          | none => none
          | some util_arr =>
            match find_maxmin maxmin util_arr amount_moves with
            | none => none
            | some util =>
              if maxmin = 0 then some util
              else if util < beta then some beta
              else some util
        else calc_util curr_board first_player curr_bcount curr_wcount curr_layer

/-! ## Work distribution -/

/-- The global `alpha`. -/
def alpha : Int := -1000

/-- The global `beta`. -/
def beta : Int := 1000

/-- The array `send_count` filled by the loop of `gen_move_master`. -/
def send_count (move_amount : Int) (ranks : Nat) : List Int :=
  (List.range ranks).map
    (fun (i : Nat) =>
      if i = 0 then move_amount.tdiv (ranks : Int) + move_amount.tmod (ranks : Int)
      else move_amount.tdiv (ranks : Int))

/-- The array `disp` filled by the loop of `gen_move_master`. -/
def disp (move_amount : Int) (ranks : Nat) : List Int :=
  (List.range ranks).map
    (fun (i : Nat) =>
      if i = 0 then (1 : Int)
      else move_amount.tdiv (ranks : Int) * (i : Int) + move_amount.tmod (ranks : Int) + 1)

/-- The receive count that `run_worker` passes to `MPI_Scatterv`, also the
size of its `my_moves` buffer. -/
def worker_recv_count (move_amount : Int) (ranks : Nat) : Int :=
  move_amount.tdiv (ranks : Int)

/-- What `MPI_Scatterv` delivers to `rank`: the `sendcounts[rank]` ints of
`sendbuf` from position `displs[rank]`.  It fails when that range leaves the
send buffer or exceeds the receive count. -/
def scatterv (sendbuf sendcounts displs : List Int) (rank : Nat) (recvcount : Int) :
    Option (List Int) :=
  match sendcounts[rank]?, displs[rank]? with
  | some cnt, some dsp =>
    if 0 ≤ cnt ∧ 0 ≤ dsp ∧ dsp + cnt ≤ sendbuf.length ∧ cnt ≤ recvcount then
      some ((sendbuf.drop dsp.toNat).take cnt.toNat)
    else none
  | _, _ => none

/-- The buffer `feed`: a fresh block of `LEGALMOVSBUFSIZE` ints with
`feed[0] = n` and `feed[i] = my_moves[i-1]` for `i = 1..n`. -/
def make_feed (junk : Nat → Int) (n : Int) (my_moves : List Int) : Option (List Int) :=
  if n.toNat ≤ my_moves.length ∧ n.toNat < LEGALMOVSBUFSIZE then
    some ((n :: my_moves.take n.toNat) ++ (malloc junk LEGALMOVSBUFSIZE).drop (n.toNat + 1))
  else none

/-- The search loop `for (i = 0; i < feed[0]; i++)` shared by
`gen_move_master` (which passes `maxmin = 0`) and `run_worker` (which passes
`maxmin = 1`), over the iterations still to run and with the current
`ret_vals`.  The root call of iteration `i` allocates under the path `[i]`. -/
def search_loop (heap : List Nat → Nat → Int) (curr_board feed : List Int)
    (curr_colour curr_bcount curr_wcount maxmin : Int) :
    List Nat → Int × Int → Option (Int × Int)
  | [], ret_vals => some ret_vals
  | i :: rest, ret_vals =>
    match minmax (DEPTH.toNat + 1) heap [i] curr_board feed DEPTH 0 curr_colour
        curr_bcount curr_wcount alpha beta maxmin curr_colour with
    | none => none
    | some util =>
      if i = 0 ∨ util > ret_vals.1 then
        match rd feed (i + 1) with
        | none => none
        | some mv =>
          search_loop heap curr_board feed curr_colour curr_bcount curr_wcount maxmin rest
            (util, mv)
      else
        search_loop heap curr_board feed curr_colour curr_bcount curr_wcount maxmin rest
          ret_vals

/-- One turn of the loop of `run_worker` on rank `rank`: the pair it sends to
`MPI_Gatherv`.  `ret_vals` is the pair left by the previous turn (`(0, 0)` on
the first).  The worker's board is the block it allocated at start (prior
content `heap [1]`), of which `MPI_Bcast(curr_board, 1, MPI_INT, ...)`
overwrites cell 0 only; `heap [0]` is the prior content of `feed`. -/
def run_worker_turn (heap : List Nat → Nat → Int) (ranks rank : Nat) (ret_vals : Int × Int)
    (curr_bcount curr_wcount curr_colour board0 move_amount : Int)
    (moves sendcounts displs : List Int) : Option (Int × Int) :=
  match wr (malloc (heap [1]) BOARDSIZE) 0 board0 with
  | none => none
  | some curr_board =>
    match scatterv moves sendcounts displs rank (worker_recv_count move_amount ranks) with
    | none => none
    | some my_moves =>
      match make_feed (heap [0]) (move_amount.tdiv ranks) my_moves with
      | none => none
      | some feed =>
        search_loop heap curr_board feed curr_colour curr_bcount curr_wcount 1
          (List.range (move_amount.tdiv ranks).toNat) ret_vals

/-- All workers' turns, in rank order starting at `rank`. -/
def workers_round (heaps : Nat → List Nat → Nat → Int) (ranks : Nat)
    (curr_bcount curr_wcount curr_colour board0 move_amount : Int)
    (moves sendcounts displs : List Int) : Nat → List (Int × Int) → Option (List (Int × Int))
  | _, [] => some []
  | rank, ret_vals :: rest =>
    match run_worker_turn (heaps rank) ranks rank ret_vals curr_bcount curr_wcount
        curr_colour board0 move_amount moves sendcounts displs with
    | none => none
    | some r =>
      match workers_round heaps ranks curr_bcount curr_wcount curr_colour board0
          move_amount moves sendcounts displs (rank + 1) rest with
      | none => none
      | some rs => some (r :: rs)

/-- The receive buffer `gatherer` of `MPI_Gatherv`: the pairs in rank order. -/
def gather : List (Int × Int) → List Int
  | [] => []
  | (u, m) :: rest => u :: m :: gather rest

/-- The reconciliation loop `for (i = 0; i < ranks*2; i = i + 2)` over the
values of `i` still to visit, with the current `(util, mover)`. -/
def reconcile_loop (gatherer : List Int) : List Nat → Int × Int → Option (Int × Int)
  | [], acc => some acc
  | i :: rest, (util, mover) =>
    match gatherer[i]? with
    | none => none
    | some g =>
      if util > g then
        match gatherer[i + 1]? with
        | none => none
        | some m => reconcile_loop gatherer rest (g, m)
      else reconcile_loop gatherer rest (util, mover)

/-- The selection made by `gen_move_master` after the gather: `(util, mover)`. -/
def reconcile (gatherer : List Int) (ranks : Nat) : Option (Int × Int) :=
  match gatherer[0]?, gatherer[1]? with
  | some util, some mover =>
    reconcile_loop gatherer ((List.range ranks).map (fun j => 2 * j)) (util, mover)
  | _, _ => none

/-- The bytes of the string literal `"pass\n"` with its terminator. -/
def PASS : List Int := [112, 97, 115, 115, 10, 0]

/-- The `n` bytes written by `strncpy(dst, src, n)` for a terminated `src`. -/
def strncpy (src : List Int) (n : Nat) : List Int :=
  ((src.takeWhile (fun c => c ≠ 0)) ++ List.replicate n 0).take n

/-- What one call of `gen_move_master` leaves behind. -/
structure MoveResult where
  /-- Final value of `util` after the reconciliation loop. -/
  util : Int
  /-- Final value of `mover`. -/
  mover : Int
  /-- Bytes written to the output buffer `move`. -/
  move : List Int
  /-- The global `board` afterwards. -/
  board : List Int
  /-- The pairs held by the workers (ranks 1, 2, ...) afterwards. -/
  workers : List (Int × Int)
deriving DecidableEq

/-- The C function `gen_move_master` together with the turn of `run_worker` on
every other rank; the collectives are synchronous, so the round is one
function of its inputs.  `workers` holds the `ret_vals` of ranks `1, 2, ...`
before the turn, so the communicator has `workers.length + 1` ranks;
`heaps r` is the uninitialised memory of rank `r`; `MOVEBUFSIZE` is the
constant of `comms.h`, taken as a parameter. -/
def gen_move_master (MOVEBUFSIZE : Nat) (heaps : Nat → List Nat → Nat → Int)
    (board : List Int) (my_colour : Int) (workers : List (Int × Int)) : Option MoveResult :=
  let ranks := workers.length + 1
  match count board BLACK, count board WHITE, rd board 0 with
  | some curr_bcount, some curr_wcount, some board0 =>
    match legal_moves board my_colour with
    | none => none
    | some moves =>
      match rd moves 0 with
      | none => none
      | some move_amount =>
        let thread_move := move_amount.tdiv ranks + move_amount.tmod ranks
        match scatterv moves (send_count move_amount ranks) (disp move_amount ranks) 0
            thread_move with
        | none => none
        | some my_moves =>
          match workers_round heaps ranks curr_bcount curr_wcount my_colour board0
              move_amount moves (send_count move_amount ranks) (disp move_amount ranks)
              1 workers with
          | none => none
          | some worker_rets =>
            match make_feed (heaps 0 [0]) thread_move my_moves with
            | none => none
            | some feed =>
              match search_loop (heaps 0) board feed my_colour curr_bcount curr_wcount 0
                  (List.range thread_move.toNat) (0, 0) with
              | none => none
              | some ret_vals =>
                match reconcile (gather (ret_vals :: worker_rets)) ranks with
                | none => none
                | some (util, mover) =>
                  let loc := if 11 ≤ mover ∧ mover ≤ 88 then mover else -1
                  if loc = -1 then
                    some ⟨util, mover, strncpy PASS MOVEBUFSIZE, board, worker_rets⟩
                  else
                    match make_move board loc my_colour with
                    | none => none
                    | some board1 =>
                      some ⟨util, mover, get_move_string loc, board1, worker_rets⟩
  | _, _, _ => none

/-- The C string held in a buffer: the bytes before the first NUL. -/
def cstr (s : List Int) : List Int :=
  s.takeWhile (fun c => c ≠ 0)

/-- The C function `apply_opp_move`: the global `board` afterwards. -/
def apply_opp_move (move : List Int) (my_colour : Int) (board : List Int) :
    Option (List Int) :=
  if cstr move = cstr PASS then some board
  else
    match get_loc move with
    | none => none
    | some loc => make_move board loc (opponent my_colour)

/-- The position after BLACK has opened on cell 34 (row 2, column 3) and
flipped cell 44. -/
def afterBlack34 : List Int := (initialise_board.set 34 BLACK).set 44 BLACK

/-- Memory that reads as zero wherever it was never written. -/
def zeroHeaps : Nat → List Nat → Nat → Int := fun _ _ _ => 0

/-! ## The call tree of the search -/

/-- The arguments of one call of `minmax` (without the log file), with the
allocation path that identifies the call. -/
structure Call where
  path : List Nat
  curr_board : List Int
  moves : List Int
  depth : Int
  curr_layer : Int
  curr_player : Int
  curr_bcount : Int
  curr_wcount : Int
  alpha : Int
  beta : Int
  maxmin : Int
  first_player : Int
deriving DecidableEq

/-- The value `minmax` returns for the call `c`. -/
def run_call (fuel : Nat) (heap : List Nat → Nat → Int) (c : Call) : Option Int :=
  minmax fuel heap c.path c.curr_board c.moves c.depth c.curr_layer c.curr_player
    c.curr_bcount c.curr_wcount c.alpha c.beta c.maxmin c.first_player

/-- The buffer `new_moves` that the call `c` of `minmax` sets up before its
candidate loop. -/
def new_moves_of (heap : List Nat → Nat → Int) (c : Call) : Option (List Int) :=
  if c.curr_layer ≠ 0 then legal_moves c.curr_board c.curr_player
  else if c.curr_layer ≠ c.depth then
    duplicate_board (heap (0 :: c.path)) c.moves (LEGALMOVSBUFSIZE * SIZEOF_INT)
  else some []

/-- The recursive call that the loop body of the call `c` of `minmax` makes
when its loop variable is `i` and `moves[i]` is `mv`: the board is cloned,
`mv` is applied for `curr_player`, and `minmax` is called on the result with
`new_moves`, the next ply, the other player, the same `alpha` and `beta` and
`!maxmin`. -/
def child_call (heap : List Nat → Nat → Int) (c : Call) (new_moves : List Int)
    (i mv : Int) : Option Call :=
  match duplicate_board (heap (i.toNat :: c.path)) c.curr_board BOARDSIZE with
  | none => none
  | some sim_board =>
    match make_move sim_board mv c.curr_player with
    | none => none
    | some sim_board1 =>
      some
        { path := i.toNat :: c.path
          curr_board := sim_board1
          moves := new_moves
          depth := c.depth
          curr_layer := c.curr_layer + 1
          curr_player := if c.curr_player = BLACK then WHITE else BLACK
          curr_bcount := c.curr_bcount
          curr_wcount := c.curr_wcount
          alpha := c.alpha
          beta := c.beta
          maxmin := if c.maxmin = 0 then 1 else 0
          first_player := c.first_player }

/-- The root call of iteration `i` of the search loop of `gen_move_master`
(`maxmin = 0`) and `run_worker` (`maxmin = 1`). -/
def root_call (i : Nat) (curr_board feed : List Int)
    (curr_colour curr_bcount curr_wcount maxmin : Int) : Call :=
  { path := [i]
    curr_board := curr_board
    moves := feed
    depth := DEPTH
    curr_layer := 0
    curr_player := curr_colour
    curr_bcount := curr_bcount
    curr_wcount := curr_wcount
    alpha := alpha
    beta := beta
    maxmin := maxmin
    first_player := curr_colour }

/-- The calls of `minmax` in the tree below the call `root`: `root` itself and
every call made by the loop body of a call of the tree that is not terminal.
The loop body runs for `i = 1 .. amount_moves` when the test `alpha >= beta`
fails, and once with `i = amount_moves + 1` when it holds. -/
inductive Reach (heap : List Nat → Nat → Int) (root : Call) : Call → Prop
  | root : Reach heap root root
  | step (c c2 : Call) (new_moves : List Int) (amount_moves i mv : Int) :
      Reach heap root c → rd c.moves 0 = some amount_moves →
      (c.depth > c.curr_layer ∧ amount_moves ≠ 0) →
      new_moves_of heap c = some new_moves →
      (if c.alpha ≥ c.beta then 1 ≤ amount_moves ∧ i = amount_moves + 1
        else 1 ≤ i ∧ i ≤ amount_moves) →
      rd c.moves i = some mv →
      child_call heap c new_moves i mv = some c2 → Reach heap root c2

/-- The pairs `ret_vals` that the workers (ranks 1, 2, ..., `n`) can hold when
`gen_move_master` is called: `{0,0}` on every worker at the first call, and
afterwards the pairs they sent in the previous call, whatever the board, the
colour and the content of fresh memory were in that call. -/
inductive WorkerState (MOVEBUFSIZE n : Nat) : List (Int × Int) → Prop
  | start : WorkerState MOVEBUFSIZE n (List.replicate n (0, 0))
  | turn (heaps : Nat → List Nat → Nat → Int) (board : List Int) (my_colour : Int)
      (workers : List (Int × Int)) (r : MoveResult) :
      WorkerState MOVEBUFSIZE n workers →
      gen_move_master MOVEBUFSIZE heaps board my_colour workers = some r →
      WorkerState MOVEBUFSIZE n r.workers

/-! ## The opening position under a single rank -/

/-- The buffer `feed` of `gen_move_master` for BLACK on the starting position
with one rank, when fresh memory reads as zero: the count 4, the four legal
moves, then zeros. -/
def openingFeed : List Int := (4 :: [34, 43, 56, 65]) ++ List.replicate 60 0

/-- The buffer `new_moves` of the root call on `openingFeed`: the copy made by
`duplicate_board(moves, LEGALMOVSBUFSIZE * sizeof(int))`. -/
def openingMoves : List Int := (4 :: [34, 43, 56, 65]) ++ List.replicate 255 0

/-- The clone of the starting position made by
`duplicate_board(curr_board, BOARDSIZE)` when fresh memory reads as zero. -/
def openingClone : List Int := initialise_board.take 25 ++ List.replicate 75 0

/-- The board of the first call of `minmax` at ply 1: the clone with BLACK on
cell 34. -/
def ply1Board : List Int := openingClone.set 34 BLACK

/-- The first call of `minmax` at ply 1 in that search. -/
def ply1Call : Call :=
  { path := [1, 0]
    curr_board := ply1Board
    moves := openingMoves
    depth := DEPTH
    curr_layer := 1
    curr_player := WHITE
    curr_bcount := 2
    curr_wcount := 2
    alpha := alpha
    beta := beta
    maxmin := 1
    first_player := BLACK }

/-- The call of `minmax` at ply 2 that `ply1Call` makes for its candidate
`i` with `moves[i] = mv`: the clone with WHITE on cell `mv`, and the legal
moves of WHITE on `ply1Board` (there are none) as candidate list. -/
def ply2Call (i : Nat) (mv : Int) : Call :=
  { path := [i, 1, 0]
    curr_board := openingClone.set mv.toNat WHITE
    moves := [0]
    depth := DEPTH
    curr_layer := 2
    curr_player := BLACK
    curr_bcount := 2
    curr_wcount := 2
    alpha := alpha
    beta := beta
    maxmin := 0
    first_player := BLACK }

/-! ## Specification-side definitions -/

/-- A board of 100 cells with no piece on its border: what the walks of
`find_bracket_piece` need to stay inside the board. -/
def safeBoard (b : List Int) : Prop :=
  b.length = 100 ∧
  ∀ i, i < 100 → isBorder i = true → b[i]? ≠ some BLACK ∧ b[i]? ≠ some WHITE

/-- A run of `k` opponent cells starting at `sq` that ends on a cell of `player`. -/
def runFrom (b : List Int) (sq d player : Int) (k : Nat) : Prop :=
  (∀ j : Nat, j < k → rd b (sq + j * d) = some (opponent player)) ∧
    rd b (sq + k * d) = some player

/-- The single-move legality condition of the specification. -/
def legalSpec (b : List Int) (player m : Int) : Prop :=
  11 ≤ m ∧ m ≤ 88 ∧ 1 ≤ m % 10 ∧ m % 10 ≤ 8 ∧ rd b m = some EMPTY ∧
    ∃ d ∈ ALLDIRECTIONS, brackets b m d player

/-- Number of indices of `is` at which `b` holds `player`. -/
def cnt (b : List Int) (player : Int) (is : List Nat) : Nat :=
  (is.filter (fun i => decide (b[i]? = some player))).length

/-- Number of pieces of either colour at the indices `1 .. 88`. -/
def pieces (b : List Int) : Nat :=
  cnt b BLACK (List.range' 1 88) + cnt b WHITE (List.range' 1 88)

/-- The slice of the move list `ms = moves[1..]` that rank `i` is sent. -/
def chunkOf (ms : List Int) (N P i : Nat) : List Int :=
  (ms.drop (if i = 0 then 0 else N / P * i + N % P)).take (if i = 0 then N / P + N % P else N / P)

/-- The board with `BLACK` and `WHITE` exchanged on every cell. -/
def mirror (b : List Int) : List Int :=
  b.map (fun v => if v = BLACK then WHITE else if v = WHITE then BLACK else v)

/-- An interior cell of the board (row and column in `1 .. 8`). -/
def validCell (m : Int) : Prop :=
  11 ≤ m ∧ m ≤ 88 ∧ 1 ≤ m % 10 ∧ m % 10 ≤ 8

instance (m : Int) : Decidable (validCell m) := by
  unfold validCell; infer_instance

/-- Uninitialised memory that never shows a piece where a board has its
border. -/
def cleanHeap (heap : List Nat → Nat → Int) : Prop :=
  ∀ key i, isBorder i = true → heap key i ≠ BLACK ∧ heap key i ≠ WHITE

/-- The value C13 claims for `calc_util`, from the claim's words: the base
gain difference seen from the root player, plus a bonus that is 0 when `d` is
odd or 7 and otherwise `d`, `2*d` or `3*d` by the number `cb + cw` of pieces
on the evaluated board (`cb`, `cw` its counts of BLACK and WHITE). -/
def calc_util_claimed (cb cw p bc wc d : Int) : Int :=
  (if p = BLACK then (cb - bc) - (cw - wc) else -((cb - bc) - (cw - wc))) +
    (if d % 2 = 1 ∨ d = 7 then 0
      else if cb + cw < 25 then d
      else if cb + cw < 50 then 2 * d
      else 3 * d)

/-- Row step of a direction (`-1`, `0` or `1`). -/
def drow (d : Int) : Int := (d + 11) / 10 - 1

/-- Column step of a direction (`-1`, `0` or `1`). -/
def dcol (d : Int) : Int := d - 10 * drow d

/-- Cell `x` lies strictly between `m` and the bracketing piece in one of the
directions `D` that has a bracket for `player` on the board `b`: a run of
`k ≥ 1` opponent cells `m + d, ..., m + k*d` followed by a cell of `player`,
with `x` one of the cells of the run. -/
def flippedIn (D : List Int) (b : List Int) (m player x : Int) : Prop :=
  ∃ d ∈ D, ∃ k j : Nat, 1 ≤ j ∧ j ≤ k ∧ x = m + j * d ∧
    (∀ i : Nat, 1 ≤ i → i ≤ k → rd b (m + i * d) = some (opponent player)) ∧
    rd b (m + (k + 1) * d) = some player

/-- The values returned by the loop body for the candidates `j + 1`, `j` taken
from the list of indices in order: `moves[j+1]` is read and the body is run
for it, for every index of the list; there is no result when a read or a run
of the body has none. -/
def visit_all (child : Int → Int → Option Int) (moves : List Int) :
    List Nat → Option (List Int)
  | [] => some []
  | j :: rest =>
    match rd moves ((j : Int) + 1) with
    | none => none
    | some mv =>
      match child ((j : Int) + 1) mv with
      | none => none
      | some u =>
        match visit_all child moves rest with
        | none => none
        | some us => some (u :: us)

/-- The greatest (`maxlayer = 0`) or least value of a list, started from
`-1000` or `1000`, every entry of the list taking part. -/
def reduce_all (maxlayer : Int) (us : List Int) : Int :=
  us.foldl
    (fun acc u =>
      if maxlayer = 0 then (if u > acc then u else acc) else (if u < acc then u else acc))
    (if maxlayer = 0 then -1000 else 1000)

/-- One ply of a search that visits every candidate and cuts nothing off: a
terminal call is evaluated by `calc_util`; otherwise the recursive call is
made for each of the candidates `moves[1 .. moves[0]]`, all their values are
reduced by `reduce_all`, and the result is combined as `minmax` does at the
end of its loop. -/
def exhaustive_step (fuel : Nat) (heap : List Nat → Nat → Int) (c : Call) : Option Int :=
  match rd c.moves 0 with
  | none => none
  | some amount_moves =>
    match new_moves_of heap c with
    | none => none
    | some new_moves =>
      if c.depth > c.curr_layer ∧ amount_moves ≠ 0 then
        match visit_all
            (fun i mv => (child_call heap c new_moves i mv).bind (run_call fuel heap))
            c.moves (List.range amount_moves.toNat) with
        | none => none
        | some us =>
          if c.maxmin = 0 then some (reduce_all c.maxmin us)
          else if reduce_all c.maxmin us < c.beta then some c.beta
          else some (reduce_all c.maxmin us)
      else calc_util c.curr_board c.first_player c.curr_bcount c.curr_wcount c.curr_layer


theorem rd_eq_some {buf : List Int} {c v : Int} (h : rd buf c = some v) :
    0 ≤ c ∧ c < buf.length ∧ buf[c.toNat]? = some v := by
  unfold rd at h
  split at h
  · rename_i h0
    refine ⟨h0, ?_, h⟩
    have := (List.getElem?_eq_some_iff.mp h).1
    omega
  · simp at h

theorem wf_border {b : List Int} (hwf : wellFormed b) {c : Int} (h0 : 0 ≤ c) (h1 : c < 100)
    (hb : c < 10 ∨ 90 ≤ c ∨ c % 10 = 0 ∨ c % 10 = 9) : rd b c = some OUTER := by
  have h := hwf.2 c.toNat (by omega)
  have hbd : isBorder c.toNat = true := by
    simp only [isBorder, Bool.or_eq_true, decide_eq_true_eq]
    omega
  simp only [hbd, if_true] at h
  simp [rd, h0, h]

theorem wf_interior {b : List Int} (hwf : wellFormed b) {c : Int} (h0 : 10 ≤ c) (h1 : c < 90)
    (h2 : 1 ≤ c % 10) (h3 : c % 10 ≤ 8) :
    rd b c = some EMPTY ∨ rd b c = some BLACK ∨ rd b c = some WHITE := by
  have h := hwf.2 c.toNat (by omega)
  have hbd : isBorder c.toNat = false := by
    simp only [isBorder, Bool.or_eq_false_iff, decide_eq_false_iff_not]
    omega
  simp only [hbd] at h
  have h0' : 0 ≤ c := by omega
  simpa [rd, h0'] using h

/-- On a well-formed board a cell holding a piece or `EMPTY` is interior. -/
theorem wf_not_outer {b : List Int} (hwf : wellFormed b) {c v : Int} (h : rd b c = some v)
    (hv : v ≠ OUTER) : 10 ≤ c ∧ c < 90 ∧ 1 ≤ c % 10 ∧ c % 10 ≤ 8 := by
  obtain ⟨h0, h1, _⟩ := rd_eq_some h
  rw [hwf.1] at h1
  by_contra hc
  have : rd b c = some OUTER := wf_border hwf h0 (by exact_mod_cast h1) (by omega)
  rw [this] at h
  exact hv (Option.some.inj h).symm

theorem wf_rd_total {b : List Int} (hwf : wellFormed b) {c : Int} (h0 : 0 ≤ c) (h1 : c < 100) :
    ∃ v, rd b c = some v := by
  by_cases hb : c < 10 ∨ 90 ≤ c ∨ c % 10 = 0 ∨ c % 10 = 9
  · exact ⟨_, wf_border hwf h0 h1 hb⟩
  · rcases wf_interior hwf (c := c) (by omega) (by omega) (by omega) (by omega) with h | h | h
      <;> exact ⟨_, h⟩

theorem wf_safe {b : List Int} (hwf : wellFormed b) : safeBoard b := by
  refine ⟨hwf.1, ?_⟩
  intro i hi hb
  have h := hwf.2 i hi
  simp only [hb, if_true] at h
  rw [h]
  constructor <;> decide

theorem safe_rd_total {b : List Int} (hs : safeBoard b) {c : Int} (h0 : 0 ≤ c) (h1 : c < 100) :
    ∃ v, rd b c = some v := by
  have hlt : c.toNat < b.length := by rw [hs.1]; omega
  exact ⟨b[c.toNat], by simp [rd, h0, List.getElem?_eq_getElem hlt]⟩

/-- On a safe board a cell that holds a piece is an interior cell. -/
theorem safe_piece_interior {b : List Int} (hs : safeBoard b) {c v : Int}
    (h : rd b c = some v) (hv : v = BLACK ∨ v = WHITE) :
    10 ≤ c ∧ c < 90 ∧ 1 ≤ c % 10 ∧ c % 10 ≤ 8 := by
  obtain ⟨h0, h1, hget⟩ := rd_eq_some h
  rw [hs.1] at h1
  by_contra hc
  have hbd : isBorder c.toNat = true := by
    simp only [isBorder, Bool.or_eq_true, decide_eq_true_eq]
    omega
  have := hs.2 c.toNat (by omega) hbd
  rw [hget] at this
  rcases hv with hv | hv
  · exact this.1 (by rw [hv])
  · exact this.2 (by rw [hv])

theorem opponent_ne {player : Int} (hp : player = BLACK ∨ player = WHITE) :
    opponent player ≠ player ∧ opponent player ≠ OUTER ∧ player ≠ OUTER ∧
      (opponent player = BLACK ∨ opponent player = WHITE) := by
  rcases hp with h | h <;> subst h <;> decide

theorem mem_dirs {d : Int} (hd : d ∈ ALLDIRECTIONS) :
    d = -11 ∨ d = -10 ∨ d = -9 ∨ d = -1 ∨ d = 1 ∨ d = 9 ∨ d = 10 ∨ d = 11 := by
  simpa [ALLDIRECTIONS] using hd

theorem fbp_loop_sound (b : List Int) (d player : Int) :
    ∀ (fuel : Nat) (sq r : Int), find_bracket_piece_loop fuel b sq d player = some r →
      r ≠ 0 → ∃ k, runFrom b sq d player k ∧ r = sq + k * d := by
  intro fuel
  induction fuel with
  | zero => intro sq r h; simp [find_bracket_piece_loop] at h
  | succ n ih =>
    intro sq r h hr
    unfold find_bracket_piece_loop at h
    cases hv : rd b sq with
    | none => simp [hv] at h
    | some v =>
      simp only [hv] at h
      by_cases hopp : v = opponent player
      · simp only [hopp, if_true] at h
        obtain ⟨k, ⟨hk1, hk2⟩, hk3⟩ := ih _ _ h hr
        refine ⟨k + 1, ⟨?_, ?_⟩, ?_⟩
        · intro j hj
          cases j with
          | zero => simpa [hopp] using hv
          | succ j =>
            have := hk1 j (by omega)
            rw [← this]; congr 1; push_cast; ring
        · rw [← hk2]; congr 1; push_cast; ring
        · rw [hk3]; push_cast; ring
      · simp only [hopp, if_false] at h
        by_cases hpl : v = player
        · simp only [hpl, if_true] at h
          refine ⟨0, ⟨?_, ?_⟩, ?_⟩
          · intro j hj; omega
          · simpa [hpl] using hv
          · simpa using (Option.some.inj h).symm
        · simp only [hpl, if_false] at h
          exact absurd (Option.some.inj h).symm hr

theorem fbp_loop_complete (b : List Int) (d player : Int) (hne : opponent player ≠ player) :
    ∀ (k fuel : Nat) (sq r : Int), runFrom b sq d player k →
      find_bracket_piece_loop fuel b sq d player = some r → r = sq + k * d := by
  intro k
  induction k with
  | zero =>
    intro fuel sq r ⟨_, h2⟩ h
    cases fuel with
    | zero => simp [find_bracket_piece_loop] at h
    | succ n =>
      unfold find_bracket_piece_loop at h
      simp only [Nat.cast_zero, zero_mul, add_zero] at h2
      simp only [h2, hne.symm, if_false, if_true] at h
      simpa using (Option.some.inj h).symm
  | succ k ih =>
    intro fuel sq r ⟨h1, h2⟩ h
    cases fuel with
    | zero => simp [find_bracket_piece_loop] at h
    | succ n =>
      unfold find_bracket_piece_loop at h
      have h0 : rd b sq = some (opponent player) := by simpa using h1 0 (by omega)
      simp only [h0, if_true] at h
      have hrun : runFrom b (sq + d) d player k := by
        refine ⟨?_, ?_⟩
        · intro j hj
          have := h1 (j + 1) (by omega)
          rw [← this]; congr 1; push_cast; ring
        · rw [← h2]; congr 1; push_cast; ring
      rw [ih n (sq + d) r hrun h]; push_cast; ring

/-- On a safe board the walk of `find_bracket_piece` ends inside the board. -/
theorem fbp_loop_total {b : List Int} (hs : safeBoard b) {d player : Int}
    (hp : player = BLACK ∨ player = WHITE) (hd : d ∈ ALLDIRECTIONS) :
    ∀ (fuel : Nat) (sq : Int), 0 ≤ sq → sq < 100 →
      (if 0 < d then 99 - sq else sq) < fuel →
      ∃ r, find_bracket_piece_loop fuel b sq d player = some r := by
  intro fuel
  induction fuel with
  | zero => intro sq h0 h1 hm; split at hm <;> omega
  | succ n ih =>
    intro sq h0 h1 hm
    obtain ⟨v, hv⟩ := safe_rd_total hs h0 h1
    unfold find_bracket_piece_loop
    simp only [hv]
    by_cases hopp : v = opponent player
    · simp only [hopp, if_true]
      have hint := safe_piece_interior hs hv (by rw [hopp]; exact (opponent_ne hp).2.2.2)
      have hdd := mem_dirs hd
      apply ih
      · omega
      · omega
      · split at hm <;> split <;> omega
    · simp only [hopp, if_false]
      split <;> exact ⟨_, rfl⟩

theorem validp_ne_zero_iff (m : Int) :
    validp m ≠ 0 ↔ 11 ≤ m ∧ m ≤ 88 ∧ 1 ≤ m % 10 ∧ m % 10 ≤ 8 := by
  unfold validp
  by_cases h : 11 ≤ m
  · have : m.tmod 10 = m % 10 := Int.tmod_eq_emod (by omega) (by omega)
    rw [this]
    split <;> rename_i hc
    · simp only [ne_eq, one_ne_zero, not_false_eq_true, true_iff]; omega
    · simp only [ne_eq, not_true_eq_false, false_iff]; intro hh; exact hc (by omega)
  · split <;> rename_i hc
    · omega
    · simp only [ne_eq, not_true_eq_false, false_iff]; omega

theorem would_flip_spec {b : List Int} (hs : safeBoard b) {m d player : Int}
    (hp : player = BLACK ∨ player = WHITE) (hd : d ∈ ALLDIRECTIONS)
    (hm : 11 ≤ m ∧ m ≤ 88 ∧ 1 ≤ m % 10 ∧ m % 10 ≤ 8) :
    ∃ r, would_flip b m d player = some r ∧ (r ≠ 0 ↔ brackets b m d player) := by
  have hdd := mem_dirs hd
  obtain ⟨hne, hno, hpo, hob⟩ := opponent_ne hp
  obtain ⟨v, hv⟩ := safe_rd_total hs (c := m + d) (by omega) (by omega)
  unfold would_flip
  simp only [hv]
  by_cases hopp : v = opponent player
  · simp only [hopp, if_true]
    have hint := safe_piece_interior hs hv (by rw [hopp]; exact hob)
    obtain ⟨r, hr⟩ := fbp_loop_total hs hp hd BOARDSIZE (m + d + d) (by omega) (by omega)
      (by simp only [BOARDSIZE]; split <;> omega)
    refine ⟨r, hr, ?_, ?_⟩
    · intro hr0
      obtain ⟨k, ⟨hk1, hk2⟩, _⟩ := fbp_loop_sound b d player _ _ _ hr hr0
      refine ⟨k + 1, by omega, ?_, ?_⟩
      · intro j hj1 hj2
        obtain ⟨j, rfl⟩ : ∃ i, j = i + 1 := ⟨j - 1, by omega⟩
        cases j with
        | zero => simpa [hopp] using hv
        | succ j =>
          have := hk1 j (by omega)
          rw [← this]; congr 1; push_cast; ring
      · rw [← hk2]; congr 1; push_cast; ring
    · rintro ⟨k, hk0, hk1, hk2⟩
      obtain ⟨k, rfl⟩ : ∃ i, k = i + 1 := ⟨k - 1, by omega⟩
      have hrun : runFrom b (m + d + d) d player k := by
        refine ⟨?_, ?_⟩
        · intro j hj
          have := hk1 (j + 2) (by omega) (by omega)
          rw [← this]; congr 1; push_cast; ring
        · rw [← hk2]; congr 1; push_cast; ring
      have hreq := fbp_loop_complete b d player hne k _ _ _ hrun hr
      have hcell := safe_piece_interior hs hrun.2 hp
      rw [hreq]; omega
  · simp only [hopp, if_false]
    refine ⟨0, rfl, ?_⟩
    simp only [ne_eq, not_true_eq_false, false_iff]
    rintro ⟨k, hk0, hk1, _⟩
    have := hk1 1 (by omega) hk0
    simp only [Nat.cast_one, one_mul] at this
    rw [hv] at this
    exact hopp (Option.some.inj this)

theorem legalp_loop_spec {b : List Int} (hs : safeBoard b) {m player : Int}
    (hp : player = BLACK ∨ player = WHITE)
    (hm : 11 ≤ m ∧ m ≤ 88 ∧ 1 ≤ m % 10 ∧ m % 10 ≤ 8) :
    ∀ (ds : List Int), (∀ d ∈ ds, d ∈ ALLDIRECTIONS) → ∀ i : Int,
      ∃ i2, legalp_loop b m player ds i = some i2 ∧ i2 ≤ i + ds.length ∧
        (i2 = i + ds.length ↔ ¬ ∃ d ∈ ds, brackets b m d player) := by
  intro ds
  induction ds with
  | nil => intro _ i; exact ⟨i, rfl, by simp, by simp⟩
  | cons d ds ih =>
    intro hds i
    obtain ⟨r, hr, hrb⟩ := would_flip_spec hs hp (hds d (List.mem_cons_self _ _)) hm
    unfold legalp_loop
    simp only [hr]
    by_cases hr0 : r ≠ 0
    · simp only [ne_eq, hr0, not_false_eq_true, if_true]
      refine ⟨i, rfl, by simp only [List.length_cons]; push_cast; omega, ?_⟩
      constructor
      · intro h; simp only [List.length_cons] at h; push_cast at h; omega
      · intro h; exact absurd ⟨d, List.mem_cons_self _ _, hrb.mp hr0⟩ h
    · simp only [hr0, if_false]
      obtain ⟨i2, h1, h2, h3⟩ := ih (fun x hx => hds x (List.mem_cons_of_mem _ hx)) (i + 1)
      refine ⟨i2, h1, by simp only [List.length_cons]; push_cast; omega, ?_⟩
      have hnb : ¬ brackets b m d player := fun hb => hr0 (hrb.mpr hb)
      simp only [List.length_cons, List.mem_cons, exists_eq_or_imp, hnb, false_or]
      rw [← h3]; push_cast; constructor <;> intro h <;> omega

theorem legalp_spec {b : List Int} (hs : safeBoard b) {player : Int}
    (hp : player = BLACK ∨ player = WHITE) (m : Int) :
    ∃ r, legalp b m player = some r ∧ (r = 0 ∨ r = 1) ∧ (r ≠ 0 ↔ legalSpec b player m) := by
  unfold legalp
  by_cases hv : validp m = 0
  · simp only [hv, if_true]
    refine ⟨0, rfl, Or.inl rfl, ?_⟩
    simp only [ne_eq, not_true_eq_false, false_iff]
    rintro ⟨h1, h2, h3, h4, _⟩
    exact (validp_ne_zero_iff m).mpr ⟨h1, h2, h3, h4⟩ hv
  · simp only [hv, if_false]
    have hm := (validp_ne_zero_iff m).mp hv
    obtain ⟨v, hrd⟩ := safe_rd_total hs (c := m) (by omega) (by omega)
    simp only [hrd]
    by_cases he : v = EMPTY
    · simp only [he, if_true]
      obtain ⟨i2, h1, h2, h3⟩ := legalp_loop_spec hs hp hm ALLDIRECTIONS (fun _ h => h) 0
      simp only [h1]
      have hlen : ((ALLDIRECTIONS.length : Nat) : Int) = 8 := by decide
      rw [hlen] at h2 h3
      simp only [zero_add] at h2 h3
      by_cases h8 : i2 = 8
      · simp only [h8, if_true]
        refine ⟨0, rfl, Or.inl rfl, ?_⟩
        simp only [ne_eq, not_true_eq_false, false_iff]
        rintro ⟨_, _, _, _, _, hex⟩
        exact (h3.mp h8) hex
      · simp only [h8, if_false]
        refine ⟨1, rfl, Or.inr rfl, ?_⟩
        simp only [ne_eq, one_ne_zero, not_false_eq_true, true_iff]
        have hex : ∃ d ∈ ALLDIRECTIONS, brackets b m d player := by
          by_contra hc; exact h8 (h3.mpr hc)
        exact ⟨hm.1, hm.2.1, hm.2.2.1, hm.2.2.2, by rw [hrd, he], hex⟩
    · simp only [he, if_false]
      refine ⟨0, rfl, Or.inl rfl, ?_⟩
      simp only [ne_eq, not_true_eq_false, false_iff]
      rintro ⟨_, _, _, _, h5, _⟩
      rw [hrd] at h5
      exact he (Option.some.inj h5)

theorem legal_moves_loop_spec {b : List Int} (hs : safeBoard b) {player : Int}
    (hp : player = BLACK ∨ player = WHITE) :
    ∀ cs : List Int, ∃ ms, legal_moves_loop b player cs = some ms ∧ ms.Sublist cs ∧
      ∀ m, m ∈ ms ↔ (m ∈ cs ∧ legalSpec b player m) := by
  intro cs
  induction cs with
  | nil => exact ⟨[], rfl, List.Sublist.refl _, by simp⟩
  | cons c cs ih =>
    obtain ⟨ms, h1, h2, h3⟩ := ih
    obtain ⟨r, hr, _, hrs⟩ := legalp_spec hs hp c
    unfold legal_moves_loop
    simp only [hr, h1]
    by_cases hr0 : r ≠ 0
    · simp only [ne_eq, hr0, not_false_eq_true, if_true]
      refine ⟨_, rfl, h2.cons₂ c, ?_⟩
      intro m
      simp only [List.mem_cons, h3]
      constructor
      · rintro (h | h)
        · subst h; exact ⟨Or.inl rfl, hrs.mp hr0⟩
        · exact ⟨Or.inr h.1, h.2⟩
      · rintro ⟨h | h, hl⟩
        · exact Or.inl h
        · exact Or.inr ⟨h, hl⟩
    · simp only [hr0, if_false]
      refine ⟨_, rfl, h2.cons c, ?_⟩
      intro m
      simp only [List.mem_cons, h3]
      constructor
      · rintro ⟨h, hl⟩; exact ⟨Or.inr h, hl⟩
      · rintro ⟨h | h, hl⟩
        · subst h; exact absurd (hrs.mpr hl) hr0
        · exact ⟨h, hl⟩

theorem scanCells_sorted : scanCells.Pairwise (· < ·) := by
  unfold scanCells
  rw [List.pairwise_map]
  have h : (List.range' 11 78).Pairwise (· < ·) := List.pairwise_lt_range' 11 78
  exact h.imp (fun hab => by simp only [Int.ofNat_eq_coe]; exact_mod_cast hab)

theorem mem_scanCells (m : Int) : m ∈ scanCells ↔ 11 ≤ m ∧ m ≤ 88 := by
  unfold scanCells
  simp only [List.mem_map, List.mem_range'_1]
  constructor
  · rintro ⟨a, ha, rfl⟩; simp only [Int.ofNat_eq_coe]; omega
  · intro h; exact ⟨m.toNat, by omega, by simp only [Int.ofNat_eq_coe]; omega⟩

/-- C1. On a well-formed board, for a player in {BLACK, WHITE}, `legal_moves`
returns `moves[0] = k` followed by `k` moves that are strictly increasing in
cell order and are exactly the interior cells `m` (11..88, column 1..8) that
hold `EMPTY` and have at least one direction `d` in which `m + d` holds the
opponent and the run of opponent cells from there ends on a cell of the
player. -/
theorem legal_moves_exhaustive (b : List Int) (player : Int) (hwf : wellFormed b)
    (hp : player = BLACK ∨ player = WHITE) :
    ∃ ms : List Int, legal_moves b player = some ((ms.length : Int) :: ms) ∧
      ms.Pairwise (· < ·) ∧
      ∀ m : Int, m ∈ ms ↔
        (11 ≤ m ∧ m ≤ 88 ∧ 1 ≤ m % 10 ∧ m % 10 ≤ 8 ∧ rd b m = some EMPTY ∧
          ∃ d ∈ ALLDIRECTIONS, brackets b m d player) := by
  obtain ⟨ms, h1, h2, h3⟩ := legal_moves_loop_spec (wf_safe hwf) hp scanCells
  refine ⟨ms, by simp [legal_moves, h1], scanCells_sorted.sublist h2, ?_⟩
  intro m
  rw [h3, mem_scanCells]
  constructor
  · rintro ⟨_, h⟩; exact h
  · intro h; exact ⟨⟨h.1, h.2.1⟩, h⟩

theorem cnt_nil (b : List Int) (player : Int) : cnt b player [] = 0 := rfl

theorem cnt_cons (b : List Int) (player : Int) (i : Nat) (is : List Nat) :
    cnt b player (i :: is) = (if b[i]? = some player then 1 else 0) + cnt b player is := by
  unfold cnt
  by_cases h : b[i]? = some player
  · simp only [List.filter_cons, h, decide_True, if_true, List.length_cons]; omega
  · simp only [List.filter_cons, h, decide_False, if_false]; simp

theorem count_loop_eq (b : List Int) (player : Int) :
    ∀ (is : List Nat) (c : Int), (∀ i ∈ is, i < b.length) →
      count_loop b player is c = some (c + cnt b player is) := by
  intro is
  induction is with
  | nil => intro c _; simp [count_loop, cnt_nil]
  | cons i is ih =>
    intro c hlt
    have hi : i < b.length := hlt i (List.mem_cons_self _ _)
    have hget : b[i]? = some b[i] := List.getElem?_eq_getElem hi
    unfold count_loop
    simp only [hget]
    rw [ih _ (fun x hx => hlt x (List.mem_cons_of_mem _ hx)), cnt_cons, hget]
    simp only [Option.some.injEq]
    by_cases hv : b[i] = player
    · simp only [hv, if_true]; push_cast; ring
    · simp only [hv, if_false]; push_cast; ring

theorem count_eq {b : List Int} (hlen : b.length = 100) (player : Int) :
    count b player = some ((cnt b player (List.range' 1 88) : Nat) : Int) := by
  unfold count
  rw [count_loop_eq]
  · simp
  · intro i hi
    simp only [List.mem_range'_1] at hi
    omega

theorem cnt_set_not_mem (b : List Int) (player v : Int) (c : Nat) :
    ∀ is : List Nat, c ∉ is → cnt (b.set c v) player is = cnt b player is := by
  intro is hc
  unfold cnt
  congr 1
  apply List.filter_congr
  intro i hi
  have : c ≠ i := fun h => hc (h ▸ hi)
  simp [List.getElem?_set, this]

theorem cnt_set_mem (b : List Int) (player v : Int) (c : Nat) (hc : c < b.length) :
    ∀ is : List Nat, is.Nodup → c ∈ is →
      cnt (b.set c v) player is + (if b[c]? = some player then 1 else 0)
        = cnt b player is + (if v = player then 1 else 0) := by
  intro is
  induction is with
  | nil => intro _ h; simp at h
  | cons i is ih =>
    intro hnd hmem
    rw [List.nodup_cons] at hnd
    rw [cnt_cons, cnt_cons]
    by_cases hci : c = i
    · subst hci
      rw [cnt_set_not_mem b player v c is hnd.1]
      have hs : (b.set c v)[c]? = some v := by simp [List.getElem?_set, hc]
      rw [hs]
      simp only [Option.some.injEq]
      omega
    · have hmem2 : c ∈ is := by
        rcases List.mem_cons.mp hmem with h | h
        · exact absurd h hci
        · exact h
      have h1 := ih hnd.2 hmem2
      have hs : (b.set c v)[i]? = b[i]? := by simp [List.getElem?_set, hci]
      rw [hs]
      omega

/-- Writing `v` over `old` at an index in `1 .. 88` changes the piece total by
the difference of their piece indicators. -/
theorem pieces_set (b : List Int) (v old : Int) (c : Nat) (hc : c < b.length)
    (h1 : 1 ≤ c) (h88 : c ≤ 88) (hold : b[c]? = some old) :
    pieces (b.set c v) + ((if old = BLACK then 1 else 0) + (if old = WHITE then 1 else 0))
      = pieces b + ((if v = BLACK then 1 else 0) + (if v = WHITE then 1 else 0)) := by
  have hnd : (List.range' 1 88).Nodup := List.nodup_range' 1 88
  have hmem : c ∈ List.range' 1 88 := by simp only [List.mem_range'_1]; omega
  have hB := cnt_set_mem b BLACK v c hc _ hnd hmem
  have hW := cnt_set_mem b WHITE v c hc _ hnd hmem
  simp only [hold, Option.some.injEq] at hB hW
  unfold pieces
  omega

theorem wf_set {b : List Int} (hwf : wellFormed b) {c v : Int}
    (hc : 10 ≤ c ∧ c < 90 ∧ 1 ≤ c % 10 ∧ c % 10 ≤ 8)
    (hv : v = EMPTY ∨ v = BLACK ∨ v = WHITE) : wellFormed (b.set c.toNat v) := by
  refine ⟨by simpa using hwf.1, ?_⟩
  intro i hi
  have h := hwf.2 i hi
  by_cases hic : c.toNat = i
  · have hbd : isBorder i = false := by
      simp only [isBorder, Bool.or_eq_false_iff, decide_eq_false_iff_not]
      omega
    have hlt : c.toNat < b.length := by rw [hwf.1]; omega
    simp only [hbd, List.getElem?_set, hic, if_true, Option.some.injEq]
    rw [hic] at hlt
    simpa [hlt] using hv
  · simpa [List.getElem?_set, hic] using h

theorem safe_set {b : List Int} (hs : safeBoard b) {c : Int}
    (hc : 10 ≤ c ∧ c < 90 ∧ 1 ≤ c % 10 ∧ c % 10 ≤ 8) (v : Int) :
    safeBoard (b.set c.toNat v) := by
  refine ⟨by simpa using hs.1, ?_⟩
  intro i hi hb
  have h := hs.2 i hi hb
  have hic : c.toNat ≠ i := by
    intro hcontra
    subst hcontra
    simp only [isBorder, Bool.or_eq_true, decide_eq_true_eq] at hb
    omega
  simpa [List.getElem?_set, hic] using h

theorem rd_set_ne (b : List Int) {c c2 : Int} (v : Int) (h0 : 0 ≤ c) (hne : c ≠ c2) :
    rd (b.set c.toNat v) c2 = rd b c2 := by
  unfold rd
  split
  · have : c.toNat ≠ c2.toNat := by omega
    simp [List.getElem?_set, this]
  · rfl

theorem would_flip_run {b : List Int} {m d player r : Int}
    (h : would_flip b m d player = some r) (hr : r ≠ 0) :
    rd b (m + d) = some (opponent player) ∧
      ∃ k, runFrom b (m + d + d) d player k ∧ r = m + d + d + k * d := by
  unfold would_flip at h
  cases hv : rd b (m + d) with
  | none => simp [hv] at h
  | some v =>
    simp only [hv] at h
    by_cases hopp : v = opponent player
    · simp only [hopp, if_true] at h
      exact ⟨by rw [hopp], fbp_loop_sound b d player _ _ _ h hr⟩
    · simp only [hopp, if_false] at h
      exact absurd (Option.some.inj h).symm hr

/-- The flipping loop over a run of `k ≥ 1` opponent cells that starts at `c`
ends, keeps the board safe (and well formed if it was) and keeps the number
of pieces. -/
theorem make_flips_loop_inv {d player : Int} (hp : player = BLACK ∨ player = WHITE)
    (hd : d ∈ ALLDIRECTIONS) :
    ∀ (fuel : Nat) (b : List Int) (c : Int) (k : Nat), safeBoard b → 1 ≤ k → k ≤ fuel →
      (∀ j : Nat, j < k → rd b (c + j * d) = some (opponent player)) →
      ∃ b2, make_flips_loop fuel b c d player (c + k * d) = some b2 ∧ safeBoard b2 ∧
        (wellFormed b → wellFormed b2) ∧ pieces b2 = pieces b := by
  intro fuel
  induction fuel with
  | zero => intro b c k _ h1 h2; omega
  | succ n ih =>
    intro b c k hs hk1 hkn hrun
    have hdd := mem_dirs hd
    obtain ⟨hne, hno, hpo, hopp⟩ := opponent_ne hp
    have hc : rd b c = some (opponent player) := by simpa using hrun 0 (by omega)
    have hint := safe_piece_interior hs hc hopp
    obtain ⟨hc0, hclt, hcget⟩ := rd_eq_some hc
    have hwr : wr b c player = some (b.set c.toNat player) := by
      unfold wr
      have : 0 ≤ c ∧ c.toNat < b.length := ⟨hc0, by omega⟩
      simp only [this, and_self, if_true]
    have hs1 : safeBoard (b.set c.toNat player) := safe_set hs hint player
    have hwf1 : wellFormed b → wellFormed (b.set c.toNat player) :=
      fun hwf => wf_set hwf hint (by rcases hp with h | h <;> simp [h])
    have hpc : pieces (b.set c.toNat player) = pieces b := by
      have := pieces_set b player (opponent player) c.toNat (by omega) (by omega) (by omega) hcget
      rcases hp with h | h <;> subst h <;>
        simp only [opponent, BLACK, WHITE, EMPTY] at this ⊢ <;> simp at this <;> omega
    unfold make_flips_loop
    simp only [hwr]
    by_cases hbr : c + d ≠ c + k * d
    · simp only [ne_eq, hbr, not_false_eq_true, if_true]
      have hk2 : 2 ≤ k := by
        by_contra hlt
        have : k = 1 := by omega
        subst this
        simp at hbr
      have hrun2 : ∀ j : Nat, j < k - 1 →
          rd (b.set c.toNat player) (c + d + j * d) = some (opponent player) := by
        intro j hj
        have hj1 := hrun (j + 1) (by omega)
        have heq : c + d + (j : Int) * d = c + ((j + 1 : Nat) : Int) * d := by push_cast; ring
        rw [heq, rd_set_ne b player hc0, hj1]
        intro hcontra
        have : ((j + 1 : Nat) : Int) * d = 0 := by omega
        rcases mul_eq_zero.mp this with h | h
        · omega
        · rcases hdd with h' | h' | h' | h' | h' | h' | h' | h' <;> omega
      obtain ⟨b2, h1, h2, h2w, h3⟩ := ih _ (c + d) (k - 1) hs1 (by omega) (by omega) hrun2
      have heq : c + d + ((k - 1 : Nat) : Int) * d = c + k * d := by
        have : ((k - 1 : Nat) : Int) = (k : Int) - 1 := by omega
        rw [this]; ring
      rw [heq] at h1
      exact ⟨b2, h1, h2, fun hwf => h2w (hwf1 hwf), by rw [h3, hpc]⟩
    · simp only [ne_eq, hbr, not_true_eq_false, if_false]
      exact ⟨_, rfl, hs1, hwf1, hpc⟩

theorem make_flips_inv {b : List Int} (hs : safeBoard b) {m d player : Int}
    (hp : player = BLACK ∨ player = WHITE) (hd : d ∈ ALLDIRECTIONS)
    (hm : 11 ≤ m ∧ m ≤ 88 ∧ 1 ≤ m % 10 ∧ m % 10 ≤ 8) :
    ∃ b2, make_flips b m d player = some b2 ∧ safeBoard b2 ∧
      (wellFormed b → wellFormed b2) ∧ pieces b2 = pieces b := by
  obtain ⟨r, hr, _⟩ := would_flip_spec hs hp hd hm
  unfold make_flips
  simp only [hr]
  by_cases hr0 : r ≠ 0
  · simp only [ne_eq, hr0, not_false_eq_true, if_true]
    obtain ⟨h1, k, ⟨hk1, hk2⟩, hk3⟩ := would_flip_run hr hr0
    have hdd := mem_dirs hd
    have hrun : ∀ j : Nat, j < k + 1 → rd b (m + d + j * d) = some (opponent player) := by
      intro j hj
      cases j with
      | zero => simpa using h1
      | succ j =>
        have := hk1 j (by omega)
        rw [← this]; congr 1; push_cast; ring
    have hbound : k + 1 ≤ BOARDSIZE := by
      obtain ⟨e0, e1, _⟩ := rd_eq_some hk2
      rw [hs.1] at e1
      simp only [BOARDSIZE]
      rcases hdd with h' | h' | h' | h' | h' | h' | h' | h' <;> subst h' <;> omega
    obtain ⟨b2, h2, h3, h3w, h4⟩ :=
      make_flips_loop_inv hp hd BOARDSIZE b (m + d) (k + 1) hs (by omega) hbound hrun
    have heq : m + d + ((k + 1 : Nat) : Int) * d = r := by rw [hk3]; push_cast; ring
    rw [heq] at h2
    exact ⟨b2, h2, h3, h3w, h4⟩
  · simp only [hr0, if_false]
    exact ⟨b, rfl, hs, id, rfl⟩

theorem make_move_loop_inv {m player : Int} (hp : player = BLACK ∨ player = WHITE)
    (hm : 11 ≤ m ∧ m ≤ 88 ∧ 1 ≤ m % 10 ∧ m % 10 ≤ 8) :
    ∀ (ds : List Int), (∀ d ∈ ds, d ∈ ALLDIRECTIONS) → ∀ b : List Int, safeBoard b →
      ∃ b2, make_move_loop m player ds b = some b2 ∧ safeBoard b2 ∧
        (wellFormed b → wellFormed b2) ∧ pieces b2 = pieces b := by
  intro ds
  induction ds with
  | nil => intro _ b hs; exact ⟨b, rfl, hs, id, rfl⟩
  | cons d ds ih =>
    intro hds b hs
    obtain ⟨b1, h1, h2, h2w, h3⟩ := make_flips_inv hs hp (hds d (List.mem_cons_self _ _)) hm
    obtain ⟨b2, h4, h5, h5w, h6⟩ := ih (fun x hx => hds x (List.mem_cons_of_mem _ hx)) b1 h2
    unfold make_move_loop
    simp only [h1]
    exact ⟨b2, h4, h5, fun hwf => h5w (h2w hwf), by rw [h6, h3]⟩

/-- On a safe board `make_move` for an interior cell and a player returns a
safe board. -/
theorem make_move_safe {b : List Int} (hs : safeBoard b) {m player : Int}
    (hp : player = BLACK ∨ player = WHITE)
    (hm : 11 ≤ m ∧ m ≤ 88 ∧ 1 ≤ m % 10 ∧ m % 10 ≤ 8) :
    ∃ b2, make_move b m player = some b2 ∧ safeBoard b2 := by
  have hwr : wr b m player = some (b.set m.toNat player) := by
    unfold wr
    have : 0 ≤ m ∧ m.toNat < b.length := ⟨by omega, by rw [hs.1]; omega⟩
    simp only [this, and_self, if_true]
  have hs1 : safeBoard (b.set m.toNat player) :=
    safe_set hs ⟨by omega, by omega, hm.2.2.1, hm.2.2.2⟩ player
  obtain ⟨b2, h1, h2, _, _⟩ := make_move_loop_inv hp hm ALLDIRECTIONS (fun _ h => h) _ hs1
  exact ⟨b2, by unfold make_move; simp only [hwr]; exact h1, h2⟩

theorem legalp_one {b : List Int} (hs : safeBoard b) {m player : Int}
    (hp : player = BLACK ∨ player = WHITE) (hl : legalp b m player = some 1) :
    (11 ≤ m ∧ m ≤ 88 ∧ 1 ≤ m % 10 ∧ m % 10 ≤ 8) ∧ rd b m = some EMPTY := by
  obtain ⟨r, hr, _, hrs⟩ := legalp_spec hs hp m
  rw [hl] at hr
  have : r = 1 := (Option.some.inj hr).symm
  subst this
  obtain ⟨h1, h2, h3, h4, h5, _⟩ := hrs.mp (by decide)
  exact ⟨⟨h1, h2, h3, h4⟩, h5⟩

/-- C2. On a well-formed board, for a player in {BLACK, WHITE} and a move that
`legalp` accepts, `make_move` returns a board on which
`count(BLACK) + count(WHITE)` is the value before the move plus exactly one. -/
theorem make_move_piece_count (b : List Int) (m player : Int) (hwf : wellFormed b)
    (hp : player = BLACK ∨ player = WHITE) (hl : legalp b m player = some 1) :
    ∃ b2 cb cw cb2 cw2, make_move b m player = some b2 ∧
      count b BLACK = some cb ∧ count b WHITE = some cw ∧
      count b2 BLACK = some cb2 ∧ count b2 WHITE = some cw2 ∧
      cb2 + cw2 = cb + cw + 1 := by
  obtain ⟨hm, hempty⟩ := legalp_one (wf_safe hwf) hp hl
  obtain ⟨hm0, hmlt, hmget⟩ := rd_eq_some hempty
  have hwr : wr b m player = some (b.set m.toNat player) := by
    unfold wr
    have : 0 ≤ m ∧ m.toNat < b.length := ⟨hm0, by omega⟩
    simp only [this, and_self, if_true]
  have hwf1 : wellFormed (b.set m.toNat player) :=
    wf_set hwf ⟨by omega, by omega, hm.2.2.1, hm.2.2.2⟩ (by rcases hp with h | h <;> simp [h])
  have hpc : pieces (b.set m.toNat player) = pieces b + 1 := by
    have := pieces_set b player EMPTY m.toNat (by omega) (by omega) (by omega) hmget
    rcases hp with h | h <;> subst h <;>
      simp only [BLACK, WHITE, EMPTY] at this ⊢ <;> simp at this <;> omega
  obtain ⟨b2, h1, h2, _, h3⟩ :=
    make_move_loop_inv hp hm ALLDIRECTIONS (fun _ h => h) _ (wf_safe hwf1)
  refine ⟨b2, _, _, _, _, ?_, count_eq hwf.1 BLACK, count_eq hwf.1 WHITE,
    count_eq h2.1 BLACK, count_eq h2.1 WHITE, ?_⟩
  · unfold make_move; simp only [hwr]; exact h1
  · have : pieces b2 = pieces b + 1 := by rw [h3, hpc]
    unfold pieces at this
    exact_mod_cast this

theorem tdiv_natCast (N P : Nat) : (N : Int).tdiv (P : Int) = ((N / P : Nat) : Int) := by
  rw [Int.tdiv_eq_ediv (by omega) (by omega)]; norm_cast

theorem tmod_natCast (N P : Nat) : (N : Int).tmod (P : Int) = ((N % P : Nat) : Int) := by
  rw [Int.tmod_eq_emod (by omega) (by omega)]; norm_cast

theorem send_count_get (N P i : Nat) (hi : i < P) :
    (send_count N P)[i]? = some (((if i = 0 then N / P + N % P else N / P : Nat)) : Int) := by
  unfold send_count
  rw [List.getElem?_map, List.getElem?_range hi]
  simp only [Option.map_some', tdiv_natCast, tmod_natCast]
  split <;> simp

theorem disp_get (N P i : Nat) (hi : i < P) :
    (disp N P)[i]? = some (((if i = 0 then 1 else N / P * i + N % P + 1 : Nat)) : Int) := by
  unfold disp
  rw [List.getElem?_map, List.getElem?_range hi]
  simp only [Option.map_some', tdiv_natCast, tmod_natCast]
  split <;> simp

theorem scatterv_some (buf sc dp : List Int) (rank : Nat) (recv : Int) (c d : Nat)
    (hc : sc[rank]? = some (c : Int)) (hd : dp[rank]? = some (d : Int))
    (hb : d + c ≤ buf.length) (hr : (c : Int) ≤ recv) :
    scatterv buf sc dp rank recv = some ((buf.drop d).take c) := by
  unfold scatterv
  have hcond : (0 : Int) ≤ (c : Int) ∧ (0 : Int) ≤ (d : Int) ∧
      (d : Int) + (c : Int) ≤ (buf.length : Int) ∧ (c : Int) ≤ recv :=
    ⟨by omega, by omega, by exact_mod_cast hb, hr⟩
  simp only [hc, hd, hcond, and_self, if_true, Int.toNat_ofNat]

theorem chunks_flatten (ms : List Int) (N P : Nat) :
    ∀ k, ((List.range (k + 1)).map (chunkOf ms N P)).flatten = ms.take (N / P * (k + 1) + N % P) := by
  intro k
  induction k with
  | zero => simp [chunkOf, List.range_succ]
  | succ k ih =>
    rw [List.range_succ, List.map_append, List.flatten_append, ih]
    simp only [List.map_cons, List.map_nil, List.flatten_cons, List.flatten_nil, List.append_nil,
      chunkOf, Nat.succ_ne_zero, if_false, Nat.add_eq_zero, one_ne_zero, and_false]
    rw [← List.take_add]
    congr 1
    ring

theorem send_count_sum (N P : Nat) (hP : 1 ≤ P) : (send_count N P).sum = N := by
  obtain ⟨k, rfl⟩ : ∃ k, P = k + 1 := ⟨P - 1, by omega⟩
  have key : ∀ j, ((List.range (j + 1)).map
      (fun i : Nat => if i = 0 then (N : Int).tdiv ((k + 1 : Nat) : Int) + (N : Int).tmod ((k + 1 : Nat) : Int)
        else (N : Int).tdiv ((k + 1 : Nat) : Int))).sum
        = ((N / (k + 1) * (j + 1) + N % (k + 1) : Nat) : Int) := by
    intro j
    rw [tdiv_natCast, tmod_natCast]
    generalize N / (k + 1) = q
    generalize N % (k + 1) = r
    induction j with
    | zero => simp [List.range_succ]
    | succ j ih =>
      rw [List.range_succ, List.map_append, List.sum_append, ih]
      simp only [List.map_cons, List.map_nil, List.sum_cons, List.sum_nil, Nat.succ_ne_zero,
        if_false, Nat.add_eq_zero, one_ne_zero, and_false]
      push_cast; ring
  unfold send_count
  rw [key k]
  have := Nat.div_add_mod N (k + 1)
  have h2 : N / (k + 1) * (k + 1) + N % (k + 1) = N := by rw [Nat.mul_comm]; exact this
  exact_mod_cast h2

/-- C3. For every move count `N` and unit count `P ≥ 1`, with
`moves = N :: ms`: rank 0 is assigned `N/P + N mod P` moves from list
position 1 and each rank `i ≥ 1` is assigned `N/P` moves from position
`(N/P)*i + N mod P + 1`; the sizes sum to `N`; each chunk starts where the
previous one ends; the chunks delivered by the scatter, concatenated in rank
order, are exactly `ms`; and the receive count of each worker equals the
count sent to it. -/
theorem scatter_partition (N P : Nat) (ms : List Int) (hP : 1 ≤ P) (hlen : ms.length = N) :
    (send_count N P)[0]? = some (((N / P + N % P : Nat)) : Int) ∧
    (disp N P)[0]? = some 1 ∧
    (∀ i, 1 ≤ i → i < P →
      (send_count N P)[i]? = some ((N / P : Nat) : Int) ∧
      (disp N P)[i]? = some ((N / P * i + N % P + 1 : Nat) : Int)) ∧
    (send_count N P).sum = N ∧
    (∀ i, i + 1 < P → ∃ d c, (disp N P)[i]? = some d ∧ (send_count N P)[i]? = some c ∧
      (disp N P)[i + 1]? = some (d + c)) ∧
    (∃ chunks : List (List Int), chunks.length = P ∧
      (∀ i, i < P → ∃ ch, chunks[i]? = some ch ∧
        scatterv ((N : Int) :: ms) (send_count N P) (disp N P) i
          (if i = 0 then (N : Int).tdiv P + (N : Int).tmod P else worker_recv_count N P)
          = some ch) ∧
      chunks.flatten = ms) ∧
    (∀ i, 1 ≤ i → i < P → (send_count N P)[i]? = some (worker_recv_count N P)) := by
  have hdm : N / P * P + N % P = N := by rw [Nat.mul_comm]; exact Nat.div_add_mod N P
  refine ⟨?_, ?_, ?_, send_count_sum N P hP, ?_, ?_, ?_⟩
  · rw [send_count_get N P 0 (by omega)]; simp
  · rw [disp_get N P 0 (by omega)]; simp
  · intro i h1 h2
    have hi : i ≠ 0 := by omega
    rw [send_count_get N P i h2, disp_get N P i h2]
    simp [hi]
  · intro i hi
    refine ⟨_, _, disp_get N P i (by omega), send_count_get N P i (by omega), ?_⟩
    rw [disp_get N P (i + 1) hi]
    generalize N / P = q
    generalize N % P = r
    by_cases h0 : i = 0
    · subst h0; simp; ring
    · simp only [h0, if_false, Nat.succ_ne_zero, Nat.add_eq_zero, one_ne_zero, and_false]
      push_cast; ring_nf
  · refine ⟨(List.range P).map (chunkOf ms N P), by simp, ?_, ?_⟩
    · intro i hi
      refine ⟨chunkOf ms N P i, by simp [List.getElem?_map, List.getElem?_range hi], ?_⟩
      have hq : N / P * i + N / P ≤ N / P * P := by
        have : i + 1 ≤ P := hi
        calc N / P * i + N / P = N / P * (i + 1) := by ring
          _ ≤ N / P * P := Nat.mul_le_mul_left _ this
      have hq1 : N / P ≤ N / P * P := Nat.le_mul_of_pos_right _ hP
      rw [scatterv_some _ _ _ i _ _ _ (send_count_get N P i hi) (disp_get N P i hi)]
      · unfold chunkOf
        by_cases h0 : i = 0
        · simp [h0]
        · simp [h0]
      · simp only [List.length_cons, hlen]
        revert hq hq1 hdm
        generalize N / P * P = qp
        generalize N / P * i = qi
        generalize N / P = q
        generalize N % P = r
        intro hdm hq hq1
        split <;> omega
      · unfold worker_recv_count
        rw [tdiv_natCast, tmod_natCast]
        by_cases h0 : i = 0
        · simp [h0]
        · simp [h0]
    · obtain ⟨k, rfl⟩ : ∃ k, P = k + 1 := ⟨P - 1, by omega⟩
      rw [chunks_flatten, hdm, ← hlen, List.take_length]
  · intro i h1 h2
    have hi : i ≠ 0 := by omega
    rw [send_count_get N P i h2]
    simp [hi, worker_recv_count, tdiv_natCast]

theorem cnt_mirror (b : List Int) (is : List Nat) :
    cnt (mirror b) BLACK is = cnt b WHITE is ∧ cnt (mirror b) WHITE is = cnt b BLACK is := by
  unfold cnt mirror
  constructor <;>
  · congr 1
    apply List.filter_congr
    intro i _
    rw [List.getElem?_map]
    cases hb : b[i]? with
    | none => simp
    | some v =>
      simp only [Option.map_some', Option.some.injEq, BLACK, WHITE]
      by_cases h1 : v = 1 <;> by_cases h2 : v = 2 <;> simp [h1, h2]

/-- C8 (as the code has it). For every board of 100 cells and all baseline
counts and depths, `calc_util(B, BLACK, bc, wc, d)` returns a value and
`calc_util(mirror(B), WHITE, wc, bc, d)` returns the same value, without a
change of sign. -/
theorem calc_util_mirror (B : List Int) (bc wc d : Int) (hlen : B.length = 100) :
    ∃ u, calc_util B BLACK bc wc d = some u ∧ calc_util (mirror B) WHITE wc bc d = some u := by
  have hlen2 : (mirror B).length = 100 := by simp [mirror, hlen]
  unfold calc_util
  rw [count_eq hlen BLACK, count_eq hlen WHITE, count_eq hlen2 BLACK, count_eq hlen2 WHITE,
    (cnt_mirror B _).1, (cnt_mirror B _).2]
  refine ⟨_, rfl, ?_⟩
  have hwb : ¬ (WHITE = BLACK) := by decide
  simp only [hwb, if_false, if_true, Option.some.injEq]
  rw [add_comm wc bc]

/-- C8 (as stated) fails: on the starting position with baselines 2, 2 and
depth 2 both sides are 2, so the left side is not the negation of the right
one. -/
theorem calc_util_mirror_not_negated :
    ∃ x y, calc_util initialise_board BLACK 2 2 2 = some x ∧
      calc_util (mirror initialise_board) WHITE 2 2 2 = some y ∧ x ≠ -y := by
  refine ⟨2, 2, ?_, ?_, by decide⟩ <;> decide


/-- C9. Every interior cell `loc` (`validp(loc) = 1`) is `10*(r+1) + (c+1)`
for digits `r, c` in `0..7`, `get_move_string(loc)` is the four bytes
`'0'+r, '0'+c, '\n', NUL`, and `get_loc` of these bytes is `loc`; conversely,
for digits `r, c` in `0..7`, `get_loc` of a string starting with the bytes
`'0'+r, '0'+c` is an interior cell whose `get_move_string` is
`'0'+r, '0'+c, '\n', NUL`; the corner cell 11 encodes as `"00"`. -/
theorem move_encoding_roundtrip :
    (∀ loc : Int, validp loc = 1 →
      ∃ r c : Int, 0 ≤ r ∧ r ≤ 7 ∧ 0 ≤ c ∧ c ≤ 7 ∧ loc = 10 * (r + 1) + (c + 1) ∧
        get_move_string loc = [48 + r, 48 + c, 10, 0] ∧
        get_loc (get_move_string loc) = some loc) ∧
    (∀ (r c : Int) (rest : List Int), 0 ≤ r → r ≤ 7 → 0 ≤ c → c ≤ 7 →
      ∃ loc, get_loc ((48 + r) :: (48 + c) :: rest) = some loc ∧ validp loc = 1 ∧
        get_move_string loc = [48 + r, 48 + c, 10, 0]) ∧
    get_move_string 11 = [48, 48, 10, 0] := by
  have enc : ∀ r c : Int, 0 ≤ r → r ≤ 7 → 0 ≤ c → c ≤ 7 →
      get_move_string (10 * (r + 1) + (c + 1)) = [48 + r, 48 + c, 10, 0] := by
    intro r c h1 h2 h3 h4
    unfold get_move_string
    have e1 : (10 * (r + 1) + (c + 1)).tdiv 10 = r + 1 := by
      rw [Int.tdiv_eq_ediv (by omega) (by omega)]; omega
    simp only [e1]
    have e2 : 10 * (r + 1) + (c + 1) - (9 + 2 * (r + 1)) = 8 * r + c := by ring
    rw [e2]
    have e3 : (8 * r + c).tdiv 8 = r := by
      rw [Int.tdiv_eq_ediv (by omega) (by omega)]; omega
    have e4 : (8 * r + c).tmod 8 = c := by
      rw [Int.tmod_eq_emod (by omega) (by omega)]; omega
    rw [e3, e4, add_comm r 48, add_comm c 48]
  refine ⟨?_, ?_, by decide⟩
  · intro loc hv
    have hne : validp loc ≠ 0 := by rw [hv]; decide
    obtain ⟨h1, h2, h3, h4⟩ := (validp_ne_zero_iff loc).mp hne
    refine ⟨loc / 10 - 1, loc % 10 - 1, by omega, by omega, by omega, by omega, by omega, ?_, ?_⟩
    · have := enc (loc / 10 - 1) (loc % 10 - 1) (by omega) (by omega) (by omega) (by omega)
      have e : 10 * (loc / 10 - 1 + 1) + (loc % 10 - 1 + 1) = loc := by omega
      rw [e] at this
      exact this
    · have := enc (loc / 10 - 1) (loc % 10 - 1) (by omega) (by omega) (by omega) (by omega)
      have e : 10 * (loc / 10 - 1 + 1) + (loc % 10 - 1 + 1) = loc := by omega
      rw [e] at this
      rw [this]
      simp only [get_loc, rd, le_refl, Int.toNat_zero, List.getElem?_cons_zero, zero_le_one,
        if_true, Int.toNat_one, List.getElem?_cons_succ, Option.some.injEq]
      omega
  · intro r c rest h1 h2 h3 h4
    refine ⟨10 * (r + 1) + (c + 1), ?_, ?_, enc r c h1 h2 h3 h4⟩
    · simp only [get_loc, rd, le_refl, Int.toNat_zero, List.getElem?_cons_zero, zero_le_one,
        if_true, Int.toNat_one, List.getElem?_cons_succ, Option.some.injEq]
      ring
    · have hv : validp (10 * (r + 1) + (c + 1)) ≠ 0 :=
        (validp_ne_zero_iff _).mpr ⟨by omega, by omega, by omega, by omega⟩
      unfold validp at hv ⊢
      split <;> rename_i hc
      · rfl
      · simp [hc] at hv

set_option maxRecDepth 100000 in
/-- C10. On the board built by `initialise_board`, `legal_moves` for BLACK
returns count 4 and the cells 34, 43, 56, 65 in that order, and
`get_move_string` encodes them as `"23"`, `"32"`, `"45"` and `"54"`. -/
theorem initial_legal_moves :
    legal_moves initialise_board BLACK = some [4, 34, 43, 56, 65] ∧
    get_move_string 34 = [50, 51, 10, 0] ∧ get_move_string 43 = [51, 50, 10, 0] ∧
    get_move_string 56 = [52, 53, 10, 0] ∧ get_move_string 65 = [53, 52, 10, 0] := by
  refine ⟨by decide, by decide, by decide, by decide, by decide⟩

/-- C7 (what the code does). With the pair `(1000, 33)` from rank 0 and the
pair `(0, 0)` from each of the ranks 1, 2, 3 the reconciliation loop selects
`(0, 0)`, a pair of least utility, not the pair of greatest utility. -/
theorem reconcile_selects_smaller :
    gather [(1000, 33), (0, 0), (0, 0), (0, 0)] = [1000, 33, 0, 0, 0, 0, 0, 0] ∧
    reconcile [1000, 33, 0, 0, 0, 0, 0, 0] 4 = some (0, 0) := by
  constructor <;> decide

theorem gather_get : ∀ (l : List (Int × Int)) (j : Nat) (p : Int × Int), l[j]? = some p →
    (gather l)[2 * j]? = some p.1 ∧ (gather l)[2 * j + 1]? = some p.2 := by
  intro l
  induction l with
  | nil => intro j p h; simp at h
  | cons q l ih =>
    intro j p h
    obtain ⟨u, m⟩ := q
    cases j with
    | zero =>
      simp only [List.getElem?_cons_zero, Option.some.injEq] at h
      subst h
      simp [gather]
    | succ j =>
      simp only [List.getElem?_cons_succ] at h
      have := ih j p h
      have e1 : 2 * (j + 1) = (2 * j + 1) + 1 := by ring
      simp only [e1, gather, List.getElem?_cons_succ]
      exact this

/-- The reconciliation loop keeps its current pair across ranks whose
utility is not below the current one. -/
theorem reconcile_loop_keep (l : List (Int × Int)) (acc : Int × Int) :
    ∀ js : List Nat, (∀ j ∈ js, ∃ p, l[j]? = some p ∧ acc.1 ≤ p.1) →
      reconcile_loop (gather l) (js.map (fun j => 2 * j)) acc = some acc := by
  intro js
  induction js with
  | nil => intro _; rfl
  | cons j js ih =>
    intro h
    obtain ⟨p, hp, hle⟩ := h j (List.mem_cons_self _ _)
    obtain ⟨u, m⟩ := acc
    simp only [List.map_cons, reconcile_loop, (gather_get l j p hp).1]
    have hng : ¬ (u > p.1) := by simpa using hle
    simp only [hng, if_false]
    exact ih (fun x hx => h x (List.mem_cons_of_mem _ hx))

theorem strncpy_pass (n : Nat) (hn : 6 ≤ n) : (strncpy PASS n).take 6 = PASS := by
  obtain ⟨k, rfl⟩ : ∃ k, n = k + 6 := ⟨n - 6, by omega⟩
  have htw : PASS.takeWhile (fun c => decide (c ≠ 0)) = [112, 97, 115, 115, 10] := by decide
  unfold strncpy
  rw [htw, List.take_take]
  simp [PASS, List.replicate_succ]

theorem run_worker_turn_idle (heap : List Nat → Nat → Int) (ranks rank : Nat)
    (ret_vals : Int × Int) (bc wc col b0 : Int) (hr : rank < ranks) :
    run_worker_turn heap ranks rank ret_vals bc wc col b0 0 [0] (send_count 0 ranks)
      (disp 0 ranks) = some ret_vals := by
  have hs := send_count_get 0 ranks rank hr
  have hd := disp_get 0 ranks rank hr
  simp only [Nat.cast_zero] at hs hd
  have hsc : scatterv [0] (send_count 0 ranks) (disp 0 ranks) rank (worker_recv_count 0 ranks)
      = some [] := by
    rw [scatterv_some _ _ _ rank _ _ _ hs hd]
    · by_cases h0 : rank = 0 <;> simp [h0]
    · by_cases h0 : rank = 0 <;> simp [h0]
    · by_cases h0 : rank = 0 <;> simp [h0, worker_recv_count]
  have hwr : ∃ cb, wr (malloc (heap [1]) BOARDSIZE) 0 b0 = some cb := by
    refine ⟨(malloc (heap [1]) BOARDSIZE).set 0 b0, ?_⟩
    unfold wr
    have : (0 : Int) ≤ 0 ∧ (0 : Int).toNat < (malloc (heap [1]) BOARDSIZE).length := by
      simp [malloc, BOARDSIZE]
    rw [if_pos this]
    rfl
  obtain ⟨cb, hcb⟩ := hwr
  unfold run_worker_turn
  simp only [hcb, hsc, Int.zero_tdiv]
  simp [make_feed, LEGALMOVSBUFSIZE, search_loop]

theorem workers_round_idle (heaps : Nat → List Nat → Nat → Int) (ranks : Nat)
    (bc wc col b0 : Int) :
    ∀ (rest : List (Int × Int)) (rank : Nat), rank + rest.length ≤ ranks →
      workers_round heaps ranks bc wc col b0 0 [0] (send_count 0 ranks) (disp 0 ranks)
        rank rest = some rest := by
  intro rest
  induction rest with
  | nil => intro rank _; rfl
  | cons w rest ih =>
    intro rank h
    simp only [List.length_cons] at h
    unfold workers_round
    rw [run_worker_turn_idle (heaps rank) ranks rank w bc wc col b0 (by omega)]
    simp only [ih (rank + 1) (by omega)]

/-- On a well-formed board on which the player to move has no legal move,
and when no worker holds a utility below 0, `gen_move_master` writes
`strncpy("pass\n")`, whose first six bytes are `"pass\n"` with its
terminator when the buffer has room for them, and leaves the board
unchanged. -/
theorem pass_when_no_moves (MOVEBUFSIZE : Nat) (heaps : Nat → List Nat → Nat → Int)
    (board : List Int) (my_colour : Int) (workers : List (Int × Int))
    (hwf : wellFormed board) (hN : legal_moves board my_colour = some [0])
    (hw : ∀ w ∈ workers, 0 ≤ w.1) :
    ∃ r, gen_move_master MOVEBUFSIZE heaps board my_colour workers = some r ∧
      r.move = strncpy PASS MOVEBUFSIZE ∧ (6 ≤ MOVEBUFSIZE → r.move.take 6 = PASS) ∧
      r.board = board := by
  obtain ⟨b0, hb0⟩ := wf_rd_total hwf (c := 0) (by omega) (by omega)
  have hs := send_count_get 0 (workers.length + 1) 0 (by omega)
  have hd := disp_get 0 (workers.length + 1) 0 (by omega)
  simp only [Nat.cast_zero, if_true, Nat.zero_div, Nat.zero_mod, add_zero, Nat.cast_one] at hs hd
  have hsc : scatterv [0] (send_count 0 (workers.length + 1)) (disp 0 (workers.length + 1)) 0 0
      = some [] := by
    have h0 : ((0 : Nat) : Int) = 0 := rfl
    have h1 : ((1 : Nat) : Int) = 1 := rfl
    rw [scatterv_some _ _ _ 0 _ 0 1 (by rw [h0]; exact hs) (by rw [h1]; exact hd)]
    · simp
    · simp
    · simp
  have hrec : reconcile (gather ((0, 0) :: workers)) (workers.length + 1) = some (0, 0) := by
    unfold reconcile
    simp only [gather, List.getElem?_cons_zero, List.getElem?_cons_succ]
    have := reconcile_loop_keep ((0, 0) :: workers) (0, 0) (List.range (workers.length + 1))
      (by
        intro j hj
        simp only [List.mem_range] at hj
        cases j with
        | zero => exact ⟨(0, 0), by simp, le_rfl⟩
        | succ j =>
          have hj2 : j < workers.length := by omega
          refine ⟨workers[j], by simp [List.getElem?_eq_getElem hj2], ?_⟩
          exact hw _ (List.getElem_mem hj2))
    simpa [gather] using this
  refine ⟨⟨0, 0, strncpy PASS MOVEBUFSIZE, board, workers⟩, ?_, rfl,
    fun hbuf => strncpy_pass _ hbuf, rfl⟩
  have hrd0 : rd [0] 0 = some 0 := by decide
  unfold gen_move_master
  simp only [count_eq hwf.1, hb0, hN, hrd0, Int.zero_tdiv, Int.zero_tmod, add_zero, hsc,
    workers_round_idle heaps (workers.length + 1) _ _ my_colour b0 workers 1 (by omega)]
  simp [make_feed, LEGALMOVSBUFSIZE, search_loop, -Prod.mk_zero_zero, hrec]

theorem malloc_get (junk : Nat → Int) (n i : Nat) (hi : i < n) :
    (malloc junk n)[i]? = some (junk i) := by
  unfold malloc
  rw [List.getElem?_map, List.getElem?_range hi]
  rfl

theorem malloc_length (junk : Nat → Int) (n : Nat) : (malloc junk n).length = n := by
  simp [malloc]

/-- The clone of a safe board made by `duplicate_board(curr_board, BOARDSIZE)`
is safe when the fresh block shows no piece on border cells. -/
theorem duplicate_board_safe {b : List Int} (hs : safeBoard b) (junk : Nat → Int)
    (hj : ∀ i, isBorder i = true → junk i ≠ BLACK ∧ junk i ≠ WHITE) :
    ∃ b2, duplicate_board junk b BOARDSIZE = some b2 ∧ safeBoard b2 := by
  have hcond : BOARDSIZE % SIZEOF_INT = 0 ∧ BOARDSIZE / SIZEOF_INT ≤ b.length := by
    rw [hs.1]; decide
  refine ⟨_, by unfold duplicate_board; rw [if_pos hcond], ?_, ?_⟩
  · simp only [List.length_append, List.length_take, List.length_drop, malloc_length, hs.1,
      BOARDSIZE, SIZEOF_INT]
    decide
  · intro i hi hb
    have h25 : BOARDSIZE / SIZEOF_INT = 25 := by decide
    rw [h25]
    by_cases hlt : i < 25
    · rw [List.getElem?_append_left (by simp [hs.1]; omega), List.getElem?_take_of_lt hlt]
      exact hs.2 i hi hb
    · have hlen : (List.take 25 b).length = 25 := by simp [hs.1]
      rw [List.getElem?_append_right (by rw [hlen]; omega), hlen, List.getElem?_drop]
      have : 25 + (i - 25) = i := by omega
      rw [this, malloc_get junk BOARDSIZE i (by simpa [BOARDSIZE] using hi)]
      have := hj i hb
      exact ⟨fun h => this.1 (Option.some.inj h), fun h => this.2 (Option.some.inj h)⟩

theorem find_maxmin_loop_total (maxlayer : Int) (util : List Int) :
    ∀ (is : List Nat) (init : Int), (∀ i ∈ is, i < util.length) →
      ∃ r, find_maxmin_loop maxlayer util is init = some r ∧ (maxlayer ≠ 0 → r ≤ init) := by
  intro is
  induction is with
  | nil => intro init _; exact ⟨init, rfl, fun _ => le_rfl⟩
  | cons i is ih =>
    intro init h
    have hi : i < util.length := h i (List.mem_cons_self _ _)
    have hrest : ∀ j ∈ is, j < util.length := fun j hj => h j (List.mem_cons_of_mem _ hj)
    unfold find_maxmin_loop
    rw [List.getElem?_eq_getElem hi]
    simp only
    by_cases hp : util[i] ≠ PRUNE
    · simp only [ne_eq, hp, not_false_eq_true, if_true]
      by_cases hm : maxlayer = 0
      · simp only [hm, if_true]
        obtain ⟨r, hr, _⟩ := ih (if util[i] > init then util[i] else init) hrest
        rw [hm] at hr
        exact ⟨r, hr, fun h => absurd trivial h⟩
      · simp only [hm, if_false]
        obtain ⟨r, hr, hle⟩ := ih (if util[i] < init then util[i] else init) hrest
        refine ⟨r, hr, fun _ => ?_⟩
        have := hle hm
        split at this <;> omega
    · simp only [hp, if_false]
      exact ih init hrest

theorem find_maxmin_loop_all_1000 (util : List Int) :
    ∀ (is : List Nat) (init : Int), (∀ i ∈ is, util[i]? = some 1000) → init ≤ 1000 →
      find_maxmin_loop 0 util is init = some (if is = [] then init else 1000) := by
  intro is
  induction is with
  | nil => intro init _ _; rfl
  | cons i is ih =>
    intro init h hinit
    have hi := h i (List.mem_cons_self _ _)
    have hrest : ∀ j ∈ is, util[j]? = some 1000 := fun j hj => h j (List.mem_cons_of_mem _ hj)
    unfold find_maxmin_loop
    rw [hi]
    have hp : (1000 : Int) ≠ PRUNE := by decide
    simp only [ne_eq, hp, not_false_eq_true, if_true, List.cons_ne_nil, if_false]
    have hinit2 : (if (1000 : Int) > init then 1000 else init) = 1000 := by
      split <;> omega
    rw [hinit2, ih _ hrest le_rfl]
    by_cases he : is = []
    · simp only [he, if_true]
    · simp only [he, if_false]

/-- With `alpha < beta` the candidate loop of `minmax` runs the body once per
candidate and stores each child's value. -/
theorem minmax_loop_total (child : Int → Int → Option Int) (al be : Int) (hab : ¬ al ≥ be)
    (a : Nat) (moves : List Int) (Q : Int → Prop)
    (hchild : ∀ i : Int, 1 ≤ i → i ≤ a →
      ∃ mv u, rd moves i = some mv ∧ child i mv = some u ∧ Q u) :
    ∀ (n : Nat) (i : Int) (ua : List Int), 1 ≤ i → i + n = a + 1 → ua.length = a →
      ∃ ua2, minmax_loop child al be a moves n i ua = some ua2 ∧ ua2.length = a ∧
        (∀ j : Nat, i - 1 ≤ j → j < a → ∃ u, ua2[j]? = some u ∧ Q u) ∧
        (∀ j : Nat, (j : Int) < i - 1 → ua2[j]? = ua[j]?) := by
  intro n
  induction n with
  | zero =>
    intro i ua h1 hn hlen
    have : ¬ (i ≤ (a : Int)) := by omega
    unfold minmax_loop
    rw [if_neg this]
    exact ⟨ua, rfl, hlen, fun j h2 h3 => by omega, fun _ _ => rfl⟩
  | succ n ih =>
    intro i ua h1 hn hlen
    have hia : i ≤ (a : Int) := by push_cast at hn; omega
    obtain ⟨mv, u, hmv, hu, hq⟩ := hchild i h1 hia
    have hwr : wr ua (i - 1) u = some (ua.set (i - 1).toNat u) := by
      unfold wr
      have : 0 ≤ i - 1 ∧ (i - 1).toNat < ua.length := ⟨by omega, by omega⟩
      rw [if_pos this]
    unfold minmax_loop
    simp only [hia, if_true, hab, if_false, hmv, hu, hwr]
    obtain ⟨ua2, h2, h3, h4, h5⟩ := ih (i + 1) (ua.set (i - 1).toNat u) (by omega)
      (by push_cast at hn ⊢; omega) (by simpa using hlen)
    refine ⟨ua2, h2, h3, ?_, ?_⟩
    · intro j hj1 hj2
      by_cases hji : (j : Int) = i - 1
      · have := h5 j (by omega)
        have hjn : (i - 1).toNat = j := by omega
        rw [this, hjn]
        exact ⟨u, by simp [List.getElem?_set, hlen, hj2], hq⟩
      · exact h4 j (by omega) hj2
    · intro j hj
      rw [h5 j (by omega)]
      have hjn : (i - 1).toNat ≠ j := by omega
      rw [List.getElem?_set]
      simp only [hjn, if_false]

theorem legal_moves_safe {b : List Int} (hs : safeBoard b) {player : Int}
    (hp : player = BLACK ∨ player = WHITE) :
    ∃ ms : List Int, legal_moves b player = some ((ms.length : Int) :: ms) ∧
      (∀ m ∈ ms, validCell m) ∧ ms.length < LEGALMOVSBUFSIZE := by
  obtain ⟨ms, h1, h2, h3⟩ := legal_moves_loop_spec hs hp scanCells
  have hv : ∀ m ∈ ms, validCell m := by
    intro m hm
    obtain ⟨_, h4, h5, h6, h7, _⟩ := (h3 m).mp hm
    exact ⟨h4, h5, h6, h7⟩
  refine ⟨ms, by simp [legal_moves, h1], hv, ?_⟩
  have hsub := h2.filter (fun m => decide (validCell m))
  have hfil : ms.filter (fun m => decide (validCell m)) = ms :=
    List.filter_eq_self.mpr (fun m hm => by simpa using hv m hm)
  rw [hfil] at hsub
  have hlen := hsub.length_le
  have h64 : (scanCells.filter (fun m => decide (validCell m))).length = 64 := by decide
  rw [h64] at hlen
  simp only [LEGALMOVSBUFSIZE]
  omega

theorem rd_moves_zero (ms rest : List Int) :
    rd (((ms.length : Int) :: ms) ++ rest) 0 = some (ms.length : Int) := by
  simp [rd]

theorem rd_moves_pos (ms rest : List Int) (i : Int) (h1 : 1 ≤ i) (h2 : i ≤ ms.length) :
    ∃ mv, mv ∈ ms ∧ rd (((ms.length : Int) :: ms) ++ rest) i = some mv := by
  have hlt : (i - 1).toNat < ms.length := by omega
  refine ⟨ms[(i - 1).toNat], List.getElem_mem hlt, ?_⟩
  have h0 : 0 ≤ i := by omega
  have hi : i.toNat = (i - 1).toNat + 1 := by omega
  simp only [rd, h0, if_true, hi, List.cons_append, List.getElem?_cons_succ]
  rw [List.getElem?_append_left hlt, List.getElem?_eq_getElem hlt]

theorem calc_util_total {b : List Int} (hlen : b.length = 100) (p bc wc d : Int) :
    ∃ u, calc_util b p bc wc d = some u := by
  unfold calc_util
  rw [count_eq hlen BLACK, count_eq hlen WHITE]
  exact ⟨_, rfl⟩

/-- The copy of `moves` made at ply 0 keeps the count and the moves. -/
theorem duplicate_moves (junk : Nat → Int) (ms rest : List Int)
    (hlen : LEGALMOVSBUFSIZE ≤ (((ms.length : Int) :: ms) ++ rest).length)
    (hms : ms.length < LEGALMOVSBUFSIZE) :
    ∃ rest2, duplicate_board junk (((ms.length : Int) :: ms) ++ rest)
      (LEGALMOVSBUFSIZE * SIZEOF_INT) = some ((((ms.length : Int) :: ms)) ++ rest2) := by
  have hcond : LEGALMOVSBUFSIZE * SIZEOF_INT % SIZEOF_INT = 0 ∧
      LEGALMOVSBUFSIZE * SIZEOF_INT / SIZEOF_INT ≤ (((ms.length : Int) :: ms) ++ rest).length := by
    refine ⟨by decide, ?_⟩
    have : LEGALMOVSBUFSIZE * SIZEOF_INT / SIZEOF_INT = LEGALMOVSBUFSIZE := by decide
    rw [this]; exact hlen
  unfold duplicate_board
  rw [if_pos hcond]
  have h65 : LEGALMOVSBUFSIZE * SIZEOF_INT / SIZEOF_INT = (ms.length + 1) + (64 - ms.length) := by
    simp only [LEGALMOVSBUFSIZE, SIZEOF_INT] at hms ⊢
    omega
  rw [h65]
  have hl : (((ms.length : Int) :: ms)).length = ms.length + 1 := by simp
  rw [List.take_append_eq_append_take, List.take_of_length_le (by rw [hl]; omega)]
  exact ⟨_, by rw [List.append_assoc]⟩

/-- Under a clean heap `minmax`, called as the search calls it (global
`alpha` and `beta`, depth `DEPTH`), returns a value on every safe board; at
a non-terminal minimizing ply and at a non-terminal root call that value is
1000. -/
theorem minmax_total (heap : List Nat → Nat → Int) (hclean : cleanHeap heap)
    (bc wc first : Int) :
    ∀ (fuel : Nat) (path : List Nat) (b ms rest : List Int) (layer player maxmin : Int),
      safeBoard b → (player = BLACK ∨ player = WHITE) → (∀ m ∈ ms, validCell m) →
      (layer = 0 → LEGALMOVSBUFSIZE ≤ (((ms.length : Int) :: ms) ++ rest).length ∧
        ms.length < LEGALMOVSBUFSIZE) →
      0 ≤ layer → layer ≤ DEPTH → (DEPTH - layer).toNat < fuel →
      ∃ u, minmax fuel heap path b (((ms.length : Int) :: ms) ++ rest) DEPTH layer player
          bc wc alpha beta maxmin first = some u ∧
        (layer < DEPTH → ms ≠ [] → (maxmin ≠ 0 ∨ layer = 0) → u = 1000) := by
  intro fuel
  induction fuel with
  | zero => intro path b ms rest layer player maxmin _ _ _ _ _ _ h; omega
  | succ fuel ih =>
    intro path b ms rest layer player maxmin hs hp hms h0 hl0 hl7 hfuel
    have hnext : (if player = BLACK then WHITE else BLACK) = BLACK ∨
        (if player = BLACK then WHITE else BLACK) = WHITE := by
      split
      · exact Or.inr rfl
      · exact Or.inl rfl
    -- the list handed to the children
    have hnew : ∃ ms2 rest2,
        (if layer ≠ 0 then legal_moves b player
          else if layer ≠ DEPTH then
            duplicate_board (heap (0 :: path)) (((ms.length : Int) :: ms) ++ rest)
              (LEGALMOVSBUFSIZE * SIZEOF_INT)
          else some []) = some ((((ms2.length : Int) :: ms2)) ++ rest2) ∧
        (∀ m ∈ ms2, validCell m) ∧ (layer = 0 → ms2 = ms) := by
      by_cases hl : layer = 0
      · have hne : layer ≠ DEPTH := by rw [hl]; decide
        obtain ⟨rest2, hr⟩ := duplicate_moves (heap (0 :: path)) ms rest (h0 hl).1 (h0 hl).2
        refine ⟨ms, rest2, ?_, hms, fun _ => rfl⟩
        simp only [hl, ne_eq, not_true_eq_false, if_false]
        rw [hl] at hne
        simp only [ne_eq, hne, not_false_eq_true, if_true]
        exact hr
      · obtain ⟨ms2, h1, h2, _⟩ := legal_moves_safe hs hp
        refine ⟨ms2, [], ?_, h2, fun h => absurd h hl⟩
        simp only [ne_eq, hl, not_false_eq_true, if_true, List.append_nil]
        exact h1
    obtain ⟨ms2, rest2, hnm, hms2, hsame⟩ := hnew
    unfold minmax
    simp only [rd_moves_zero, hnm]
    by_cases hnt : DEPTH > layer ∧ (ms.length : Int) ≠ 0
    · rw [if_pos hnt]
      have hne : ms ≠ [] := by
        intro h; rw [h] at hnt; simp at hnt
      have hab : ¬ alpha ≥ beta := by decide
      obtain ⟨ua, hua, hualen, huaQ, _⟩ := minmax_loop_total
        (fun i mv =>
          match duplicate_board (heap (i.toNat :: path)) b BOARDSIZE with
          | none => none
          | some sim_board =>
            match make_move sim_board mv player with
            | none => none
            | some sim_board1 =>
              minmax fuel heap (i.toNat :: path) sim_board1
                ((((ms2.length : Int) :: ms2)) ++ rest2) DEPTH (layer + 1)
                (if player = BLACK then WHITE else BLACK) bc wc alpha beta
                (if maxmin = 0 then 1 else 0) first)
        alpha beta hab ms.length (((ms.length : Int) :: ms) ++ rest)
        (fun u => maxmin = 0 → layer = 0 → u = 1000)
        (by
          intro i hi1 hi2
          obtain ⟨mv, hmem, hrd⟩ := rd_moves_pos ms rest i hi1 hi2
          obtain ⟨sim, hsim, hsims⟩ := duplicate_board_safe hs (heap (i.toNat :: path))
            (hclean (i.toNat :: path))
          obtain ⟨sim1, hsim1, hsim1s⟩ := make_move_safe hsims hp (hms mv hmem)
          obtain ⟨u, hu, huv⟩ := ih (i.toNat :: path) sim1 ms2 rest2 (layer + 1)
            (if player = BLACK then WHITE else BLACK) (if maxmin = 0 then 1 else 0)
            hsim1s hnext hms2 (fun h => by omega) (by omega) (by omega) (by omega)
          refine ⟨mv, u, hrd, ?_, ?_⟩
          · simp only [hsim, hsim1]; exact hu
          · intro hm0 hlz
            apply huv
            · rw [hlz]; decide
            · rw [hsame hlz]; exact hne
            · left; simp [hm0])
        ms.length 1 (List.replicate ms.length 0) le_rfl (by ring) (by simp)
      simp only [Int.toNat_ofNat, hua]
      have hidx : ∀ i ∈ List.range ms.length, i < ua.length := by
        intro i hi; rw [hualen]; exact List.mem_range.mp hi
      obtain ⟨r, hr, hrle⟩ := find_maxmin_loop_total maxmin ua (List.range ms.length)
        (if maxmin = 0 then -1000 else 1000) hidx
      unfold find_maxmin
      simp only [Int.toNat_ofNat, hr]
      by_cases hm0 : maxmin = 0
      · simp only [hm0, if_true]
        refine ⟨r, rfl, ?_⟩
        intro _ _ hor
        rcases hor with h | h
        · exact absurd rfl h
        · have hall : ∀ i ∈ List.range ms.length, ua[i]? = some 1000 := by
            intro i hi
            obtain ⟨u, hu1, hu2⟩ := huaQ i (by omega) (List.mem_range.mp hi)
            rw [hu1, hu2 hm0 h]
          have := find_maxmin_loop_all_1000 ua (List.range ms.length) (-1000) hall (by decide)
          rw [hm0] at hr
          simp only [if_true] at hr
          rw [this] at hr
          have hrne : List.range ms.length ≠ [] := by
            intro hc
            have : ms.length = 0 := by simpa using congrArg List.length hc
            exact hne (List.length_eq_zero.mp this)
          simp only [hrne, if_false] at hr
          exact (Option.some.inj hr).symm
      · have hle : r ≤ 1000 := by
          have := hrle hm0
          simpa [hm0] using this
        simp only [hm0, if_false]
        by_cases hlt : r < beta
        · simp only [hlt, if_true]
          exact ⟨beta, rfl, fun _ _ _ => rfl⟩
        · simp only [hlt, if_false]
          refine ⟨r, rfl, fun _ _ _ => ?_⟩
          simp only [beta] at hlt
          omega
    · rw [if_neg hnt]
      obtain ⟨u, hu⟩ := calc_util_total hs.1 first bc wc layer
      refine ⟨u, hu, ?_⟩
      intro h1 h2 _
      exfalso
      apply hnt
      refine ⟨h1, ?_⟩
      intro hc
      have : ms.length = 0 := by exact_mod_cast hc
      exact h2 (List.length_eq_zero.mp this)

theorem find_maxmin_loop_le (maxlayer : Int) (util : List Int) (hm : maxlayer ≠ 0) :
    ∀ (is : List Nat) (init r : Int), find_maxmin_loop maxlayer util is init = some r →
      r ≤ init := by
  intro is
  induction is with
  | nil =>
    intro init r h
    simp only [find_maxmin_loop, Option.some.injEq] at h
    omega
  | cons i is ih =>
    intro init r h
    unfold find_maxmin_loop at h
    cases hu : util[i]? with
    | none => simp [hu] at h
    | some u =>
      simp only [hu, hm, if_false] at h
      by_cases hp : u ≠ PRUNE
      · simp only [ne_eq, hp, not_false_eq_true, if_true] at h
        have := ih _ _ h
        split at this <;> omega
      · simp only [hp, if_false] at h
        exact ih _ _ h

/-- A non-terminal call of `minmax` at a minimizing ply with `beta = 1000`
returns 1000 whenever it returns. -/
theorem minmax_min_ply (fuel : Nat) (heap : List Nat → Nat → Int) (path : List Nat)
    (b moves : List Int) (depth layer player bc wc al maxmin first a u : Int)
    (hm : maxmin ≠ 0) (ha : rd moves 0 = some a) (hnt : depth > layer ∧ a ≠ 0)
    (h : minmax fuel heap path b moves depth layer player bc wc al 1000 maxmin first
      = some u) : u = 1000 := by
  cases fuel with
  | zero => simp [minmax] at h
  | succ fuel =>
    unfold minmax at h
    simp only [ha] at h
    split at h
    · simp at h
    · rw [if_pos hnt] at h
      split at h
      · simp at h
      · rename_i ua _
        unfold find_maxmin at h
        split at h
        · simp at h
        · rename_i r hr
          have hle := find_maxmin_loop_le maxmin ua hm _ _ _ hr
          simp only [hm, if_false] at hle h
          split at h
          · exact (Option.some.inj h).symm
          · have := Option.some.inj h
            omega

/-- The pair a worker sends is the pair it already held or has utility 1000. -/
theorem worker_pair_invariant (heap : List Nat → Nat → Int) (ranks rank : Nat)
    (ret_vals r : Int × Int) (bc wc col b0 N : Int) (moves sc dp : List Int)
    (h : run_worker_turn heap ranks rank ret_vals bc wc col b0 N moves sc dp = some r) :
    r = ret_vals ∨ r.1 = 1000 := by
  unfold run_worker_turn at h
  split at h
  · simp at h
  · rename_i cb _
    split at h
    · simp at h
    · rename_i my_moves _
      split at h
      · simp at h
      · rename_i feed hfeed
        have hf0 : rd feed 0 = some (N.tdiv ranks) := by
          unfold make_feed at hfeed
          split at hfeed
          · rw [← Option.some.inj hfeed]; simp [rd]
          · simp at hfeed
        have key : ∀ (is : List Nat) (acc out : Int × Int), (is ≠ [] → N.tdiv ranks ≠ 0) →
            search_loop heap cb feed col bc wc 1 is acc = some out →
            out = acc ∨ out.1 = 1000 := by
          intro is
          induction is with
          | nil => intro acc out _ ho; left; exact (Option.some.inj ho).symm
          | cons i is ih =>
            intro acc out hne ho
            have hn0 := hne (List.cons_ne_nil _ _)
            unfold search_loop at ho
            cases hmm : minmax (DEPTH.toNat + 1) heap [i] cb feed DEPTH 0 col bc wc alpha beta
                1 col with
            | none => simp [hmm] at ho
            | some u =>
              have hu : u = 1000 := minmax_min_ply _ heap [i] cb feed DEPTH 0 col bc wc alpha 1
                col _ u (by decide) hf0 ⟨by decide, hn0⟩ hmm
              simp only [hmm] at ho
              split at ho
              · split at ho
                · simp at ho
                · rename_i mv _
                  rcases ih (u, mv) out (fun _ => hn0) ho with h1 | h1
                  · right; rw [h1, hu]
                  · right; exact h1
              · exact ih acc out (fun _ => hn0) ho
        refine key _ _ _ ?_ h
        intro hne hc
        apply hne
        rw [hc]
        rfl

/-- One call of `gen_move_master`, assembled from the results of its steps. -/
theorem gen_move_master_steps (MOVEBUFSIZE : Nat) (heaps : Nat → List Nat → Nat → Int)
    (board : List Int) (my_colour : Int) (workers : List (Int × Int))
    (cb cw b0 N u m : Int) (moves my_moves feed : List Int) (wrets : List (Int × Int))
    (ret : Int × Int)
    (hcb : count board BLACK = some cb) (hcw : count board WHITE = some cw)
    (hb0 : rd board 0 = some b0) (hlm : legal_moves board my_colour = some moves)
    (hN : rd moves 0 = some N)
    (hsc : scatterv moves (send_count N (workers.length + 1)) (disp N (workers.length + 1)) 0
      (N.tdiv ((workers.length + 1 : Nat) : Int) + N.tmod ((workers.length + 1 : Nat) : Int))
        = some my_moves)
    (hwr : workers_round heaps (workers.length + 1) cb cw my_colour b0 N moves
      (send_count N (workers.length + 1)) (disp N (workers.length + 1)) 1 workers = some wrets)
    (hfeed : make_feed (heaps 0 [0])
      (N.tdiv ((workers.length + 1 : Nat) : Int) + N.tmod ((workers.length + 1 : Nat) : Int))
      my_moves = some feed)
    (hsearch : search_loop (heaps 0) board feed my_colour cb cw 0
      (List.range (N.tdiv ((workers.length + 1 : Nat) : Int)
        + N.tmod ((workers.length + 1 : Nat) : Int)).toNat) (0, 0) = some ret)
    (hrec : reconcile (gather (ret :: wrets)) (workers.length + 1) = some (u, m)) :
    gen_move_master MOVEBUFSIZE heaps board my_colour workers =
      if 11 ≤ m ∧ m ≤ 88 then
        (make_move board m my_colour).map (fun b1 => ⟨u, m, get_move_string m, b1, wrets⟩)
      else some ⟨u, m, strncpy PASS MOVEBUFSIZE, board, wrets⟩ := by
  unfold gen_move_master
  simp only [hcb, hcw, hb0, hlm, hN, hsc, hwr, hfeed, hsearch, hrec]
  by_cases hm : 11 ≤ m ∧ m ≤ 88
  · have hne : ¬ (m = -1) := by omega
    simp only [hm, and_self, if_true, hne, if_false]
    cases make_move board m my_colour <;> rfl
  · simp only [hm, if_false, if_true]


theorem make_feed_eq (junk : Nat → Int) (ms : List Int) (hms : ms.length < LEGALMOVSBUFSIZE) :
    ∃ rest, make_feed junk (ms.length : Int) ms = some ((((ms.length : Int) :: ms)) ++ rest) ∧
      LEGALMOVSBUFSIZE ≤ ((((ms.length : Int) :: ms)) ++ rest).length := by
  have hcond : ((ms.length : Int)).toNat ≤ ms.length ∧
      ((ms.length : Int)).toNat < LEGALMOVSBUFSIZE := by
    simp only [Int.toNat_ofNat]
    exact ⟨le_rfl, hms⟩
  refine ⟨(malloc junk LEGALMOVSBUFSIZE).drop (ms.length + 1), ?_, ?_⟩
  · unfold make_feed
    rw [if_pos hcond]
    simp only [Int.toNat_ofNat, List.take_length]
  · simp only [List.length_append, List.length_cons, List.length_drop, malloc_length]
    omega

/-- Every root call made by the search loop returns 1000, so the loop ends
with the pair `(1000, feed[1])`. -/
theorem search_loop_first (heap : List Nat → Nat → Int) (hclean : cleanHeap heap)
    {board : List Int} (hs : safeBoard board) {colour : Int}
    (hp : colour = BLACK ∨ colour = WHITE) (bc wc maxmin : Int)
    (ms rest : List Int) (hms : ∀ m ∈ ms, validCell m) (hne : ms ≠ [])
    (hlen : LEGALMOVSBUFSIZE ≤ ((((ms.length : Int) :: ms)) ++ rest).length)
    (hlt : ms.length < LEGALMOVSBUFSIZE) (ret : Int × Int) :
    ∃ m1, ms.head? = some m1 ∧
      search_loop heap board ((((ms.length : Int) :: ms)) ++ rest) colour bc wc maxmin
        (List.range ms.length) ret = some (1000, m1) := by
  have hroot : ∀ i : Nat, minmax (DEPTH.toNat + 1) heap [i] board
      ((((ms.length : Int) :: ms)) ++ rest) DEPTH 0 colour bc wc alpha beta maxmin colour
        = some 1000 := by
    intro i
    obtain ⟨u, hu, huv⟩ := minmax_total heap hclean bc wc colour (DEPTH.toNat + 1) [i] board ms
      rest 0 colour maxmin hs hp hms (fun _ => ⟨hlen, hlt⟩) le_rfl (by decide) (by decide)
    rw [hu, huv (by decide) hne (Or.inr rfl)]
  have hkeep : ∀ (is : List Nat) (r : Int × Int), 0 ∉ is → r.1 = 1000 →
      search_loop heap board ((((ms.length : Int) :: ms)) ++ rest) colour bc wc maxmin is r
        = some r := by
    intro is
    induction is with
    | nil => intro r _ _; rfl
    | cons i is ih =>
      intro r h0 hr
      have hi : ¬ (i = 0 ∨ (1000 : Int) > r.1) := by
        rw [hr]
        intro h
        rcases h with h | h
        · exact h0 (h ▸ List.mem_cons_self _ _)
        · omega
      unfold search_loop
      simp only [hroot, hi, if_false]
      exact ih r (fun h => h0 (List.mem_cons_of_mem _ h)) hr
  obtain ⟨m1, tl, rfl⟩ : ∃ m1 tl, ms = m1 :: tl := by
    cases ms with
    | nil => exact absurd rfl hne
    | cons a t => exact ⟨a, t, rfl⟩
  refine ⟨m1, rfl, ?_⟩
  have hrange : List.range (m1 :: tl).length = 0 :: (List.range tl.length).map Nat.succ := by
    simp only [List.length_cons]
    exact List.range_succ_eq_map tl.length
  rw [hrange]
  unfold search_loop
  have hrd : rd ((((((m1 :: tl).length : Nat) : Int) :: (m1 :: tl))) ++ rest) ((0 : Nat) + 1)
      = some m1 := by
    simp [rd]
  simp only [hroot, true_or, if_true, hrd]
  exact hkeep _ (1000, m1) (by simp) rfl

theorem scatterv_whole (ms : List Int) (P : Nat) (hP : 1 ≤ P)
    (hN : ms.length / P + ms.length % P = ms.length) :
    scatterv ((ms.length : Int) :: ms) (send_count ms.length P) (disp ms.length P) 0
      ((ms.length : Int).tdiv (P : Int) + (ms.length : Int).tmod (P : Int)) = some ms := by
  have hs := send_count_get ms.length P 0 (by omega)
  have hd := disp_get ms.length P 0 (by omega)
  simp only [if_true] at hs hd
  rw [scatterv_some _ _ _ 0 _ _ _ hs hd]
  · rw [hN]; simp
  · simp only [List.length_cons]; omega
  · rw [tdiv_natCast, tmod_natCast]; push_cast; exact le_rfl

/-- With a single rank, a player that has a legal move plays the first one of
the list, with utility 1000. -/
theorem single_rank_plays_first (MOVEBUFSIZE : Nat) (heaps : Nat → List Nat → Nat → Int)
    (hclean : cleanHeap (heaps 0)) {board : List Int} (hwf : wellFormed board) {colour : Int}
    (hp : colour = BLACK ∨ colour = WHITE) (m1 : Int) (tl : List Int)
    (hlm : legal_moves board colour = some ((((m1 :: tl).length : Nat) : Int) :: m1 :: tl)) :
    ∃ b1, make_move board m1 colour = some b1 ∧
      gen_move_master MOVEBUFSIZE heaps board colour []
        = some ⟨1000, m1, get_move_string m1, b1, []⟩ := by
  have hs := wf_safe hwf
  obtain ⟨ms2, hlm2, hvalid, hlt⟩ := legal_moves_safe hs hp
  rw [hlm] at hlm2
  have hmseq : m1 :: tl = ms2 := (List.cons.inj (Option.some.inj hlm2)).2
  rw [← hmseq] at hvalid hlt
  obtain ⟨b0, hb0⟩ := safe_rd_total hs (c := 0) (by omega) (by omega)
  obtain ⟨rest, hfeed, hflen⟩ := make_feed_eq (heaps 0 [0]) (m1 :: tl) hlt
  obtain ⟨m, hm, hsearch⟩ := search_loop_first (heaps 0) hclean hs hp
    (cnt board BLACK (List.range' 1 88)) (cnt board WHITE (List.range' 1 88)) 0
    (m1 :: tl) rest hvalid (by simp) hflen hlt (0, 0)
  have hmm : m = m1 := by simpa using hm.symm
  subst hmm
  have hv := hvalid m (List.mem_cons_self _ _)
  obtain ⟨b1, hb1, _⟩ := make_move_safe hs hp hv
  have hth : ((((m :: tl).length : Nat) : Int)).tdiv (((([] : List (Int × Int)).length + 1 : Nat)) : Int)
      + ((((m :: tl).length : Nat) : Int)).tmod (((([] : List (Int × Int)).length + 1 : Nat)) : Int)
      = (((m :: tl).length : Nat) : Int) := by
    rw [tdiv_natCast, tmod_natCast]; simp
  refine ⟨b1, hb1, ?_⟩
  rw [gen_move_master_steps MOVEBUFSIZE heaps board colour [] _ _ b0
    (((m :: tl).length : Nat) : Int) 1000 m _ (m :: tl) _ [] (1000, m)
    (count_eq hwf.1 BLACK) (count_eq hwf.1 WHITE) hb0 hlm (rd_moves_zero (m :: tl) [])
    (scatterv_whole (m :: tl) 1 le_rfl (by rw [Nat.div_one, Nat.mod_one]; rfl))
    rfl (by rw [hth]; exact hfeed) (by rw [hth]; simpa using hsearch)
    (by simp [reconcile, gather, reconcile_loop, List.range_succ])]
  rw [if_pos ⟨hv.1, hv.2.1⟩, hb1]
  rfl

/-- A worker whose chunk is empty (fewer moves than ranks) reports the pair
it already held. -/
theorem run_worker_turn_few (heap : List Nat → Nat → Int) (ranks rank : Nat)
    (ret_vals : Int × Int) (bc wc col b0 : Int) (ms : List Int) (hN : ms.length < ranks)
    (hr1 : 1 ≤ rank) (hr : rank < ranks) :
    run_worker_turn heap ranks rank ret_vals bc wc col b0 (ms.length : Int)
      ((ms.length : Int) :: ms) (send_count ms.length ranks) (disp ms.length ranks)
        = some ret_vals := by
  have hdiv : ms.length / ranks = 0 := Nat.div_eq_of_lt hN
  have hmod : ms.length % ranks = ms.length := Nat.mod_eq_of_lt hN
  have hr0 : rank ≠ 0 := by omega
  have hs := send_count_get ms.length ranks rank hr
  have hd := disp_get ms.length ranks rank hr
  simp only [hr0, if_false, hdiv, hmod, Nat.zero_mul, Nat.zero_add] at hs hd
  have htd : ((ms.length : Nat) : Int).tdiv (ranks : Int) = 0 := by
    rw [tdiv_natCast, hdiv]; rfl
  have hsc : scatterv ((ms.length : Int) :: ms) (send_count ms.length ranks)
      (disp ms.length ranks) rank (worker_recv_count ms.length ranks) = some [] := by
    rw [scatterv_some _ _ _ rank _ _ _ hs hd]
    · simp
    · simp
    · simp [worker_recv_count, htd]
  have hwr : wr (malloc (heap [1]) BOARDSIZE) 0 b0
      = some ((malloc (heap [1]) BOARDSIZE).set 0 b0) := by
    unfold wr
    have : (0 : Int) ≤ 0 ∧ (0 : Int).toNat < (malloc (heap [1]) BOARDSIZE).length := by
      simp [malloc, BOARDSIZE]
    rw [if_pos this]
    rfl
  unfold run_worker_turn
  simp only [hwr, hsc, htd]
  simp [make_feed, LEGALMOVSBUFSIZE, search_loop]

theorem workers_round_few (heaps : Nat → List Nat → Nat → Int) (ranks : Nat)
    (bc wc col b0 : Int) (ms : List Int) (hN : ms.length < ranks) :
    ∀ (rest : List (Int × Int)) (rank : Nat), 1 ≤ rank → rank + rest.length ≤ ranks →
      workers_round heaps ranks bc wc col b0 (ms.length : Int) ((ms.length : Int) :: ms)
        (send_count ms.length ranks) (disp ms.length ranks) rank rest = some rest := by
  intro rest
  induction rest with
  | nil => intro rank _ _; rfl
  | cons w rest ih =>
    intro rank h1 h
    simp only [List.length_cons] at h
    unfold workers_round
    rw [run_worker_turn_few (heaps rank) ranks rank w bc wc col b0 ms hN h1 (by omega)]
    simp only [ih (rank + 1) (by omega) (by omega)]

/-- The reconciliation of the coordinator's `(1000, m1)` with workers that
all report `(0, 0)` selects `(0, 0)`. -/
theorem reconcile_idle (m1 : Int) (w : Int × Int) (ws : List (Int × Int))
    (hw : ∀ x ∈ w :: ws, x = (0, 0)) :
    reconcile (gather ((1000, m1) :: w :: ws)) ((w :: ws).length + 1) = some (0, 0) := by
  have hw0 : w = (0, 0) := hw w (List.mem_cons_self _ _)
  subst hw0
  have hrange : List.range (((0, 0) :: ws : List (Int × Int)).length + 1)
      = 0 :: 1 :: List.range' 2 ws.length := by
    rw [List.range_eq_range']; rfl
  have hkeep := reconcile_loop_keep ((1000, m1) :: (0, 0) :: ws) (0, 0) (List.range' 2 ws.length)
    (by
      intro j hj
      simp only [List.mem_range'_1] at hj
      obtain ⟨k, rfl⟩ : ∃ k, j = k + 2 := ⟨j - 2, by omega⟩
      have hk : k < ws.length := by omega
      refine ⟨ws[k], by simp [List.getElem?_eq_getElem hk], ?_⟩
      rw [hw ws[k] (List.mem_cons_of_mem _ (List.getElem_mem hk))])
  unfold reconcile
  rw [hrange]
  simp only [gather, List.getElem?_cons_zero, List.getElem?_cons_succ, List.map_cons,
    reconcile_loop, Nat.mul_zero, Nat.mul_one, gt_iff_lt, lt_self_iff_false, if_false,
    Nat.reduceAdd]
  have h1000 : (0 : Int) < 1000 := by decide
  simp only [h1000, if_true]
  simpa [gather] using hkeep

/-- With more ranks than legal moves and workers that still hold their
initial pair `(0, 0)`, a player that has a legal move passes. -/
theorem idle_workers_force_pass (MOVEBUFSIZE : Nat) (heaps : Nat → List Nat → Nat → Int)
    (hclean : cleanHeap (heaps 0)) {board : List Int} (hwf : wellFormed board) {colour : Int}
    (hp : colour = BLACK ∨ colour = WHITE) (m1 : Int) (tl : List Int)
    (hlm : legal_moves board colour = some ((((m1 :: tl).length : Nat) : Int) :: m1 :: tl))
    (workers : List (Int × Int)) (hw : ∀ x ∈ workers, x = (0, 0))
    (hP : (m1 :: tl).length < workers.length + 1) :
    gen_move_master MOVEBUFSIZE heaps board colour workers
      = some ⟨0, 0, strncpy PASS MOVEBUFSIZE, board, workers⟩ := by
  have hs := wf_safe hwf
  obtain ⟨ms2, hlm2, hvalid, hlt⟩ := legal_moves_safe hs hp
  rw [hlm] at hlm2
  have hmseq : m1 :: tl = ms2 := (List.cons.inj (Option.some.inj hlm2)).2
  rw [← hmseq] at hvalid hlt
  obtain ⟨b0, hb0⟩ := safe_rd_total hs (c := 0) (by omega) (by omega)
  obtain ⟨rest, hfeed, hflen⟩ := make_feed_eq (heaps 0 [0]) (m1 :: tl) hlt
  obtain ⟨m, hm, hsearch⟩ := search_loop_first (heaps 0) hclean hs hp
    (cnt board BLACK (List.range' 1 88)) (cnt board WHITE (List.range' 1 88)) 0
    (m1 :: tl) rest hvalid (by simp) hflen hlt (0, 0)
  have hmm : m = m1 := by simpa using hm.symm
  subst hmm
  have hdiv : (m :: tl).length / (workers.length + 1) = 0 := Nat.div_eq_of_lt hP
  have hmod : (m :: tl).length % (workers.length + 1) = (m :: tl).length := Nat.mod_eq_of_lt hP
  have hth : ((((m :: tl).length : Nat) : Int)).tdiv (((workers.length + 1 : Nat)) : Int)
      + ((((m :: tl).length : Nat) : Int)).tmod (((workers.length + 1 : Nat)) : Int)
      = (((m :: tl).length : Nat) : Int) := by
    rw [tdiv_natCast, tmod_natCast, hdiv, hmod]; simp
  obtain ⟨w, ws, rfl⟩ : ∃ w ws, workers = w :: ws := by
    cases workers with
    | nil => simp at hP
    | cons a t => exact ⟨a, t, rfl⟩
  rw [gen_move_master_steps MOVEBUFSIZE heaps board colour (w :: ws) _ _ b0
    (((m :: tl).length : Nat) : Int) 0 0 _ (m :: tl) _ (w :: ws) (1000, m)
    (count_eq hwf.1 BLACK) (count_eq hwf.1 WHITE) hb0 hlm (rd_moves_zero (m :: tl) [])
    (scatterv_whole (m :: tl) _ (by omega) (by rw [hdiv, hmod]; simp))
    (workers_round_few heaps _ _ _ colour b0 (m :: tl) hP (w :: ws) 1 le_rfl (by simp; omega))
    (by rw [hth]; exact hfeed) (by rw [hth]; simpa using hsearch)
    (reconcile_idle m w ws hw)]
  rw [if_neg (by omega)]

theorem zeroHeaps_clean (rank : Nat) : cleanHeap (zeroHeaps rank) := by
  intro key i _
  have h0 : zeroHeaps rank key i = 0 := rfl
  rw [h0]
  constructor <;> decide

set_option maxRecDepth 1000000 in
theorem afterBlack34_facts :
    apply_opp_move [50, 51, 10, 0] WHITE initialise_board = some afterBlack34 ∧
    wellFormed afterBlack34 ∧ legal_moves afterBlack34 WHITE = some [3, 33, 35, 53] := by
  refine ⟨by decide!, by decide!, by decide!⟩

/-- C5 (what the code does). The engine plays WHITE with four ranks and has
just applied BLACK's opening move `"23\n"`; the workers still hold their
initial pair `(0, 0)` and uninitialised memory reads as zero. WHITE has the
three legal moves 33, 35, 53, yet `gen_move_master` selects a worker's pair
`(0, 0)`, writes `strncpy("pass\n")` and leaves the board unchanged,
whatever `MOVEBUFSIZE` is. -/
theorem pass_with_legal_moves (MOVEBUFSIZE : Nat) :
    apply_opp_move [50, 51, 10, 0] WHITE initialise_board = some afterBlack34 ∧
    wellFormed afterBlack34 ∧ legal_moves afterBlack34 WHITE = some [3, 33, 35, 53] ∧
    gen_move_master MOVEBUFSIZE zeroHeaps afterBlack34 WHITE [(0, 0), (0, 0), (0, 0)]
      = some ⟨0, 0, strncpy PASS MOVEBUFSIZE, afterBlack34, [(0, 0), (0, 0), (0, 0)]⟩ := by
  obtain ⟨hreach, hwf, hlm⟩ := afterBlack34_facts
  exact ⟨hreach, hwf, hlm,
    idle_workers_force_pass MOVEBUFSIZE zeroHeaps (zeroHeaps_clean 0) hwf (Or.inr rfl) 33
      [35, 53] hlm [(0, 0), (0, 0), (0, 0)] (by decide) (by decide)⟩

set_option maxRecDepth 1000000 in
/-- C4 (what the code does). On the position after BLACK's opening move
`"23\n"`, with WHITE to move and uninitialised memory reading as zero, a
single rank chooses cell 33 with utility 1000 and plays it (`"22\n"`), while
four ranks whose workers hold their initial pair `(0, 0)` choose `(0, 0)`
with utility 0 and pass, whatever `MOVEBUFSIZE` is. -/
theorem one_rank_differs_from_four (MOVEBUFSIZE : Nat) :
    gen_move_master MOVEBUFSIZE zeroHeaps afterBlack34 WHITE []
      = some ⟨1000, 33, [50, 50, 10, 0], (afterBlack34.set 33 WHITE).set 44 WHITE, []⟩ ∧
    gen_move_master MOVEBUFSIZE zeroHeaps afterBlack34 WHITE [(0, 0), (0, 0), (0, 0)]
      = some ⟨0, 0, strncpy PASS MOVEBUFSIZE, afterBlack34, [(0, 0), (0, 0), (0, 0)]⟩ := by
  obtain ⟨_, hwf, hlm⟩ := afterBlack34_facts
  constructor
  · obtain ⟨b1, hb1, h⟩ := single_rank_plays_first MOVEBUFSIZE zeroHeaps (zeroHeaps_clean 0)
      hwf (Or.inr rfl) 33 [35, 53] hlm
    have hmv : make_move afterBlack34 33 WHITE
        = some ((afterBlack34.set 33 WHITE).set 44 WHITE) := by decide!
    have hstr : get_move_string 33 = [50, 50, 10, 0] := by decide
    rw [hmv] at hb1
    rw [← Option.some.inj hb1, hstr] at h
    exact h
  · exact idle_workers_force_pass MOVEBUFSIZE zeroHeaps (zeroHeaps_clean 0) hwf (Or.inr rfl) 33
      [35, 53] hlm [(0, 0), (0, 0), (0, 0)] (by decide) (by decide)

set_option maxRecDepth 1000000 in
theorem emptyInterior_facts :
    wellFormed initialise_board_frame ∧ count initialise_board_frame BLACK = some 0 ∧
    count initialise_board_frame WHITE = some 0 ∧ rd initialise_board_frame 0 = some 3 ∧
    legal_moves initialise_board_frame BLACK = some [0] := by
  refine ⟨by decide!, by decide!, by decide!, by decide!, by decide!⟩

set_option maxRecDepth 1000000 in
theorem initialise_board_wf : wellFormed initialise_board := by decide!

set_option maxRecDepth 1000000 in
theorem initialise_board_legal_34 : legalp initialise_board 34 BLACK = some 1 := by decide!

/-- C1 at the starting position with BLACK to move. -/
theorem legal_moves_exhaustive_witness :
    wellFormed initialise_board ∧ (BLACK = BLACK ∨ BLACK = WHITE) ∧
    ∃ ms : List Int, legal_moves initialise_board BLACK = some ((ms.length : Int) :: ms) ∧
      ms.Pairwise (· < ·) ∧
      ∀ m : Int, m ∈ ms ↔
        (11 ≤ m ∧ m ≤ 88 ∧ 1 ≤ m % 10 ∧ m % 10 ≤ 8 ∧ rd initialise_board m = some EMPTY ∧
          ∃ d ∈ ALLDIRECTIONS, brackets initialise_board m d BLACK) :=
  ⟨initialise_board_wf, Or.inl rfl,
    legal_moves_exhaustive initialise_board BLACK initialise_board_wf (Or.inl rfl)⟩

/-- C2 at the starting position for BLACK's move on cell 34. -/
theorem make_move_piece_count_witness :
    wellFormed initialise_board ∧ legalp initialise_board 34 BLACK = some 1 ∧
    ∃ b2 cb cw cb2 cw2, make_move initialise_board 34 BLACK = some b2 ∧
      count initialise_board BLACK = some cb ∧ count initialise_board WHITE = some cw ∧
      count b2 BLACK = some cb2 ∧ count b2 WHITE = some cw2 ∧
      cb2 + cw2 = cb + cw + 1 :=
  ⟨initialise_board_wf, initialise_board_legal_34,
    make_move_piece_count initialise_board 34 BLACK initialise_board_wf (Or.inl rfl)
      initialise_board_legal_34⟩

/-- C3 for three moves and four units: the sizes sum to 3. -/
theorem scatter_partition_witness :
    (1 ≤ 4 ∧ [(33 : Int), 35, 53].length = 3) ∧ (send_count ((3 : Nat) : Int) 4).sum = ((3 : Nat) : Int) :=
  ⟨⟨by decide, rfl⟩, (scatter_partition 3 4 [33, 35, 53] (by decide) rfl).2.2.2.1⟩

/-- C8 (as the code has it) on the starting position. -/
theorem calc_util_mirror_witness :
    initialise_board.length = 100 ∧
    ∃ u, calc_util initialise_board BLACK 2 2 2 = some u ∧
      calc_util (mirror initialise_board) WHITE 2 2 2 = some u :=
  ⟨by decide, calc_util_mirror initialise_board 2 2 2 (by decide)⟩

theorem dir_steps {d : Int} (hd : d ∈ ALLDIRECTIONS) :
    (d = -11 ∧ drow d = -1 ∧ dcol d = -1) ∨ (d = -10 ∧ drow d = -1 ∧ dcol d = 0) ∨
    (d = -9 ∧ drow d = -1 ∧ dcol d = 1) ∨ (d = -1 ∧ drow d = 0 ∧ dcol d = -1) ∨
    (d = 1 ∧ drow d = 0 ∧ dcol d = 1) ∨ (d = 9 ∧ drow d = 1 ∧ dcol d = -1) ∨
    (d = 10 ∧ drow d = 1 ∧ dcol d = 0) ∨ (d = 11 ∧ drow d = 1 ∧ dcol d = 1) := by
  rcases mem_dirs hd with h | h | h | h | h | h | h | h <;> subst h <;> decide

/-- Along a line that starts on an interior cell and has only interior cells
before step `j`, the cell at step `j` has row and column `j` steps away. -/
theorem line_bounds {m d : Int} (hm : validCell m) (hd : d ∈ ALLDIRECTIONS) :
    ∀ j : Nat, (∀ i : Nat, i < j → validCell (m + i * d)) →
      0 ≤ m % 10 + j * dcol d ∧ m % 10 + j * dcol d ≤ 9 ∧
      0 ≤ m / 10 + j * drow d ∧ m / 10 + j * drow d ≤ 9 := by
  intro j
  induction j with
  | zero =>
    intro _
    obtain ⟨h1, h2, h3, h4⟩ := hm
    simp only [Nat.cast_zero, zero_mul, add_zero]
    omega
  | succ j ih =>
    intro h
    have hprev := ih (fun i hi => h i (by omega))
    obtain ⟨c1, c2, c3, c4⟩ := h j (by omega)
    obtain ⟨h1, h2, h3, h4⟩ := hm
    push_cast
    rcases dir_steps hd with ⟨e, er, ec⟩ | ⟨e, er, ec⟩ | ⟨e, er, ec⟩ | ⟨e, er, ec⟩ |
        ⟨e, er, ec⟩ | ⟨e, er, ec⟩ | ⟨e, er, ec⟩ | ⟨e, er, ec⟩ <;>
      (rw [er, ec] at hprev ⊢; rw [e] at c1 c2 c3 c4; omega)

/-- The cell at step `j` of such a line lies on the board, at most 8 steps
away. -/
theorem line_in_board {m d : Int} (hm : validCell m) (hd : d ∈ ALLDIRECTIONS) (j : Nat)
    (h : ∀ i : Nat, i < j → validCell (m + i * d)) :
    0 ≤ m + j * d ∧ m + j * d < 100 ∧ j ≤ 8 := by
  obtain ⟨b1, b2, b3, b4⟩ := line_bounds hm hd j h
  obtain ⟨h1, h2, h3, h4⟩ := hm
  rcases dir_steps hd with ⟨e, er, ec⟩ | ⟨e, er, ec⟩ | ⟨e, er, ec⟩ | ⟨e, er, ec⟩ |
      ⟨e, er, ec⟩ | ⟨e, er, ec⟩ | ⟨e, er, ec⟩ | ⟨e, er, ec⟩ <;>
    (rw [ec] at b1 b2; rw [er] at b3 b4; rw [e]; omega)

/-- Lines that leave the same interior cell in different directions share no
cell. -/
theorem lines_disjoint {m d e : Int} (hm : validCell m) (hd : d ∈ ALLDIRECTIONS)
    (he : e ∈ ALLDIRECTIONS) (hne : d ≠ e) (j k : Nat) (hj : 1 ≤ j) (hk : 1 ≤ k)
    (h1 : ∀ i : Nat, i < j → validCell (m + i * d))
    (h2 : ∀ i : Nat, i < k → validCell (m + i * e)) :
    m + j * d ≠ m + k * e := by
  obtain ⟨b1, b2, b3, b4⟩ := line_bounds hm hd j h1
  obtain ⟨c1, c2, c3, c4⟩ := line_bounds hm he k h2
  obtain ⟨m1, m2, m3, m4⟩ := hm
  intro heq
  rcases dir_steps hd with ⟨x, xr, xc⟩ | ⟨x, xr, xc⟩ | ⟨x, xr, xc⟩ | ⟨x, xr, xc⟩ |
      ⟨x, xr, xc⟩ | ⟨x, xr, xc⟩ | ⟨x, xr, xc⟩ | ⟨x, xr, xc⟩ <;>
    rcases dir_steps he with ⟨y, yr, yc⟩ | ⟨y, yr, yc⟩ | ⟨y, yr, yc⟩ | ⟨y, yr, yc⟩ |
      ⟨y, yr, yc⟩ | ⟨y, yr, yc⟩ | ⟨y, yr, yc⟩ | ⟨y, yr, yc⟩ <;>
    (rw [xc] at b1 b2; rw [xr] at b3 b4; rw [yc] at c1 c2; rw [yr] at c3 c4;
     rw [x, y] at heq; rw [x, y] at hne; omega)

theorem rd_set_eq (b : List Int) {c : Int} (v : Int) (h0 : 0 ≤ c) (h1 : c.toNat < b.length) :
    rd (b.set c.toNat v) c = some v := by
  unfold rd
  simp only [h0, if_true, List.getElem?_set, h1]

theorem dir_ne_zero {d : Int} (hd : d ∈ ALLDIRECTIONS) : d ≠ 0 := by
  rcases mem_dirs hd with h | h | h | h | h | h | h | h <;> omega

theorem step_ne {d : Int} (hd : d ∈ ALLDIRECTIONS) (c : Int) {i j : Nat} (h : i ≠ j) :
    c + (i : Int) * d ≠ c + (j : Int) * d := by
  intro hcontra
  have h1 : ((i : Int) - j) * d = 0 := by
    have : ((i : Int) - j) * d = (c + (i : Int) * d) - (c + (j : Int) * d) := by ring
    rw [this, hcontra]; ring
  rcases mul_eq_zero.mp h1 with h2 | h2
  · omega
  · exact dir_ne_zero hd h2

/-- More fuel does not change the result of a walk. -/
theorem fbp_loop_mono (b : List Int) (d player : Int) :
    ∀ (fuel fuel2 : Nat) (sq r : Int), find_bracket_piece_loop fuel b sq d player = some r →
      fuel ≤ fuel2 → find_bracket_piece_loop fuel2 b sq d player = some r := by
  intro fuel
  induction fuel with
  | zero => intro fuel2 sq r h; simp [find_bracket_piece_loop] at h
  | succ n ih =>
    intro fuel2 sq r h hle
    obtain ⟨f, rfl⟩ : ∃ f, fuel2 = f + 1 := ⟨fuel2 - 1, by omega⟩
    unfold find_bracket_piece_loop at h ⊢
    cases hv : rd b sq with
    | none => simp [hv] at h
    | some v =>
      simp only [hv] at h ⊢
      by_cases hopp : v = opponent player
      · simp only [hopp, if_true] at h ⊢
        exact ih f _ _ h (by omega)
      · simp only [hopp, if_false] at h ⊢
        exact h

/-- More fuel does not change the result of the flipping loop. -/
theorem make_flips_loop_mono (d player br : Int) :
    ∀ (fuel fuel2 : Nat) (b : List Int) (c : Int) (r : List Int),
      make_flips_loop fuel b c d player br = some r →
      fuel ≤ fuel2 → make_flips_loop fuel2 b c d player br = some r := by
  intro fuel
  induction fuel with
  | zero => intro fuel2 b c r h; simp [make_flips_loop] at h
  | succ n ih =>
    intro fuel2 b c r h hle
    obtain ⟨f, rfl⟩ : ∃ f, fuel2 = f + 1 := ⟨fuel2 - 1, by omega⟩
    unfold make_flips_loop at h ⊢
    cases hv : wr b c player with
    | none => simp [hv] at h
    | some b1 =>
      simp only [hv] at h ⊢
      by_cases hbr : c + d ≠ br
      · simp only [ne_eq, hbr, not_false_eq_true, if_true] at h ⊢
        exact ih f _ _ _ h (by omega)
      · simp only [ne_eq, hbr, if_false] at h ⊢
        exact h

/-- The flipping loop, started at `c` with the bracketing cell `k ≥ 1` steps
away, writes `player` to the `k` cells `c, c + d, ..., c + (k-1)*d` and to no
other cell. -/
theorem make_flips_loop_effect {d : Int} (player : Int) (hd : d ∈ ALLDIRECTIONS) :
    ∀ (fuel : Nat) (b : List Int) (c : Int) (k : Nat), 1 ≤ k → k ≤ fuel →
      (∀ j : Nat, j < k → 0 ≤ c + j * d ∧ (c + j * d).toNat < b.length) →
      ∃ b2, make_flips_loop fuel b c d player (c + k * d) = some b2 ∧
        b2.length = b.length ∧
        ∀ x, ((∃ j : Nat, j < k ∧ x = c + j * d) → rd b2 x = some player) ∧
          ((¬ ∃ j : Nat, j < k ∧ x = c + j * d) → rd b2 x = rd b x) := by
  intro fuel
  induction fuel with
  | zero => intro b c k h1 h2; omega
  | succ n ih =>
    intro b c k hk1 hkn hin
    have hc : 0 ≤ c ∧ c.toNat < b.length := by simpa using hin 0 (by omega)
    have hwr : wr b c player = some (b.set c.toNat player) := by
      unfold wr
      simp only [hc, and_self, if_true]
    unfold make_flips_loop
    simp only [hwr]
    by_cases hbr : c + d ≠ c + k * d
    · simp only [ne_eq, hbr, not_false_eq_true, if_true]
      have hk2 : 2 ≤ k := by
        by_contra hlt
        have : k = 1 := by omega
        subst this
        simp at hbr
      have hin2 : ∀ j : Nat, j < k - 1 →
          0 ≤ c + d + j * d ∧ (c + d + j * d).toNat < (b.set c.toNat player).length := by
        intro j hj
        have hj1 := hin (j + 1) (by omega)
        have heq : c + d + (j : Int) * d = c + ((j + 1 : Nat) : Int) * d := by push_cast; ring
        rw [heq, List.length_set]
        exact hj1
      obtain ⟨b2, h1, h2, h3⟩ := ih _ (c + d) (k - 1) (by omega) (by omega) hin2
      have heq : c + d + ((k - 1 : Nat) : Int) * d = c + k * d := by
        have : ((k - 1 : Nat) : Int) = (k : Int) - 1 := by omega
        rw [this]; ring
      rw [heq] at h1
      refine ⟨b2, h1, by rw [h2, List.length_set], ?_⟩
      intro x
      constructor
      · rintro ⟨j, hj, rfl⟩
        cases j with
        | zero =>
          have hnot : ¬ ∃ j : Nat, j < k - 1 ∧ c + ((0 : Nat) : Int) * d = c + d + j * d := by
            rintro ⟨j, _, hj2⟩
            have heq2 : c + d + (j : Int) * d = c + ((j + 1 : Nat) : Int) * d := by
              push_cast; ring
            rw [heq2] at hj2
            exact step_ne hd c (by omega) hj2
          rw [(h3 _).2 hnot]
          simp only [Nat.cast_zero, zero_mul, add_zero]
          exact rd_set_eq b player hc.1 hc.2
        | succ j =>
          apply (h3 _).1
          exact ⟨j, by omega, by push_cast; ring⟩
      · intro hnot
        have hnot2 : ¬ ∃ j : Nat, j < k - 1 ∧ x = c + d + j * d := by
          rintro ⟨j, hj, rfl⟩
          exact hnot ⟨j + 1, by omega, by push_cast; ring⟩
        rw [(h3 x).2 hnot2]
        apply rd_set_ne b player hc.1
        intro hcx
        exact hnot ⟨0, by omega, by simp [hcx]⟩
    · simp only [ne_eq, hbr, not_true_eq_false, if_false]
      have hk : k = 1 := by
        by_contra hne
        apply hbr
        have := step_ne hd c (i := 1) (j := k) (by omega)
        simpa using this
      subst hk
      refine ⟨_, rfl, List.length_set _ _ _, ?_⟩
      intro x
      constructor
      · rintro ⟨j, hj, rfl⟩
        have : j = 0 := by omega
        subst this
        simp only [Nat.cast_zero, zero_mul, add_zero]
        exact rd_set_eq b player hc.1 hc.2
      · intro hnot
        apply rd_set_ne b player hc.1
        intro hcx
        exact hnot ⟨0, by omega, by simp [hcx]⟩

/-- A piece of a safe board lies on an interior cell. -/
theorem safe_piece_valid {b : List Int} (hs : safeBoard b) {c v : Int}
    (h : rd b c = some v) (hv : v = BLACK ∨ v = WHITE) : validCell c := by
  have := safe_piece_interior hs h hv
  unfold validCell
  omega

/-- The walk of `find_bracket_piece` from step `j` of a line whose earlier
cells are interior: it ends within the 8 steps of the line on a board cell
`m + n*d` that does not hold the opponent, having crossed opponent cells
only, and returns that cell when it holds `player` and 0 otherwise. -/
theorem fbp_walk {b : List Int} (hs : safeBoard b) {m d player : Int}
    (hp : player = BLACK ∨ player = WHITE) (hd : d ∈ ALLDIRECTIONS) (hm : validCell m) :
    ∀ (fuel j : Nat), (∀ i : Nat, i < j → validCell (m + i * d)) → 9 ≤ fuel + j →
      ∃ (r : Int) (n : Nat), find_bracket_piece_loop fuel b (m + j * d) d player = some r ∧
        j ≤ n ∧ n ≤ 8 ∧
        (∀ i : Nat, j ≤ i → i < n → rd b (m + i * d) = some (opponent player)) ∧
        0 ≤ m + n * d ∧ m + n * d < 100 ∧
        rd b (m + n * d) ≠ some (opponent player) ∧
        ((rd b (m + n * d) = some player ∧ r = m + n * d) ∨
          (rd b (m + n * d) ≠ some player ∧ r = 0)) := by
  intro fuel
  induction fuel with
  | zero =>
    intro j h hf
    have := (line_in_board hm hd j h).2.2
    omega
  | succ f ih =>
    intro j h hf
    obtain ⟨c0, c1, c2⟩ := line_in_board hm hd j h
    obtain ⟨v, hv⟩ := safe_rd_total hs c0 c1
    obtain ⟨hne, hno, hpo, hob⟩ := opponent_ne hp
    unfold find_bracket_piece_loop
    simp only [hv]
    by_cases hopp : v = opponent player
    · simp only [hopp, if_true]
      have hval : validCell (m + j * d) := safe_piece_valid hs hv (by rw [hopp]; exact hob)
      have hpre : ∀ i : Nat, i < j + 1 → validCell (m + i * d) := by
        intro i hi
        by_cases hij : i = j
        · rw [hij]; exact hval
        · exact h i (by omega)
      obtain ⟨r, n, e1, e2, e3, e4, e5⟩ := ih (j + 1) hpre (by omega)
      have heq : m + ((j + 1 : Nat) : Int) * d = m + j * d + d := by push_cast; ring
      rw [heq] at e1
      refine ⟨r, n, e1, by omega, e3, ?_, e5⟩
      intro i hi1 hi2
      by_cases hij : i = j
      · rw [hij, hv, hopp]
      · exact e4 i (by omega) hi2
    · simp only [hopp, if_false]
      have hnopp : rd b (m + j * d) ≠ some (opponent player) := by
        rw [hv]; intro hc; exact hopp (Option.some.inj hc)
      by_cases hpl : v = player
      · simp only [hpl, if_true]
        refine ⟨_, j, rfl, le_refl _, c2, fun i h1 h2 => by omega, c0, c1, hnopp, ?_⟩
        left
        exact ⟨by rw [hv, hpl], rfl⟩
      · simp only [hpl, if_false]
        refine ⟨_, j, rfl, le_refl _, c2, fun i h1 h2 => by omega, c0, c1, hnopp, ?_⟩
        right
        exact ⟨by rw [hv]; intro hc; exact hpl (Option.some.inj hc), rfl⟩

/-- C20. On a well-formed board, for an interior move `m`, a direction `d` of
`ALLDIRECTIONS` and a player in {BLACK, WHITE}, `would_flip` returns a value
`r`: after its own read of `m + d`, seven iterations of the loop of
`find_bracket_piece` are enough, so at most 8 cells `m + d, ..., m + n*d`
(`n ≤ 8`) are visited; they are board indices in `0..99`, the ones before the
last are interior cells holding the opponent and the walk stops on the first
cell that does not; `r` is 0 or the index of that last cell, which is then an
interior cell holding the player.  `make_flips` returns as well: its
`do ... while` loop ends within seven iterations on reaching `r`, and every
cell it changed is an interior cell. -/
theorem walk_within_board (b : List Int) (m d player : Int) (hwf : wellFormed b)
    (hm : validp m = 1) (hd : d ∈ ALLDIRECTIONS) (hp : player = BLACK ∨ player = WHITE) :
    ∃ (r : Int) (n : Nat),
      would_flip b m d player = some r ∧
      (rd b (m + d) = some (opponent player) →
        find_bracket_piece_loop 7 b (m + d + d) d player = some r) ∧
      1 ≤ n ∧ n ≤ 8 ∧
      (∀ i : Nat, 1 ≤ i → i < n →
        validCell (m + i * d) ∧ rd b (m + i * d) = some (opponent player)) ∧
      0 ≤ m + n * d ∧ m + n * d < 100 ∧ rd b (m + n * d) ≠ some (opponent player) ∧
      (r = 0 ∨ (r = m + n * d ∧ validCell r ∧ rd b r = some player)) ∧
      ∃ b2, make_flips b m d player = some b2 ∧
        (r ≠ 0 → make_flips_loop 7 b (m + d) d player r = some b2) ∧
        ∀ x, rd b2 x ≠ rd b x → validCell x := by
  have hmv : validCell m := (validp_ne_zero_iff m).mp (by rw [hm]; decide)
  have hs := wf_safe hwf
  obtain ⟨hne, hno, hpo, hob⟩ := opponent_ne hp
  have hpre1 : ∀ i : Nat, i < 1 → validCell (m + i * d) := by
    intro i hi
    have : i = 0 := by omega
    subst this
    simpa using hmv
  obtain ⟨c0, c1, _⟩ := line_in_board hmv hd 1 hpre1
  simp only [Nat.cast_one, one_mul] at c0 c1
  obtain ⟨v, hv⟩ := safe_rd_total hs c0 c1
  by_cases hopp : v = opponent player
  · have hval : validCell (m + d) := safe_piece_valid hs hv (by rw [hopp]; exact hob)
    have hpre2 : ∀ i : Nat, i < 2 → validCell (m + i * d) := by
      intro i hi
      by_cases h0 : i = 0
      · subst h0; simpa using hmv
      · have : i = 1 := by omega
        subst this
        simpa using hval
    obtain ⟨r, n, e1, e2, e3, e4, e5, e6, e7, e8⟩ := fbp_walk hs hp hd hmv 7 2 hpre2 (by omega)
    have heq2 : m + ((2 : Nat) : Int) * d = m + d + d := by push_cast; ring
    rw [heq2] at e1
    have hrun : ∀ i : Nat, 1 ≤ i → i < n →
        validCell (m + i * d) ∧ rd b (m + i * d) = some (opponent player) := by
      intro i hi1 hi2
      have hrd : rd b (m + i * d) = some (opponent player) := by
        by_cases h1 : i = 1
        · subst h1
          simp only [Nat.cast_one, one_mul]
          rw [hv, hopp]
        · exact e4 i (by omega) hi2
      exact ⟨safe_piece_valid hs hrd hob, hrd⟩
    have hwf2 : would_flip b m d player = some r := by
      unfold would_flip find_bracket_piece
      simp only [hv, hopp, if_true]
      exact fbp_loop_mono b d player 7 BOARDSIZE _ _ e1 (by decide)
    have hres : r = 0 ∨ (r = m + n * d ∧ validCell r ∧ rd b r = some player) := by
      rcases e8 with ⟨h1, h2⟩ | ⟨_, h2⟩
      · right
        refine ⟨h2, ?_, ?_⟩
        · rw [h2]; exact safe_piece_valid hs h1 hp
        · rw [h2]; exact h1
      · left; exact h2
    refine ⟨r, n, hwf2, fun _ => e1, by omega, e3, hrun, e5, e6, e7, hres, ?_⟩
    unfold make_flips
    simp only [hwf2]
    by_cases hr0 : r ≠ 0
    · simp only [ne_eq, hr0, not_false_eq_true, if_true]
      have hrn : r = m + n * d := by
        rcases hres with h | h
        · exact absurd h hr0
        · exact h.1
      have hin : ∀ j : Nat, j < n - 1 →
          0 ≤ m + d + j * d ∧ (m + d + j * d).toNat < b.length := by
        intro j hj
        have heq : m + d + (j : Int) * d = m + ((j + 1 : Nat) : Int) * d := by
          push_cast; ring
        rw [heq]
        obtain ⟨h0, h1, _⟩ := rd_eq_some (hrun (j + 1) (by omega) (by omega)).2
        exact ⟨h0, by omega⟩
      obtain ⟨b2, h1, _, h3⟩ :=
        make_flips_loop_effect player hd 7 b (m + d) (n - 1) (by omega) (by omega) hin
      have heq : m + d + ((n - 1 : Nat) : Int) * d = r := by
        have : ((n - 1 : Nat) : Int) = (n : Int) - 1 := by omega
        rw [this, hrn]; ring
      rw [heq] at h1
      refine ⟨b2, make_flips_loop_mono d player r 7 BOARDSIZE _ _ _ h1 (by decide),
        fun _ => h1, ?_⟩
      intro x hx
      by_cases hex : ∃ j : Nat, j < n - 1 ∧ x = m + d + j * d
      · obtain ⟨j, hj, rfl⟩ := hex
        have heq3 : m + d + (j : Int) * d = m + ((j + 1 : Nat) : Int) * d := by
          push_cast; ring
        rw [heq3]
        exact (hrun (j + 1) (by omega) (by omega)).1
      · exact absurd ((h3 x).2 hex) hx
    · simp only [hr0, if_false]
      exact ⟨b, rfl, fun h => h.elim, fun x hx => absurd rfl hx⟩
  · have hwf2 : would_flip b m d player = some 0 := by
      unfold would_flip
      simp only [hv, hopp, if_false]
    have hnopp : rd b (m + d) ≠ some (opponent player) := by
      rw [hv]; intro hc; exact hopp (Option.some.inj hc)
    refine ⟨0, 1, hwf2, fun h => absurd h hnopp, le_refl _, by omega,
      fun i h1 h2 => by omega, ?_, ?_, ?_, Or.inl rfl, ?_⟩
    · simpa using c0
    · simpa using c1
    · simpa using hnopp
    · unfold make_flips
      simp only [hwf2, ne_eq, not_true_eq_false, if_false]
      exact ⟨b, rfl, fun h => h.elim, fun x hx => absurd rfl hx⟩

/-- Two boards that agree along a line give the same walk along it. -/
theorem fbp_agree {b c : List Int} (hs : safeBoard b) {m d player : Int}
    (hp : player = BLACK ∨ player = WHITE)
    (hagree : ∀ i : Nat, 1 ≤ i → (∀ i2 : Nat, i2 < i → validCell (m + i2 * d)) →
      rd c (m + i * d) = rd b (m + i * d)) :
    ∀ (fuel j : Nat), 1 ≤ j → (∀ i : Nat, i < j → validCell (m + i * d)) →
      find_bracket_piece_loop fuel c (m + j * d) d player =
        find_bracket_piece_loop fuel b (m + j * d) d player := by
  intro fuel
  induction fuel with
  | zero => intro j _ _; rfl
  | succ f ih =>
    intro j hj hpre
    obtain ⟨hne, hno, hpo, hob⟩ := opponent_ne hp
    unfold find_bracket_piece_loop
    rw [hagree j hj hpre]
    cases hv : rd b (m + j * d) with
    | none => rfl
    | some v =>
      simp only []
      by_cases hopp : v = opponent player
      · simp only [hopp, if_true]
        have hval : validCell (m + j * d) := safe_piece_valid hs hv (by rw [hopp]; exact hob)
        have hpre2 : ∀ i : Nat, i < j + 1 → validCell (m + i * d) := by
          intro i hi
          by_cases hij : i = j
          · rw [hij]; exact hval
          · exact hpre i (by omega)
        have := ih (j + 1) (by omega) hpre2
        have heq : m + ((j + 1 : Nat) : Int) * d = m + j * d + d := by push_cast; ring
        rw [heq] at this
        exact this
      · simp only [hopp, if_false]

theorem would_flip_agree {b c : List Int} (hs : safeBoard b) {m d player : Int}
    (hp : player = BLACK ∨ player = WHITE) (hm : validCell m)
    (hagree : ∀ i : Nat, 1 ≤ i → (∀ i2 : Nat, i2 < i → validCell (m + i2 * d)) →
      rd c (m + i * d) = rd b (m + i * d)) :
    would_flip c m d player = would_flip b m d player := by
  obtain ⟨hne, hno, hpo, hob⟩ := opponent_ne hp
  have hpre1 : ∀ i : Nat, i < 1 → validCell (m + i * d) := by
    intro i hi
    have : i = 0 := by omega
    subst this
    simpa using hm
  have h1 := hagree 1 (le_refl _) hpre1
  simp only [Nat.cast_one, one_mul] at h1
  unfold would_flip
  rw [h1]
  cases hv : rd b (m + d) with
  | none => rfl
  | some v =>
    simp only []
    by_cases hopp : v = opponent player
    · simp only [hopp, if_true]
      have hval : validCell (m + d) := safe_piece_valid hs hv (by rw [hopp]; exact hob)
      have hpre2 : ∀ i : Nat, i < 2 → validCell (m + i * d) := by
        intro i hi
        by_cases h0 : i = 0
        · subst h0; simpa using hm
        · have : i = 1 := by omega
          subst this
          simpa using hval
      have := fbp_agree hs hp hagree BOARDSIZE 2 (by omega) hpre2
      have heq : m + ((2 : Nat) : Int) * d = m + d + d := by push_cast; ring
      rw [heq] at this
      exact this
    · simp only [hopp, if_false]

/-- The length of a bracket run in a direction is determined by the board. -/
theorem run_unique {b : List Int} {m d player : Int} (hne : opponent player ≠ player)
    {k k2 : Nat}
    (h1 : ∀ i : Nat, 1 ≤ i → i ≤ k → rd b (m + i * d) = some (opponent player))
    (e1 : rd b (m + (k + 1) * d) = some player)
    (h2 : ∀ i : Nat, 1 ≤ i → i ≤ k2 → rd b (m + i * d) = some (opponent player))
    (e2 : rd b (m + (k2 + 1) * d) = some player) : k = k2 := by
  rcases Nat.lt_trichotomy k k2 with h | h | h
  · have := h2 (k + 1) (by omega) (by omega)
    push_cast at this
    rw [e1] at this
    exact absurd (Option.some.inj this).symm hne
  · exact h
  · have := h1 (k2 + 1) (by omega) (by omega)
    push_cast at this
    rw [e2] at this
    exact absurd (Option.some.inj this).symm hne

/-- The cells of a bracket run are interior cells, and so is every cell
before them on the line. -/
theorem run_prefix_valid {b : List Int} (hs : safeBoard b) {m d player : Int}
    (hp : player = BLACK ∨ player = WHITE) (hm : validCell m) {k : Nat}
    (h1 : ∀ i : Nat, 1 ≤ i → i ≤ k → rd b (m + i * d) = some (opponent player)) :
    ∀ i : Nat, i < k + 1 → validCell (m + i * d) := by
  intro i hi
  by_cases h0 : i = 0
  · subst h0; simpa using hm
  · exact safe_piece_valid hs (h1 i (by omega) (by omega)) (opponent_ne hp).2.2.2

/-- One direction of `make_move`: the call of `make_flips` on a board `c` that
is `b` with the runs of the directions `done` already flipped. -/
theorem make_flips_effect {b : List Int} (hs : safeBoard b) {m player : Int}
    (hp : player = BLACK ∨ player = WHITE) (hm : validCell m) {d : Int}
    (hd : d ∈ ALLDIRECTIONS) (done : List Int) (hdone : ∀ e ∈ done, e ∈ ALLDIRECTIONS ∧ e ≠ d)
    (c : List Int) (hlen : c.length = 100)
    (hinv : ∀ x, x ≠ m → (flippedIn done b m player x → rd c x = some player) ∧
      (¬ flippedIn done b m player x → rd c x = rd b x)) :
    ∃ b2, make_flips c m d player = some b2 ∧ b2.length = 100 ∧ rd b2 m = rd c m ∧
      ∀ x, x ≠ m → (flippedIn (done ++ [d]) b m player x → rd b2 x = some player) ∧
        (¬ flippedIn (done ++ [d]) b m player x → rd b2 x = rd b x) := by
  obtain ⟨hne, hno, hpo, hob⟩ := opponent_ne hp
  have hm4 : 11 ≤ m ∧ m ≤ 88 ∧ 1 ≤ m % 10 ∧ m % 10 ≤ 8 := hm
  have hagree : ∀ i : Nat, 1 ≤ i → (∀ i2 : Nat, i2 < i → validCell (m + i2 * d)) →
      rd c (m + i * d) = rd b (m + i * d) := by
    intro i hi hpre
    have hxm : m + (i : Int) * d ≠ m := by
      have := step_ne hd m (i := i) (j := 0) (by omega)
      simpa using this
    apply (hinv _ hxm).2
    rintro ⟨e, he, k, j, hj1, hjk, hx, hrun, _⟩
    have hpre2 := run_prefix_valid hs hp hm hrun
    exact lines_disjoint hm hd (hdone e he).1 (fun h => (hdone e he).2 h.symm) i j hi hj1 hpre
      (fun i2 hi2 => hpre2 i2 (by omega)) hx
  have hwfe := would_flip_agree hs hp hm hagree
  obtain ⟨r, hr, hrb⟩ := would_flip_spec hs hp hd hm4
  have hsplit : ∀ x, flippedIn (done ++ [d]) b m player x ↔
      (flippedIn done b m player x ∨ flippedIn [d] b m player x) := by
    intro x
    unfold flippedIn
    constructor
    · rintro ⟨e, he, rest⟩
      rcases List.mem_append.mp he with h | h
      · exact Or.inl ⟨e, h, rest⟩
      · exact Or.inr ⟨e, h, rest⟩
    · rintro (⟨e, he, rest⟩ | ⟨e, he, rest⟩)
      · exact ⟨e, List.mem_append_left _ he, rest⟩
      · exact ⟨e, List.mem_append_right _ he, rest⟩
  unfold make_flips
  rw [hwfe, hr]
  by_cases hr0 : r ≠ 0
  · simp only [ne_eq, hr0, not_false_eq_true, if_true]
    obtain ⟨h1, k0, ⟨hk1, hk2⟩, hk3⟩ := would_flip_run hr hr0
    have hrun : ∀ i : Nat, 1 ≤ i → i ≤ k0 + 1 → rd b (m + i * d) = some (opponent player) := by
      intro i hi1 hi2
      by_cases hi : i = 1
      · subst hi; simpa using h1
      · have := hk1 (i - 2) (by omega)
        rw [← this]; congr 1
        have : ((i - 2 : Nat) : Int) = (i : Int) - 2 := by omega
        rw [this]; ring
    have hend : rd b (m + ((k0 + 1 : Nat) + 1) * d) = some player := by
      rw [← hk2]; congr 1; push_cast; ring
    have hpre := run_prefix_valid hs hp hm hrun
    have hin : ∀ j : Nat, j < k0 + 1 →
        0 ≤ m + d + j * d ∧ (m + d + j * d).toNat < c.length := by
      intro j hj
      have heq : m + d + (j : Int) * d = m + ((j + 1 : Nat) : Int) * d := by push_cast; ring
      rw [heq]
      obtain ⟨h0, h1, _⟩ := rd_eq_some (hrun (j + 1) (by omega) (by omega))
      rw [hs.1] at h1
      rw [hlen]
      exact ⟨h0, by omega⟩
    have hk8 : k0 + 2 ≤ 8 := (line_in_board hm hd (k0 + 2) (fun i hi => hpre i (by omega))).2.2
    obtain ⟨b2, e1, e2, e3⟩ :=
      make_flips_loop_effect player hd BOARDSIZE c (m + d) (k0 + 1) (by omega)
        (by simp only [BOARDSIZE]; omega) hin
    have heq : m + d + ((k0 + 1 : Nat) : Int) * d = r := by rw [hk3]; push_cast; ring
    rw [heq] at e1
    have hset : ∀ x, (∃ j : Nat, j < k0 + 1 ∧ x = m + d + j * d) ↔
        flippedIn [d] b m player x := by
      intro x
      constructor
      · rintro ⟨j, hj, rfl⟩
        exact ⟨d, List.mem_singleton.mpr rfl, k0 + 1, j + 1, by omega, by omega,
          by push_cast; ring, hrun, hend⟩
      · rintro ⟨e, he, k, j, hj1, hjk, hx, hrun2, hend2⟩
        have hed : e = d := List.mem_singleton.mp he
        subst hed
        have hkk : k = k0 + 1 := run_unique hne hrun2 hend2 hrun hend
        refine ⟨j - 1, by omega, ?_⟩
        rw [hx]
        have : ((j - 1 : Nat) : Int) = (j : Int) - 1 := by omega
        rw [this]; ring
    refine ⟨b2, e1, by rw [e2, hlen], ?_, ?_⟩
    · apply (e3 m).2
      rintro ⟨j, _, hj⟩
      have heq2 : m + d + (j : Int) * d = m + ((j + 1 : Nat) : Int) * d := by push_cast; ring
      rw [heq2] at hj
      have := step_ne hd m (i := 0) (j := j + 1) (by omega)
      apply this
      simpa using hj
    · intro x hxm
      constructor
      · intro hfl
        by_cases hnew : ∃ j : Nat, j < k0 + 1 ∧ x = m + d + j * d
        · exact (e3 x).1 hnew
        · rw [(e3 x).2 hnew]
          rcases (hsplit x).mp hfl with h | h
          · exact (hinv x hxm).1 h
          · exact absurd ((hset x).mpr h) hnew
      · intro hfl
        have hn1 : ¬ flippedIn done b m player x := fun h => hfl ((hsplit x).mpr (Or.inl h))
        have hn2 : ¬ ∃ j : Nat, j < k0 + 1 ∧ x = m + d + j * d :=
          fun h => hfl ((hsplit x).mpr (Or.inr ((hset x).mp h)))
        rw [(e3 x).2 hn2]
        exact (hinv x hxm).2 hn1
  · simp only [hr0, if_false]
    have hnob : ¬ brackets b m d player := fun h => hr0 (hrb.mpr h)
    have hnone : ∀ x, ¬ flippedIn [d] b m player x := by
      rintro x ⟨e, he, k, j, hj1, hjk, _, hrun2, hend2⟩
      have hed : e = d := List.mem_singleton.mp he
      subst hed
      exact hnob ⟨k, by omega, hrun2, hend2⟩
    refine ⟨c, rfl, hlen, rfl, ?_⟩
    intro x hxm
    constructor
    · intro hfl
      rcases (hsplit x).mp hfl with h | h
      · exact (hinv x hxm).1 h
      · exact absurd h (hnone x)
    · intro hfl
      exact (hinv x hxm).2 (fun h => hfl ((hsplit x).mpr (Or.inl h)))

/-- The loop of `make_move` over the directions `ds`, started on a board `c`
that is `b` with the runs of the directions `done` already flipped. -/
theorem make_move_loop_effect {b : List Int} (hs : safeBoard b) {m player : Int}
    (hp : player = BLACK ∨ player = WHITE) (hm : validCell m) :
    ∀ (ds done : List Int), (∀ d ∈ ds, d ∈ ALLDIRECTIONS) → (∀ e ∈ done, e ∈ ALLDIRECTIONS) →
      (done ++ ds).Nodup → ∀ c : List Int, c.length = 100 →
      (∀ x, x ≠ m → (flippedIn done b m player x → rd c x = some player) ∧
        (¬ flippedIn done b m player x → rd c x = rd b x)) →
      ∃ b2, make_move_loop m player ds c = some b2 ∧ b2.length = 100 ∧ rd b2 m = rd c m ∧
        ∀ x, x ≠ m → (flippedIn (done ++ ds) b m player x → rd b2 x = some player) ∧
          (¬ flippedIn (done ++ ds) b m player x → rd b2 x = rd b x) := by
  intro ds
  induction ds with
  | nil =>
    intro done _ _ _ c hlen hinv
    refine ⟨c, rfl, hlen, rfl, ?_⟩
    simpa using hinv
  | cons d ds ih =>
    intro done hds hdone hnd c hlen hinv
    have hd := hds d (List.mem_cons_self _ _)
    have hnotin : ∀ e ∈ done, e ∈ ALLDIRECTIONS ∧ e ≠ d := by
      intro e he
      refine ⟨hdone e he, ?_⟩
      rintro rfl
      have := (List.nodup_append.mp hnd).2.2
      exact this he (List.mem_cons_self _ _)
    obtain ⟨b1, e1, e2, e3, e4⟩ := make_flips_effect hs hp hm hd done hnotin c hlen hinv
    have happ : done ++ [d] ++ ds = done ++ d :: ds := by simp
    have hdone2 : ∀ e ∈ done ++ [d], e ∈ ALLDIRECTIONS := by
      intro e he
      rcases List.mem_append.mp he with h | h
      · exact hdone e h
      · rw [List.mem_singleton.mp h]; exact hd
    obtain ⟨b2, f1, f2, f3, f4⟩ :=
      ih (done ++ [d]) (fun x hx => hds x (List.mem_cons_of_mem _ hx)) hdone2
        (by rw [happ]; exact hnd) b1 e2 e4
    rw [happ] at f4
    unfold make_move_loop
    simp only [e1]
    exact ⟨b2, f1, f2, by rw [f3, e3], f4⟩

/-- C12 (amended). On a well-formed board `b`, for an interior move `m` and a
player in {BLACK, WHITE}, `make_move` returns a board on which cell `m` holds
the player (so `m` differs from `b` unless it already held the player); every
cell lying strictly between `m` and the bracketing piece, in a direction that
has a bracket on the original board `b`, held the opponent and now holds the
player; and every other cell is unchanged. -/
theorem make_move_effect (b : List Int) (m player : Int) (hwf : wellFormed b)
    (hm : validp m = 1) (hp : player = BLACK ∨ player = WHITE) :
    ∃ b2, make_move b m player = some b2 ∧ rd b2 m = some player ∧
      (rd b m ≠ some player → rd b2 m ≠ rd b m) ∧
      ∀ x, (flippedIn ALLDIRECTIONS b m player x →
          x ≠ m ∧ rd b x = some (opponent player) ∧ rd b2 x = some player) ∧
        (x ≠ m → ¬ flippedIn ALLDIRECTIONS b m player x → rd b2 x = rd b x) := by
  have hmv : validCell m := (validp_ne_zero_iff m).mp (by rw [hm]; decide)
  have hs := wf_safe hwf
  have hm0 : 0 ≤ m := by have := hmv.1; omega
  have hmlt : m.toNat < b.length := by
    have := hmv.2.1
    rw [hwf.1]; omega
  have hwr : wr b m player = some (b.set m.toNat player) := by
    unfold wr
    have : 0 ≤ m ∧ m.toNat < b.length := ⟨hm0, hmlt⟩
    simp only [this, and_self, if_true]
  have hinv : ∀ x, x ≠ m →
      (flippedIn [] b m player x → rd (b.set m.toNat player) x = some player) ∧
      (¬ flippedIn [] b m player x → rd (b.set m.toNat player) x = rd b x) := by
    intro x hx
    constructor
    · rintro ⟨d, hd, _⟩
      simp at hd
    · intro _
      exact rd_set_ne b player hm0 (fun h => hx h.symm)
  obtain ⟨b2, e1, _, e3, e4⟩ :=
    make_move_loop_effect hs hp hmv ALLDIRECTIONS [] (fun _ h => h) (by simp) (by decide)
      (b.set m.toNat player) (by rw [List.length_set]; exact hwf.1) hinv
  have hb2m : rd b2 m = some player := by rw [e3]; exact rd_set_eq b player hm0 hmlt
  refine ⟨b2, by unfold make_move; simp only [hwr]; exact e1, hb2m, ?_, ?_⟩
  · intro h hc
    rw [hb2m] at hc
    exact h hc.symm
  · intro x
    simp only [List.nil_append] at e4
    constructor
    · intro hfl
      have hxm : x ≠ m := by
        obtain ⟨d, hd, k, j, hj1, _, hx, _⟩ := hfl
        rw [hx]
        have := step_ne hd m (i := j) (j := 0) (by omega)
        simpa using this
      refine ⟨hxm, ?_, (e4 x hxm).1 hfl⟩
      obtain ⟨d, hd, k, j, hj1, hjk, hx, hrun, _⟩ := hfl
      rw [hx]
      exact hrun j hj1 hjk
    · intro hxm hfl
      exact (e4 x hxm).2 hfl

set_option maxRecDepth 1000000 in
/-- C12 (as stated) fails for the cell `m` itself: on the starting position
cell 45 already holds BLACK and no direction from it has a bracket for BLACK,
so `make_move` for BLACK on cell 45 returns the board unchanged, and cell `m`
is not among the cells that differ. -/
theorem make_move_occupied_cell :
    wellFormed initialise_board ∧ validp 45 = 1 ∧
    rd initialise_board 45 = some BLACK ∧
    make_move initialise_board 45 BLACK = some initialise_board := by
  refine ⟨by decide!, by decide, by decide, by decide!⟩

set_option maxRecDepth 1000000 in
/-- The scenario of C12: on the starting position the only cell between cell
34 and a bracketing piece of BLACK is cell 44, and BLACK's move on cell 34
leaves 4 black pieces and 1 white piece. -/
theorem make_move_black_34 :
    (∀ x, flippedIn ALLDIRECTIONS initialise_board 34 BLACK x ↔ x = 44) ∧
    make_move initialise_board 34 BLACK = some afterBlack34 ∧
    count afterBlack34 BLACK = some 4 ∧ count afterBlack34 WHITE = some 1 := by
  refine ⟨?_, by decide!, by decide!, by decide!⟩
  intro x
  constructor
  · rintro ⟨d, hd, k, j, hj1, hjk, hx, hrun, hend⟩
    have h1 := hrun 1 (le_refl _) (by omega)
    simp only [Nat.cast_one, one_mul] at h1
    rcases mem_dirs hd with h | h | h | h | h | h | h | h <;> subst h
    · exact absurd h1 (by decide)
    · exact absurd h1 (by decide)
    · exact absurd h1 (by decide)
    · exact absurd h1 (by decide)
    · exact absurd h1 (by decide)
    · exact absurd h1 (by decide)
    · have hk : k = 1 := by
        by_contra hne
        have h2 := hrun 2 (by omega) (by omega)
        exact absurd h2 (by decide)
      have hj : j = 1 := by omega
      rw [hx, hj]
      rfl
    · exact absurd h1 (by decide)
  · rintro rfl
    exact ⟨10, by decide, 1, 1, le_refl _, le_refl _, by decide, by
      intro i hi1 hi2
      have : i = 1 := by omega
      subst this
      decide, by decide⟩

/-- C12 (amended) at the starting position for BLACK's move on cell 34: the
board returned has BLACK on cells 34 and 44 and is unchanged elsewhere. -/
theorem make_move_effect_witness :
    (wellFormed initialise_board ∧ validp 34 = 1 ∧ (BLACK = BLACK ∨ BLACK = WHITE)) ∧
    ∃ b2, make_move initialise_board 34 BLACK = some b2 ∧ rd b2 34 = some BLACK ∧
      (rd initialise_board 34 ≠ some BLACK → rd b2 34 ≠ rd initialise_board 34) ∧
      ∀ x, (flippedIn ALLDIRECTIONS initialise_board 34 BLACK x →
          x ≠ 34 ∧ rd initialise_board x = some (opponent BLACK) ∧ rd b2 x = some BLACK) ∧
        (x ≠ 34 → ¬ flippedIn ALLDIRECTIONS initialise_board 34 BLACK x →
          rd b2 x = rd initialise_board x) :=
  ⟨⟨initialise_board_wf, by decide, Or.inl rfl⟩,
    make_move_effect initialise_board 34 BLACK initialise_board_wf (by decide) (Or.inl rfl)⟩

/-- C11. The board built by `initialise_board` is well formed (`OUTER` on every
border cell, only `EMPTY`, `BLACK` or `WHITE` inside); and on every
well-formed board, for every interior move (`validp`) and every player in
{BLACK, WHITE}, `make_move` returns a well-formed board whose border cells
are those of the board before. -/
theorem board_wellFormed_invariant :
    wellFormed initialise_board ∧
    ∀ (b : List Int) (m player : Int), wellFormed b → validp m = 1 →
      (player = BLACK ∨ player = WHITE) →
      ∃ b2, make_move b m player = some b2 ∧ wellFormed b2 ∧
        ∀ i, i < 100 → isBorder i = true → b2[i]? = b[i]? := by
  refine ⟨initialise_board_wf, ?_⟩
  intro b m player hwf hv hp
  have hm : 11 ≤ m ∧ m ≤ 88 ∧ 1 ≤ m % 10 ∧ m % 10 ≤ 8 :=
    (validp_ne_zero_iff m).mp (by rw [hv]; decide)
  have hwr : wr b m player = some (b.set m.toNat player) := by
    unfold wr
    have : 0 ≤ m ∧ m.toNat < b.length := ⟨by omega, by rw [hwf.1]; omega⟩
    simp only [this, and_self, if_true]
  have hwf1 : wellFormed (b.set m.toNat player) :=
    wf_set hwf ⟨by omega, by omega, hm.2.2.1, hm.2.2.2⟩ (by rcases hp with h | h <;> simp [h])
  obtain ⟨b2, h1, _, h2, _⟩ :=
    make_move_loop_inv hp hm ALLDIRECTIONS (fun _ h => h) _ (wf_safe hwf1)
  have hwf2 := h2 hwf1
  refine ⟨b2, by unfold make_move; simp only [hwr]; exact h1, hwf2, ?_⟩
  intro i hi hb
  have e1 := hwf.2 i hi
  have e2 := hwf2.2 i hi
  simp only [hb, if_true] at e1 e2
  rw [e1, e2]

/-- C13 (as the code has it). On a board of 100 cells, for a depth `d` in
`0..7`, `calc_util` returns base + bonus: the base is
`(count(BLACK) - bc) - (count(WHITE) - wc)` for the root player BLACK and its
negation for WHITE (for any root player other than BLACK); the bonus is 0
when `d` is odd or 7 and otherwise `d`, `2*d` or `3*d` according to whether
the baseline total `bc + wc` is below 25, from 25 to 49, or at least 50. -/
theorem calc_util_formula (b : List Int) (p bc wc d : Int) (hlen : b.length = 100)
    (hd0 : 0 ≤ d) (hd7 : d ≤ 7) :
    ∃ cb cw, count b BLACK = some cb ∧ count b WHITE = some cw ∧
      calc_util b p bc wc d = some
        ((if p = BLACK then (cb - bc) - (cw - wc) else -((cb - bc) - (cw - wc))) +
          (if d % 2 = 1 ∨ d = 7 then 0
            else if bc + wc < 25 then d
            else if bc + wc < 50 then 2 * d
            else 3 * d)) := by
  refine ⟨_, _, count_eq hlen BLACK, count_eq hlen WHITE, ?_⟩
  unfold calc_util
  rw [count_eq hlen BLACK, count_eq hlen WHITE]
  simp only [Option.some.injEq]
  have htm : d.tmod 2 = d % 2 := Int.tmod_eq_emod hd0 (by omega)
  rw [htm]
  have h7 : DEPTH = 7 := rfl
  rw [h7]
  by_cases hb : p = BLACK
  · simp only [hb, if_true]
    split <;> split <;> (try split) <;> (try split) <;> omega
  · simp only [hb, if_false]
    split <;> split <;> (try split) <;> (try split) <;> omega

/-- C13 (as stated) fails: on the starting position (4 pieces on the board)
with baselines 13 and 12 and depth 2, `calc_util` for BLACK returns 3, the
base -1 plus the bonus `2*d` chosen by the baseline total 25, while the bonus
chosen by the pieces on the board would be `d`, giving 1. -/
theorem calc_util_bonus_by_baseline :
    count initialise_board BLACK = some 2 ∧ count initialise_board WHITE = some 2 ∧
    calc_util initialise_board BLACK 13 12 2 = some 3 ∧
    calc_util_claimed 2 2 BLACK 13 12 2 = 1 := by
  refine ⟨by decide, by decide, by decide, by decide⟩

/-- C17 (what the code does). `duplicate_board(b, BOARDSIZE)` copies 100
bytes, the first 25 cells: on the board of `initialise_board` cells 25..99 of
the result keep what the fresh block held, so with memory that reads as zero
cell 44 holds `EMPTY` where the original holds `WHITE`. -/
theorem duplicate_board_partial (junk : Nat → Int) :
    ∃ d, duplicate_board junk initialise_board BOARDSIZE = some d ∧
      (∀ i, i < 25 → d[i]? = initialise_board[i]?) ∧
      (∀ i, 25 ≤ i → i < 100 → d[i]? = some (junk i)) ∧
      (junk 44 = 0 → rd d 44 = some EMPTY ∧ rd initialise_board 44 = some WHITE) := by
  have hlen : initialise_board.length = 100 := by decide
  have hcond : BOARDSIZE % SIZEOF_INT = 0 ∧ BOARDSIZE / SIZEOF_INT ≤ initialise_board.length := by
    decide
  have h25 : BOARDSIZE / SIZEOF_INT = 25 := by decide
  have htl : (List.take 25 initialise_board).length = 25 := by simp [hlen]
  have hhi : ∀ i, 25 ≤ i → i < 100 →
      (List.take 25 initialise_board ++ List.drop 25 (malloc junk BOARDSIZE))[i]?
        = some (junk i) := by
    intro i h1 h2
    rw [List.getElem?_append_right (by rw [htl]; omega), htl, List.getElem?_drop]
    have : 25 + (i - 25) = i := by omega
    rw [this, malloc_get junk BOARDSIZE i (by simpa [BOARDSIZE] using h2)]
  refine ⟨_, by unfold duplicate_board; rw [if_pos hcond, h25], ?_, hhi, ?_⟩
  · intro i hi
    rw [List.getElem?_append_left (by rw [htl]; exact hi), List.getElem?_take_of_lt hi]
  · intro hj
    refine ⟨?_, by decide⟩
    have := hhi 44 (by omega) (by omega)
    simp only [rd, EMPTY]
    rw [if_pos (by omega)]
    simpa [hj] using this

/-- The recursion of `minmax` goes through `child_call`. -/
theorem minmax_calls (fuel : Nat) (heap : List Nat → Nat → Int) (c : Call) :
    run_call (fuel + 1) heap c =
      match rd c.moves 0 with
      | none => none
      | some amount_moves =>
        match new_moves_of heap c with
        | none => none
        | some new_moves =>
          if c.depth > c.curr_layer ∧ amount_moves ≠ 0 then
            match minmax_loop
                (fun i mv => (child_call heap c new_moves i mv).bind (run_call fuel heap))
                c.alpha c.beta amount_moves c.moves amount_moves.toNat 1
                (List.replicate amount_moves.toNat 0) with
            | none => none
            | some util_arr =>
              match find_maxmin c.maxmin util_arr amount_moves with
              | none => none
              | some util =>
                if c.maxmin = 0 then some util
                else if util < c.beta then some c.beta
                else some util
          else calc_util c.curr_board c.first_player c.curr_bcount c.curr_wcount c.curr_layer := by
  unfold run_call
  rw [minmax]
  cases rd c.moves 0 with
  | none => rfl
  | some a =>
    simp only [new_moves_of]
    cases (if c.curr_layer ≠ 0 then legal_moves c.curr_board c.curr_player
          else if c.curr_layer ≠ c.depth then
            duplicate_board (heap (0 :: c.path)) c.moves (LEGALMOVSBUFSIZE * SIZEOF_INT)
          else some []) with
    | none => rfl
    | some nm =>
      simp only []
      have hfun : (fun (i mv : Int) =>
            match duplicate_board (heap (i.toNat :: c.path)) c.curr_board BOARDSIZE with
            | none => none
            | some sim_board =>
              match make_move sim_board mv c.curr_player with
              | none => none
              | some sim_board1 =>
                minmax fuel heap (i.toNat :: c.path) sim_board1 nm c.depth
                  (c.curr_layer + 1) (if c.curr_player = BLACK then WHITE else BLACK)
                  c.curr_bcount c.curr_wcount c.alpha c.beta
                  (if c.maxmin = 0 then 1 else 0) c.first_player) =
          (fun i mv => (child_call heap c nm i mv).bind
            (fun c2 => minmax fuel heap c2.path c2.curr_board c2.moves c2.depth c2.curr_layer
              c2.curr_player c2.curr_bcount c2.curr_wcount c2.alpha c2.beta c2.maxmin
              c2.first_player)) := by
        funext i mv
        unfold child_call
        cases duplicate_board (heap (i.toNat :: c.path)) c.curr_board BOARDSIZE with
        | none => rfl
        | some sim =>
          simp only []
          cases make_move sim mv c.curr_player with
          | none => rfl
          | some sim1 => rfl
      rw [hfun]

/-- The call of `minmax` that iteration `i` of the search loop makes is the
call `root_call i`. -/
theorem search_loop_root_call (fuel : Nat) (heap : List Nat → Nat → Int) (i : Nat)
    (curr_board feed : List Int) (curr_colour curr_bcount curr_wcount maxmin : Int) :
    minmax fuel heap [i] curr_board feed DEPTH 0 curr_colour curr_bcount curr_wcount
        alpha beta maxmin curr_colour =
      run_call fuel heap (root_call i curr_board feed curr_colour curr_bcount curr_wcount maxmin) :=
  rfl

theorem count_loop_range (b : List Int) (player : Int) :
    ∀ (is : List Nat) (acc r : Int), count_loop b player is acc = some r →
      acc ≤ r ∧ r ≤ acc + is.length := by
  intro is
  induction is with
  | nil =>
    intro acc r h
    simp only [count_loop, Option.some.injEq] at h
    simp only [List.length_nil, Nat.cast_zero, add_zero]
    omega
  | cons i is ih =>
    intro acc r h
    unfold count_loop at h
    cases hv : b[i]? with
    | none => simp [hv] at h
    | some v =>
      simp only [hv] at h
      have := ih _ _ h
      simp only [List.length_cons, Nat.cast_add, Nat.cast_one]
      split at this <;> omega

/-- A count returned by `count` lies in `0..88`. -/
theorem count_range {b : List Int} {player r : Int} (h : count b player = some r) :
    0 ≤ r ∧ r ≤ 88 := by
  have := count_loop_range b player _ _ _ h
  simp only [List.length_range', Nat.cast_ofNat] at this
  omega

/-- With baselines in `0..88` and a ply `≥ 0`, a value of `calc_util` is at
least `-176`. -/
theorem calc_util_ge {b : List Int} {p bc wc d u : Int} (h : calc_util b p bc wc d = some u)
    (hb : 0 ≤ bc ∧ bc ≤ 88) (hw : 0 ≤ wc ∧ wc ≤ 88) (hd : 0 ≤ d) : -176 ≤ u := by
  unfold calc_util at h
  cases hcb : count b BLACK with
  | none => simp [hcb] at h
  | some cb =>
    cases hcw : count b WHITE with
    | none => simp [hcb, hcw] at h
    | some cw =>
      simp only [hcb, hcw, Option.some.injEq] at h
      have h1 := count_range hcb
      have h2 := count_range hcw
      rw [← h]
      split <;> (try split) <;> (try split) <;> (try split) <;> omega

/-- The value `find_maxmin` ends with is its start value or an entry of the
array that is not `PRUNE`. -/
theorem find_maxmin_loop_pick (maxlayer : Int) (util : List Int) :
    ∀ (is : List Nat) (init r : Int), find_maxmin_loop maxlayer util is init = some r →
      r = init ∨ ∃ i ∈ is, util[i]? = some r ∧ r ≠ PRUNE := by
  intro is
  induction is with
  | nil =>
    intro init r h
    simp only [find_maxmin_loop, Option.some.injEq] at h
    exact Or.inl h.symm
  | cons i is ih =>
    intro init r h
    unfold find_maxmin_loop at h
    cases hu : util[i]? with
    | none => simp [hu] at h
    | some u =>
      simp only [hu] at h
      have hlift : (r = init ∨ ∃ j ∈ is, util[j]? = some r ∧ r ≠ PRUNE) →
          (r = init ∨ ∃ j ∈ i :: is, util[j]? = some r ∧ r ≠ PRUNE) := by
        rintro (h1 | ⟨j, hj, h2⟩)
        · exact Or.inl h1
        · exact Or.inr ⟨j, List.mem_cons_of_mem _ hj, h2⟩
      have hhere : ∀ x : Int, (r = x ∨ ∃ j ∈ is, util[j]? = some r ∧ r ≠ PRUNE) →
          (x = u ∨ x = init) → u ≠ PRUNE →
          (r = init ∨ ∃ j ∈ i :: is, util[j]? = some r ∧ r ≠ PRUNE) := by
        rintro x (h1 | ⟨j, hj, h2⟩) hx hup
        · rcases hx with hx | hx
          · right
            refine ⟨i, List.mem_cons_self _ _, ?_, ?_⟩
            · rw [h1, hx]; exact hu
            · rw [h1, hx]; exact hup
          · left; rw [h1, hx]
        · exact Or.inr ⟨j, List.mem_cons_of_mem _ hj, h2⟩
      by_cases hp : u ≠ PRUNE
      · simp only [ne_eq, hp, not_false_eq_true, if_true] at h
        by_cases hm : maxlayer = 0
        · rw [if_pos hm] at h
          refine hhere _ (ih _ _ h) ?_ hp
          split
          · exact Or.inl rfl
          · exact Or.inr rfl
        · rw [if_neg hm] at h
          refine hhere _ (ih _ _ h) ?_ hp
          split
          · exact Or.inl rfl
          · exact Or.inr rfl
      · simp only [hp, if_false] at h
        exact hlift (ih _ _ h)

/-- Entries that are `PRUNE` do not enter the reduction of `find_maxmin`. -/
theorem find_maxmin_loop_prune (maxlayer : Int) (util : List Int) :
    ∀ (is : List Nat) (init : Int), (∀ i ∈ is, util[i]? = some PRUNE) →
      find_maxmin_loop maxlayer util is init = some init := by
  intro is
  induction is with
  | nil => intro init _; rfl
  | cons i is ih =>
    intro init h
    unfold find_maxmin_loop
    rw [h i (List.mem_cons_self _ _)]
    simp only [ne_eq, not_true_eq_false, if_false]
    exact ih init (fun j hj => h j (List.mem_cons_of_mem _ hj))

/-- A call of `minmax` with baselines in `0..88` at a ply `≥ 0` never returns
`PRUNE`. -/
theorem run_call_ne_prune (fuel : Nat) (heap : List Nat → Nat → Int) (c : Call) (u : Int)
    (hb : 0 ≤ c.curr_bcount ∧ c.curr_bcount ≤ 88) (hw : 0 ≤ c.curr_wcount ∧ c.curr_wcount ≤ 88)
    (hl : 0 ≤ c.curr_layer) (hbeta : c.beta ≠ PRUNE)
    (h : run_call fuel heap c = some u) : u ≠ PRUNE := by
  cases fuel with
  | zero => simp [run_call, minmax] at h
  | succ fuel =>
    rw [minmax_calls] at h
    split at h
    · simp at h
    · split at h
      · simp at h
      · split at h
        · split at h
          · simp at h
          · rename_i ua _
            unfold find_maxmin at h
            split at h
            · simp at h
            · rename_i r hr
              have hpick := find_maxmin_loop_pick _ _ _ _ _ hr
              have hr200 : r ≠ PRUNE := by
                rcases hpick with h1 | ⟨_, _, _, h2⟩
                · rw [h1]; split <;> decide
                · exact h2
              split at h
              · rw [← Option.some.inj h]; exact hr200
              · split at h
                · rw [← Option.some.inj h]; exact hbeta
                · rw [← Option.some.inj h]; exact hr200
        · have := calc_util_ge h hb hw hl
          intro hc
          rw [hc] at this
          exact absurd this (by decide)

/-- When the test `alpha >= beta` fails, a candidate loop that ends has called
the loop body for every candidate from `i` on and stored what it returned. -/
theorem minmax_loop_partial (child : Int → Int → Option Int) (al be : Int) (hab : ¬ al ≥ be)
    (a : Int) (moves : List Int) :
    ∀ (n : Nat) (i : Int) (ua ua2 : List Int), 1 ≤ i →
      minmax_loop child al be a moves n i ua = some ua2 →
      (∀ k : Int, i ≤ k → k ≤ a →
        ∃ mv u, rd moves k = some mv ∧ child k mv = some u ∧ rd ua2 (k - 1) = some u) ∧
      ∀ k : Int, k < i - 1 → rd ua2 k = rd ua k := by
  intro n
  induction n with
  | zero =>
    intro i ua ua2 hi h
    unfold minmax_loop at h
    split at h
    · simp at h
    · rename_i hia
      rw [← Option.some.inj h]
      exact ⟨fun k h1 h2 => absurd (le_trans h1 h2) hia, fun _ _ => rfl⟩
  | succ n ih =>
    intro i ua ua2 hi h
    unfold minmax_loop at h
    split at h
    · simp only [hab, if_false] at h
      cases hmv : rd moves i with
      | none => simp [hmv] at h
      | some mv =>
        simp only [hmv] at h
        cases hu : child i mv with
        | none => simp [hu] at h
        | some u =>
          simp only [hu] at h
          cases hw : wr ua (i - 1) u with
          | none => simp [hw] at h
          | some ua1 =>
            simp only [hw] at h
            obtain ⟨h1, h2⟩ := ih (i + 1) ua1 ua2 (by omega) h
            have hua1 : ua1 = ua.set (i - 1).toNat u ∧ (i - 1).toNat < ua.length := by
              unfold wr at hw
              split at hw
              · rename_i hc
                exact ⟨(Option.some.inj hw).symm, hc.2⟩
              · simp at hw
            constructor
            · intro k hk1 hk2
              by_cases hki : k = i
              · subst hki
                refine ⟨mv, u, hmv, hu, ?_⟩
                rw [h2 (k - 1) (by omega), hua1.1]
                exact rd_set_eq ua u (by omega) hua1.2
              · exact h1 k (by omega) hk2
            · intro k hk
              rw [h2 k (by omega), hua1.1]
              by_cases hk0 : 0 ≤ k
              · exact rd_set_ne ua u (by omega) (by omega)
              · unfold rd
                simp only [hk0, if_false]
    · rename_i hia
      rw [← Option.some.inj h]
      exact ⟨fun k h1 h2 => absurd (le_trans h1 h2) hia, fun _ _ => rfl⟩

/-- The inner loop that marks the candidates from `i` on as pruned ends, and
leaves `PRUNE` in the cells `i-1 .. amount_moves-1`. -/
theorem prune_fill_total (a : Int) :
    ∀ (n : Nat) (i : Int) (ua : List Int), 1 ≤ i → a + 1 - i ≤ n → ua.length = a.toNat →
      ∃ ua1, prune_fill a n i ua = some ua1 ∧ ua1.length = a.toNat ∧
        (∀ j : Nat, i - 1 ≤ j → (j : Int) < a → ua1[j]? = some PRUNE) ∧
        (∀ j : Nat, (j : Int) < i - 1 → ua1[j]? = ua[j]?) := by
  intro n
  induction n with
  | zero =>
    intro i ua hi hn hlen
    have : ¬ i ≤ a := by omega
    refine ⟨ua, by unfold prune_fill; simp only [this, if_false], hlen, ?_, fun _ _ => rfl⟩
    intro j h1 h2
    omega
  | succ n ih =>
    intro i ua hi hn hlen
    unfold prune_fill
    by_cases hia : i ≤ a
    · simp only [hia, if_true]
      have hlt : (i - 1).toNat < ua.length := by omega
      have hwr : wr ua (i - 1) PRUNE = some (ua.set (i - 1).toNat PRUNE) := by
        unfold wr
        have : 0 ≤ i - 1 ∧ (i - 1).toNat < ua.length := ⟨by omega, hlt⟩
        simp only [this, and_self, if_true]
      simp only [hwr]
      obtain ⟨ua1, e1, e2, e3, e4⟩ := ih (i + 1) (ua.set (i - 1).toNat PRUNE) (by omega)
        (by push_cast at hn ⊢; omega) (by rw [List.length_set]; exact hlen)
      refine ⟨ua1, e1, e2, ?_, ?_⟩
      · intro j h1 h2
        by_cases hj : (j : Int) = i - 1
        · rw [e4 j (by omega)]
          have : (i - 1).toNat = j := by omega
          rw [this, List.getElem?_set]
          have hjl : j < ua.length := by omega
          simp [hjl]
        · exact e3 j (by omega) h2
      · intro j hj
        rw [e4 j (by omega)]
        have : (i - 1).toNat ≠ j := by omega
        exact List.getElem?_set_ne this
    · simp only [hia, if_false]
      refine ⟨ua, rfl, hlen, ?_, fun _ _ => rfl⟩
      intro j h1 h2
      omega

/-- A call of `minmax` at a ply `≥ 1` that takes the terminal branch returns
the value of `calc_util` for its board. -/
theorem run_call_terminal (fuel : Nat) (heap : List Nat → Nat → Int) (c : Call) (a : Int)
    (hs : safeBoard c.curr_board) (hp : c.curr_player = BLACK ∨ c.curr_player = WHITE)
    (hl : c.curr_layer ≠ 0) (ha : rd c.moves 0 = some a)
    (hterm : ¬ (c.depth > c.curr_layer ∧ a ≠ 0)) :
    run_call (fuel + 1) heap c =
      calc_util c.curr_board c.first_player c.curr_bcount c.curr_wcount c.curr_layer := by
  rw [minmax_calls]
  obtain ⟨ms, hms, _⟩ := legal_moves_safe hs hp
  have hnm : new_moves_of heap c = some (((ms.length : Int)) :: ms) := by
    unfold new_moves_of
    rw [if_pos hl, hms]
  simp only [ha, hnm]
  rw [if_neg hterm]

set_option maxRecDepth 1000000 in
theorem openingClone_safe : safeBoard openingClone := by
  unfold safeBoard
  decide!

theorem ply1Board_safe : safeBoard ply1Board :=
  safe_set openingClone_safe (c := 34) (by decide) BLACK

/-- The first call at ply 1 of the opening search returns 1000. -/
theorem ply1Call_value : run_call 7 (zeroHeaps 0) ply1Call = some 1000 := by
  obtain ⟨u, hu, huv⟩ := minmax_total (zeroHeaps 0) (zeroHeaps_clean 0) 2 2 BLACK 7 [1, 0]
    ply1Board [34, 43, 56, 65] (List.replicate 255 0) 1 WHITE 1 ply1Board_safe (Or.inr rfl)
    (by decide) (fun h => absurd h (by decide)) (by decide) (by decide) (by decide)
  have h1000 := huv (by decide) (by decide) (Or.inl (by decide))
  rw [h1000] at hu
  exact hu

set_option maxRecDepth 1000000 in
/-- C14 (what the code does). In the search of `gen_move_master` for BLACK on
the starting position with one rank (fresh memory reading as zero), the root
call copies its list `feed = [4, 34, 43, 56, 65, ...]` into `new_moves` and
makes its first recursive call, `ply1Call`, for candidate 34.  On the board
of that call WHITE has no legal move (`legal_moves` returns the count 0), yet
the call is not terminal: its count is `moves[0] = 4` and its loop runs over
the cells 34, 43, 56, 65 of the list it was passed (shown by running the loop
with a body that returns the candidate it is given); for candidate 34 it
makes the call `ply2Call 1 34`, whose board has WHITE on cell 34.  It returns
1000, where a terminal call would return `calc_util = 1`. -/
theorem ply1_iterates_parent_moves :
    make_feed (zeroHeaps 0 [0]) 4 [34, 43, 56, 65] = some openingFeed ∧
    new_moves_of (zeroHeaps 0) (root_call 0 initialise_board openingFeed BLACK 2 2 0)
      = some openingMoves ∧
    child_call (zeroHeaps 0) (root_call 0 initialise_board openingFeed BLACK 2 2 0)
      openingMoves 1 34 = some ply1Call ∧
    legal_moves ply1Call.curr_board ply1Call.curr_player = some [0] ∧
    rd ply1Call.moves 0 = some 4 ∧ ply1Call.depth > ply1Call.curr_layer ∧
    minmax_loop (fun _ mv => some mv) ply1Call.alpha ply1Call.beta 4 ply1Call.moves 4 1
      [0, 0, 0, 0] = some [34, 43, 56, 65] ∧
    child_call (zeroHeaps 0) ply1Call [0] 1 34 = some (ply2Call 1 34) ∧
    run_call 7 (zeroHeaps 0) ply1Call = some 1000 ∧
    calc_util ply1Call.curr_board ply1Call.first_player ply1Call.curr_bcount
      ply1Call.curr_wcount ply1Call.curr_layer = some 1 := by
  refine ⟨by decide!, by decide!, by decide!, by decide!, by decide!, by decide!, by decide!,
    by decide!, ply1Call_value, by decide!⟩

set_option maxRecDepth 1000000 in
/-- C15 (what the code does). The call `ply1Call` is a non-terminal call at a
minimizing ply (`maxmin = 1`) entered with `alpha = -1000 < beta = 1000`.  It
has four candidates; for each of them the recursive call it makes, a terminal
call at ply 2, returns 1.  The least of the values of its child calls is
therefore 1, but `ply1Call` returns 1000, the value of `beta`. -/
theorem min_ply_returns_beta :
    rd ply1Call.moves 0 = some 4 ∧ ply1Call.depth > ply1Call.curr_layer ∧
    ply1Call.maxmin = 1 ∧ ply1Call.alpha < ply1Call.beta ∧
    new_moves_of (zeroHeaps 0) ply1Call = some [0] ∧
    (∀ p ∈ [((1 : Nat), (34 : Int)), (2, 43), (3, 56), (4, 65)],
      rd ply1Call.moves p.1 = some p.2 ∧
      child_call (zeroHeaps 0) ply1Call [0] p.1 p.2 = some (ply2Call p.1 p.2) ∧
      run_call 6 (zeroHeaps 0) (ply2Call p.1 p.2) = some 1) ∧
    find_maxmin 1 [1, 1, 1, 1] 4 = some 1 ∧
    run_call 7 (zeroHeaps 0) ply1Call = some 1000 := by
  have hterm : ∀ (i : Nat) (mv : Int), validCell mv →
      calc_util (ply2Call i mv).curr_board BLACK 2 2 2 = some 1 →
      run_call 6 (zeroHeaps 0) (ply2Call i mv) = some 1 := by
    intro i mv hv hc
    have hs : safeBoard (ply2Call i mv).curr_board :=
      safe_set openingClone_safe (c := mv) (by unfold validCell at hv; omega) WHITE
    rw [run_call_terminal 5 (zeroHeaps 0) (ply2Call i mv) 0 hs (Or.inl rfl)
      (by show (2 : Int) ≠ 0; decide) rfl (fun h => h.2 rfl)]
    exact hc
  refine ⟨by decide!, by decide!, rfl, by decide, by decide!, ?_, by decide!, ply1Call_value⟩
  intro p hp
  simp only [List.mem_cons, List.mem_singleton, List.not_mem_nil, or_false] at hp
  rcases hp with h | h | h | h <;> subst h
  · exact ⟨by decide!, by decide!, hterm 1 34 (by decide) (by decide!)⟩
  · exact ⟨by decide!, by decide!, hterm 2 43 (by decide) (by decide!)⟩
  · exact ⟨by decide!, by decide!, hterm 3 56 (by decide) (by decide!)⟩
  · exact ⟨by decide!, by decide!, hterm 4 65 (by decide) (by decide!)⟩

/-- A call of `minmax` entered with `alpha >= beta` (no call of the search of
`gen_move_master` or `run_worker` is one), not terminal and with
`amount_moves ≥ 1` candidates: the inner loop marks all `amount_moves` cells
of `util_arr` as `PRUNE`, which `find_maxmin` would skip, and the loop body
then goes on with `i = amount_moves + 1`; it reads `moves[amount_moves + 1]`,
makes the recursive call for it and writes to `util_arr[amount_moves]`, past
the end of the array, so the call has no defined result. -/
theorem prune_branch_overruns (fuel : Nat) (heap : List Nat → Nat → Int) (c : Call) (a : Int)
    (ha : rd c.moves 0 = some a) (hnt : c.depth > c.curr_layer) (ha1 : 1 ≤ a)
    (hab : c.alpha ≥ c.beta) :
    (∃ ua1, prune_fill a (a.toNat + 1) 1 (List.replicate a.toNat 0) = some ua1 ∧
      ua1.length = a.toNat ∧
      (∀ j : Nat, (j : Int) < a → ua1[j]? = some PRUNE) ∧
      find_maxmin c.maxmin ua1 a = some (if c.maxmin = 0 then -1000 else 1000) ∧
      (∀ u, wr ua1 (a + 1 - 1) u = none) ∧
      ∀ (child : Int → Int → Option Int) (n : Nat),
        minmax_loop child c.alpha c.beta a c.moves (n + 1) 1 (List.replicate a.toNat 0) =
          (rd c.moves (a + 1)).bind (fun mv =>
            (child (a + 1) mv).bind (fun u =>
              (wr ua1 (a + 1 - 1) u).bind (fun ua2 =>
                minmax_loop child c.alpha c.beta a c.moves n (a + 1 + 1) ua2)))) ∧
    run_call fuel heap c = none := by
  obtain ⟨ua1, e1, e2, e3, _⟩ := prune_fill_total a (a.toNat + 1) 1 (List.replicate a.toNat 0)
    le_rfl (by push_cast; omega) (by simp)
  have hall : ∀ j : Nat, (j : Int) < a → ua1[j]? = some PRUNE :=
    fun j hj => e3 j (by omega) hj
  have hwr : ∀ u, wr ua1 (a + 1 - 1) u = none := by
    intro u
    unfold wr
    have : ¬ (0 ≤ a + 1 - 1 ∧ (a + 1 - 1).toNat < ua1.length) := by
      rw [e2]
      intro h
      have := h.2
      simp at this
    rw [if_neg this]
  have hloop : ∀ (child : Int → Int → Option Int) (n : Nat),
      minmax_loop child c.alpha c.beta a c.moves (n + 1) 1 (List.replicate a.toNat 0) =
        (rd c.moves (a + 1)).bind (fun mv =>
          (child (a + 1) mv).bind (fun u =>
            (wr ua1 (a + 1 - 1) u).bind (fun ua2 =>
              minmax_loop child c.alpha c.beta a c.moves n (a + 1 + 1) ua2))) := by
    intro child n
    rw [minmax_loop]
    rw [if_pos ha1, if_pos hab, e1]
    simp only [Option.map_some']
    cases rd c.moves (a + 1) with
    | none => rfl
    | some mv =>
      simp only [Option.some_bind]
      cases child (a + 1) mv with
      | none => rfl
      | some u =>
        simp only [Option.some_bind]
        cases wr ua1 (a + 1 - 1) u with
        | none => rfl
        | some ua2 => rfl
  have hnone : ∀ (child : Int → Int → Option Int) (n : Nat),
      minmax_loop child c.alpha c.beta a c.moves (n + 1) 1 (List.replicate a.toNat 0) = none := by
    intro child n
    rw [hloop]
    cases rd c.moves (a + 1) with
    | none => rfl
    | some mv =>
      simp only [Option.some_bind]
      cases child (a + 1) mv with
      | none => rfl
      | some u => simp only [Option.some_bind, hwr, Option.none_bind]
  refine ⟨⟨ua1, e1, e2, hall, ?_, hwr, hloop⟩, ?_⟩
  · unfold find_maxmin
    apply find_maxmin_loop_prune
    intro i hi
    apply hall
    have := List.mem_range.mp hi
    omega
  · cases fuel with
    | zero => simp [run_call, minmax]
    | succ fuel =>
      rw [minmax_calls]
      simp only [ha]
      cases new_moves_of heap c with
      | none => rfl
      | some nm =>
        simp only []
        have hcond : c.depth > c.curr_layer ∧ a ≠ 0 := ⟨hnt, by omega⟩
        rw [if_pos hcond]
        obtain ⟨k, hk⟩ : ∃ k, a.toNat = k + 1 := ⟨a.toNat - 1, by omega⟩
        have := hnone (fun i mv => (child_call heap c nm i mv).bind (run_call fuel heap)) k
        rw [← hk] at this
        rw [this]

/-- When the test `alpha >= beta` fails, the candidate loop of `minmax` is a
visit of every candidate in order: with the values `done` of the first
candidates already stored, it ends with `done` followed by the values of the
remaining ones. -/
theorem minmax_loop_visit_from (child : Int → Int → Option Int) (al be : Int)
    (hab : ¬ al ≥ be) (a : Int) (moves : List Int) :
    ∀ (n : Nat) (done : List Int), done.length + n = a.toNat →
      minmax_loop child al be a moves n ((done.length : Int) + 1)
          (done ++ List.replicate n 0) =
        (visit_all child moves (List.range' done.length n)).map (fun us => done ++ us) := by
  intro n
  induction n with
  | zero =>
    intro done hlen
    have hia : ¬ ((done.length : Int) + 1 ≤ a) := by omega
    unfold minmax_loop
    simp only [hia, if_false, List.replicate_zero, List.append_nil, List.range'_zero, visit_all,
      Option.map_some']
  | succ n ih =>
    intro done hlen
    have hia : (done.length : Int) + 1 ≤ a := by omega
    unfold minmax_loop
    rw [if_pos hia, if_neg hab]
    simp only [List.range'_succ, visit_all]
    cases hmv : rd moves ((done.length : Int) + 1) with
    | none => rfl
    | some mv =>
      simp only []
      cases hu : child ((done.length : Int) + 1) mv with
      | none => rfl
      | some u =>
        simp only []
        have hwr : wr (done ++ List.replicate (n + 1) 0) ((done.length : Int) + 1 - 1) u
            = some ((done ++ [u]) ++ List.replicate n 0) := by
          unfold wr
          have hc : 0 ≤ (done.length : Int) + 1 - 1 ∧
              ((done.length : Int) + 1 - 1).toNat < (done ++ List.replicate (n + 1) 0).length := by
            simp only [List.length_append, List.length_replicate]
            omega
          rw [if_pos hc]
          have hidx : ((done.length : Int) + 1 - 1).toNat = done.length := by omega
          rw [hidx, List.set_append_right _ _ (le_refl _)]
          simp [List.replicate_succ]
        rw [hwr]
        simp only []
        have := ih (done ++ [u]) (by simp only [List.length_append, List.length_singleton]; omega)
        have hcast : (((done ++ [u]).length : Nat) : Int) + 1 = (done.length : Int) + 1 + 1 := by
          simp only [List.length_append, List.length_singleton]; push_cast; ring
        rw [hcast] at this
        rw [this]
        have hlen2 : (done ++ [u]).length = done.length + 1 := by simp
        rw [hlen2]
        cases visit_all child moves (List.range' (done.length + 1) n) with
        | none => rfl
        | some us => simp

/-- When the test `alpha >= beta` fails, the candidate loop of `minmax` ends
with exactly the values of all the candidates `1 .. amount_moves`, in order. -/
theorem minmax_loop_visit_all (child : Int → Int → Option Int) (al be : Int)
    (hab : ¬ al ≥ be) (a : Int) (moves : List Int) :
    minmax_loop child al be a moves a.toNat 1 (List.replicate a.toNat 0) =
      visit_all child moves (List.range a.toNat) := by
  have := minmax_loop_visit_from child al be hab a moves a.toNat [] (by simp)
  simp only [List.length_nil, Nat.cast_zero, zero_add, List.nil_append] at this
  rw [this, List.range_eq_range']
  cases visit_all child moves (List.range' 0 a.toNat) with
  | none => rfl
  | some us => simp

theorem visit_all_length (child : Int → Int → Option Int) (moves : List Int) :
    ∀ (is : List Nat) (us : List Int), visit_all child moves is = some us →
      us.length = is.length := by
  intro is
  induction is with
  | nil => intro us h; simp only [visit_all, Option.some.injEq] at h; subst h; rfl
  | cons j is ih =>
    intro us h
    unfold visit_all at h
    split at h
    · simp at h
    · split at h
      · simp at h
      · split at h
        · simp at h
        · rename_i us2 hus
          rw [← Option.some.inj h]
          simp only [List.length_cons, ih us2 hus]

/-- Every value of a visit is the value of the loop body for a candidate. -/
theorem visit_all_mem (child : Int → Int → Option Int) (moves : List Int) :
    ∀ (is : List Nat) (us : List Int), visit_all child moves is = some us →
      ∀ u ∈ us, ∃ j ∈ is, ∃ mv, rd moves ((j : Int) + 1) = some mv ∧
        child ((j : Int) + 1) mv = some u := by
  intro is
  induction is with
  | nil =>
    intro us h u hu
    simp only [visit_all, Option.some.injEq] at h
    rw [← h] at hu
    simp at hu
  | cons j is ih =>
    intro us h u hu
    unfold visit_all at h
    split at h
    · simp at h
    · rename_i mv hmv
      split at h
      · simp at h
      · rename_i u0 hu0
        split at h
        · simp at h
        · rename_i us2 hus
          rw [← Option.some.inj h] at hu
          rcases List.mem_cons.mp hu with h1 | h1
          · exact ⟨j, List.mem_cons_self _ _, mv, hmv, by rw [h1]; exact hu0⟩
          · obtain ⟨j2, hj2, rest⟩ := ih us2 hus u h1
            exact ⟨j2, List.mem_cons_of_mem _ hj2, rest⟩

/-- On an array without `PRUNE` entries `find_maxmin` is the plain greatest or
least value. -/
theorem find_maxmin_loop_reduce (maxlayer : Int) :
    ∀ (us pre : List Int) (init : Int), (∀ u ∈ us, u ≠ PRUNE) →
      find_maxmin_loop maxlayer (pre ++ us) (List.range' pre.length us.length) init =
        some (us.foldl
          (fun acc u =>
            if maxlayer = 0 then (if u > acc then u else acc)
            else (if u < acc then u else acc)) init) := by
  intro us
  induction us with
  | nil => intro pre init _; rfl
  | cons u us ih =>
    intro pre init h
    have hup : u ≠ PRUNE := h u (List.mem_cons_self _ _)
    have hget : (pre ++ u :: us)[pre.length]? = some u := by
      rw [List.getElem?_append_right (le_refl _)]
      simp
    simp only [List.length_cons, List.range'_succ, List.foldl_cons]
    unfold find_maxmin_loop
    rw [hget]
    simp only [ne_eq, hup, not_false_eq_true, if_true]
    have hrest := fun init2 => ih (pre ++ [u]) init2 (fun x hx => h x (List.mem_cons_of_mem _ hx))
    simp only [List.length_append, List.length_singleton, List.append_assoc,
      List.singleton_append] at hrest
    by_cases hm : maxlayer = 0
    · rw [if_pos hm, if_pos hm]
      exact hrest _
    · rw [if_neg hm, if_neg hm]
      exact hrest _

theorem find_maxmin_reduce (maxlayer : Int) (us : List Int) (a : Int)
    (hlen : us.length = a.toNat) (h : ∀ u ∈ us, u ≠ PRUNE) :
    find_maxmin maxlayer us a = some (reduce_all maxlayer us) := by
  have := find_maxmin_loop_reduce maxlayer us [] (if maxlayer = 0 then -1000 else 1000) h
  simp only [List.nil_append, List.length_nil] at this
  unfold find_maxmin reduce_all
  rw [← hlen, List.range_eq_range', this]

/-- A recursive call gets the `alpha`, `beta`, `depth` and baselines of its
caller, and the next ply. -/
theorem child_call_fields {heap : List Nat → Nat → Int} {c c2 : Call} {nm : List Int}
    {i mv : Int} (h : child_call heap c nm i mv = some c2) :
    c2.alpha = c.alpha ∧ c2.beta = c.beta ∧ c2.depth = c.depth ∧
    c2.curr_bcount = c.curr_bcount ∧ c2.curr_wcount = c.curr_wcount ∧
    c2.curr_layer = c.curr_layer + 1 ∧ c2.moves = nm := by
  unfold child_call at h
  split at h
  · simp at h
  · split at h
    · simp at h
    · have := Option.some.inj h
      subst this
      exact ⟨rfl, rfl, rfl, rfl, rfl, rfl, rfl⟩

theorem reach_fields {heap : List Nat → Nat → Int} {root c : Call}
    (h : Reach heap root c) :
    c.alpha = root.alpha ∧ c.beta = root.beta ∧ c.depth = root.depth ∧
    c.curr_bcount = root.curr_bcount ∧ c.curr_wcount = root.curr_wcount ∧
    root.curr_layer ≤ c.curr_layer := by
  induction h with
  | root => exact ⟨rfl, rfl, rfl, rfl, rfl, le_rfl⟩
  | step c c2 nm a i mv _ _ _ _ _ _ hc ih =>
    obtain ⟨h1, h2, h3, h4, h5, h6, _⟩ := child_call_fields hc
    obtain ⟨i1, i2, i3, i4, i5, i6⟩ := ih
    exact ⟨by rw [h1, i1], by rw [h2, i2], by rw [h3, i3], by rw [h4, i4], by rw [h5, i5],
      by rw [h6]; omega⟩

/-- The values stored by a visit of the candidates of a call with baselines in
`0..88` at a ply `≥ 0` are not `PRUNE`. -/
theorem visit_ne_prune (fuel : Nat) (heap : List Nat → Nat → Int) (c : Call) (nm : List Int)
    (hb : 0 ≤ c.curr_bcount ∧ c.curr_bcount ≤ 88) (hw : 0 ≤ c.curr_wcount ∧ c.curr_wcount ≤ 88)
    (hl : 0 ≤ c.curr_layer) (hbeta : c.beta ≠ PRUNE) (is : List Nat) (us : List Int)
    (h : visit_all (fun k mv => (child_call heap c nm k mv).bind (run_call fuel heap))
      c.moves is = some us) : ∀ u ∈ us, u ≠ PRUNE := by
  intro u hu
  obtain ⟨j, _, mv, _, hch⟩ := visit_all_mem _ _ _ _ h u hu
  cases hc : child_call heap c nm ((j : Int) + 1) mv with
  | none => simp [hc] at hch
  | some c2 =>
    simp only [hc, Option.some_bind] at hch
    obtain ⟨_, g2, _, g4, g5, g6, _⟩ := child_call_fields hc
    exact run_call_ne_prune fuel heap c2 u (by rw [g4]; exact hb) (by rw [g5]; exact hw)
      (by rw [g6]; omega) (by rw [g2]; exact hbeta) hch

/-- A call of `minmax` whose test `alpha >= beta` fails, with baselines in
`0..88` at a ply `≥ 0`, is one ply of the search that visits every candidate. -/
theorem run_call_exhaustive (fuel : Nat) (heap : List Nat → Nat → Int) (c : Call)
    (hab : ¬ c.alpha ≥ c.beta)
    (hb : 0 ≤ c.curr_bcount ∧ c.curr_bcount ≤ 88) (hw : 0 ≤ c.curr_wcount ∧ c.curr_wcount ≤ 88)
    (hl : 0 ≤ c.curr_layer) (hbeta : c.beta ≠ PRUNE) :
    run_call (fuel + 1) heap c = exhaustive_step fuel heap c := by
  rw [minmax_calls]
  unfold exhaustive_step
  cases rd c.moves 0 with
  | none => rfl
  | some a =>
    simp only []
    cases new_moves_of heap c with
    | none => rfl
    | some nm =>
      simp only []
      by_cases hnt : c.depth > c.curr_layer ∧ a ≠ 0
      · rw [if_pos hnt, if_pos hnt, minmax_loop_visit_all _ _ _ hab]
        cases hv : visit_all
            (fun i mv => (child_call heap c nm i mv).bind (run_call fuel heap))
            c.moves (List.range a.toNat) with
        | none => rfl
        | some us =>
          simp only []
          have hlen : us.length = a.toNat := by
            rw [visit_all_length _ _ _ _ hv, List.length_range]
          rw [find_maxmin_reduce c.maxmin us a hlen
            (visit_ne_prune fuel heap c nm hb hw hl hbeta _ us hv)]
      · rw [if_neg hnt, if_neg hnt]

/-- In the tree below a root call on a safe board whose list holds interior
cells, with fresh memory that shows no piece on border cells, every call has
a safe board, a player, a list of interior cells and a ply in `0..7`. -/
theorem reach_shape (heap : List Nat → Nat → Int) (hclean : cleanHeap heap) (i : Nat)
    (board : List Int) (colour bc wc maxmin : Int) (ms rest : List Int)
    (hs : safeBoard board) (hp : colour = BLACK ∨ colour = WHITE)
    (hms : ∀ m ∈ ms, validCell m)
    (hlen : LEGALMOVSBUFSIZE ≤ (((ms.length : Int) :: ms) ++ rest).length)
    (hlt : ms.length < LEGALMOVSBUFSIZE) (c : Call)
    (hreach : Reach heap (root_call i board (((ms.length : Int) :: ms) ++ rest) colour bc wc
      maxmin) c) :
    safeBoard c.curr_board ∧ (c.curr_player = BLACK ∨ c.curr_player = WHITE) ∧
    0 ≤ c.curr_layer ∧ c.curr_layer ≤ DEPTH ∧
    ∃ ms2 rest2, c.moves = ((ms2.length : Int) :: ms2) ++ rest2 ∧ (∀ m ∈ ms2, validCell m) ∧
      (c.curr_layer = 0 →
        LEGALMOVSBUFSIZE ≤ (((ms2.length : Int) :: ms2) ++ rest2).length ∧
          ms2.length < LEGALMOVSBUFSIZE) := by
  induction hreach with
  | root =>
    exact ⟨hs, hp, le_rfl, by show (0 : Int) ≤ DEPTH; decide, ms, rest, rfl, hms,
      fun _ => ⟨hlen, hlt⟩⟩
  | step c c2 nm a k mv hr ha hnt hnm hidx hmv hc ih =>
    obtain ⟨is, ip, il0, il7, ms2, rest2, imv, ival, isz⟩ := ih
    obtain ⟨f1, f2, f3, _, _, _⟩ := reach_fields hr
    have hab : ¬ c.alpha ≥ c.beta := by
      rw [f1, f2]; show ¬ (alpha ≥ beta); decide
    have hdep : c.depth = DEPTH := f3
    rw [if_neg hab] at hidx
    rw [imv, rd_moves_zero] at ha
    have haeq : a = (ms2.length : Int) := (Option.some.inj ha).symm
    obtain ⟨mv2, hmem, hrd⟩ := rd_moves_pos ms2 rest2 k hidx.1 (by rw [← haeq]; exact hidx.2)
    rw [imv, hrd] at hmv
    have hmveq : mv2 = mv := Option.some.inj hmv
    subst hmveq
    obtain ⟨sim, hsim, hsims⟩ := duplicate_board_safe is (heap (k.toNat :: c.path))
      (hclean (k.toNat :: c.path))
    obtain ⟨sim1, hsim1, hsim1s⟩ := make_move_safe hsims ip (ival mv2 hmem)
    have hc2 : c2 =
        { path := k.toNat :: c.path
          curr_board := sim1
          moves := nm
          depth := c.depth
          curr_layer := c.curr_layer + 1
          curr_player := if c.curr_player = BLACK then WHITE else BLACK
          curr_bcount := c.curr_bcount
          curr_wcount := c.curr_wcount
          alpha := c.alpha
          beta := c.beta
          maxmin := if c.maxmin = 0 then 1 else 0
          first_player := c.first_player } := by
      unfold child_call at hc
      rw [hsim] at hc
      simp only [] at hc
      rw [hsim1] at hc
      exact (Option.some.inj hc).symm
    have hnext : (if c.curr_player = BLACK then WHITE else BLACK) = BLACK ∨
        (if c.curr_player = BLACK then WHITE else BLACK) = WHITE := by
      split
      · exact Or.inr rfl
      · exact Or.inl rfl
    have hshape : ∃ ms3 rest3, nm = ((ms3.length : Int) :: ms3) ++ rest3 ∧
        (∀ m ∈ ms3, validCell m) := by
      unfold new_moves_of at hnm
      by_cases hl : c.curr_layer = 0
      · have hne : c.curr_layer ≠ c.depth := by rw [hl, hdep]; decide
        rw [if_neg (fun h => h hl), if_pos hne, imv] at hnm
        obtain ⟨r3, hr3⟩ := duplicate_moves (heap (0 :: c.path)) ms2 rest2 (isz hl).1 (isz hl).2
        rw [hr3] at hnm
        exact ⟨ms2, r3, (Option.some.inj hnm).symm, ival⟩
      · rw [if_pos hl] at hnm
        obtain ⟨ms3, h1, h2, _⟩ := legal_moves_safe is ip
        rw [h1] at hnm
        exact ⟨ms3, [], by rw [← Option.some.inj hnm]; simp, h2⟩
    obtain ⟨ms3, rest3, hnmeq, hval3⟩ := hshape
    subst hc2
    refine ⟨hsim1s, hnext, by show 0 ≤ c.curr_layer + 1; omega, ?_, ms3, rest3, hnmeq, hval3, ?_⟩
    · show c.curr_layer + 1 ≤ DEPTH
      have := hnt.1
      rw [hdep] at this
      omega
    · intro h0
      have : c.curr_layer + 1 = 0 := h0
      omega

/-- C18. Take a root call of the search loop of `gen_move_master` or
`run_worker` (any iteration, board, list, colour and `maxmin`), started with
the global `alpha = -1000` and `beta = 1000` and with the counts `bc`, `wc`
of a board as baselines.  Every call `c` of `minmax` in the tree below it has
`alpha = -1000`, `beta = 1000` and `depth = 7`, so its test `alpha >= beta`
fails.  The call is one ply of the search that cuts nothing off: it returns
what `exhaustive_step` returns, which visits every candidate
`1 .. moves[0]` and reduces all their values.  The array `util_arr` its loop
fills is the list of the values of the recursive calls for all candidates, in
order, none of them `PRUNE`, and each of these calls is a call of the tree.
When the root's board is safe, its list holds interior cells and fresh memory
shows no piece on border cells, the call returns a value. -/
theorem search_never_prunes (heap : List Nat → Nat → Int) (i : Nat)
    (board feed b0 : List Int) (colour bc wc maxmin : Int)
    (hbc : count b0 BLACK = some bc) (hwc : count b0 WHITE = some wc) (c : Call)
    (hreach : Reach heap (root_call i board feed colour bc wc maxmin) c) :
    c.alpha = -1000 ∧ c.beta = 1000 ∧ c.depth = 7 ∧ ¬ (c.alpha ≥ c.beta) ∧
    (∀ fuel : Nat, run_call (fuel + 1) heap c = exhaustive_step fuel heap c) ∧
    (∀ (fuel : Nat) (a : Int) (nm : List Int),
      rd c.moves 0 = some a → new_moves_of heap c = some nm →
      minmax_loop (fun k mv => (child_call heap c nm k mv).bind (run_call fuel heap))
          c.alpha c.beta a c.moves a.toNat 1 (List.replicate a.toNat 0) =
        visit_all (fun k mv => (child_call heap c nm k mv).bind (run_call fuel heap))
          c.moves (List.range a.toNat) ∧
      ∀ ua : List Int,
        visit_all (fun k mv => (child_call heap c nm k mv).bind (run_call fuel heap))
          c.moves (List.range a.toNat) = some ua →
        ua.length = a.toNat ∧ (∀ u ∈ ua, u ≠ PRUNE) ∧
        (c.depth > c.curr_layer ∧ a ≠ 0 → ∀ k : Int, 1 ≤ k → k ≤ a →
          ∃ mv c2 u, rd c.moves k = some mv ∧ child_call heap c nm k mv = some c2 ∧
            Reach heap (root_call i board feed colour bc wc maxmin) c2 ∧
            run_call fuel heap c2 = some u ∧ rd ua (k - 1) = some u)) ∧
    (cleanHeap heap → safeBoard board → (colour = BLACK ∨ colour = WHITE) →
      (∃ ms rest, feed = ((ms.length : Int) :: ms) ++ rest ∧ (∀ m ∈ ms, validCell m) ∧
        LEGALMOVSBUFSIZE ≤ feed.length ∧ ms.length < LEGALMOVSBUFSIZE) →
      ∃ u, run_call ((DEPTH - c.curr_layer).toNat + 1) heap c = some u) := by
  obtain ⟨h1, h2, h3, h4, h5, h6⟩ := reach_fields hreach
  have ha : c.alpha = -1000 := h1
  have hb : c.beta = 1000 := h2
  have hd : c.depth = 7 := h3
  have hab : ¬ (c.alpha ≥ c.beta) := by rw [ha, hb]; decide
  have hbcr : 0 ≤ c.curr_bcount ∧ c.curr_bcount ≤ 88 := by rw [h4]; exact count_range hbc
  have hwcr : 0 ≤ c.curr_wcount ∧ c.curr_wcount ≤ 88 := by rw [h5]; exact count_range hwc
  have hl0 : 0 ≤ c.curr_layer := h6
  have hbp : c.beta ≠ PRUNE := by rw [hb]; decide
  refine ⟨ha, hb, hd, hab, fun fuel => run_call_exhaustive fuel heap c hab hbcr hwcr hl0 hbp,
    ?_, ?_⟩
  · intro fuel a nm hrd hnm
    have hloop := minmax_loop_visit_all
      (fun k mv => (child_call heap c nm k mv).bind (run_call fuel heap))
      c.alpha c.beta hab a c.moves
    refine ⟨hloop, ?_⟩
    intro ua hv
    refine ⟨by rw [visit_all_length _ _ _ _ hv, List.length_range],
      visit_ne_prune fuel heap c nm hbcr hwcr hl0 hbp _ ua hv, ?_⟩
    intro hnt k hk1 hka
    rw [← hloop] at hv
    obtain ⟨hall, _⟩ := minmax_loop_partial _ c.alpha c.beta hab a c.moves a.toNat 1 _ ua
      le_rfl hv
    obtain ⟨mv, u, e1, e2, e3⟩ := hall k hk1 hka
    cases hc : child_call heap c nm k mv with
    | none => simp [hc] at e2
    | some c2 =>
      simp only [hc, Option.some_bind] at e2
      exact ⟨mv, c2, u, e1, hc,
        Reach.step c c2 nm a k mv hreach hrd hnt hnm (by rw [if_neg hab]; exact ⟨hk1, hka⟩) e1 hc,
        e2, e3⟩
  · rintro hclean hs hp ⟨ms, rest, hfeed, hms, hlen, hlt⟩
    subst hfeed
    obtain ⟨is, ip, il0, il7, ms2, rest2, imv, ival, isz⟩ :=
      reach_shape heap hclean i board colour bc wc maxmin ms rest hs hp hms hlen hlt c hreach
    obtain ⟨u, hu, _⟩ := minmax_total heap hclean c.curr_bcount c.curr_wcount c.first_player
      ((DEPTH - c.curr_layer).toNat + 1) c.path c.curr_board ms2 rest2 c.curr_layer
      c.curr_player c.maxmin is ip ival isz il0 il7 (by omega)
    refine ⟨u, ?_⟩
    unfold run_call
    rw [imv, h3, h1, h2]
    exact hu

theorem child_call_maxmin {heap : List Nat → Nat → Int} {c c2 : Call} {nm : List Int}
    {i mv : Int} (h : child_call heap c nm i mv = some c2) :
    c2.maxmin = if c.maxmin = 0 then 1 else 0 := by
  unfold child_call at h
  split at h
  · simp at h
  · split at h
    · simp at h
    · have := Option.some.inj h
      subst this
      rfl

/-- The copy made by `duplicate_board` starts with the first cell of the
original. -/
theorem duplicate_first {junk : Nat → Int} {moves nm : List Int} {n : Nat}
    (h : duplicate_board junk moves n = some nm) (hn : SIZEOF_INT ≤ n) :
    rd nm 0 = rd moves 0 := by
  unfold duplicate_board at h
  split at h
  · rename_i hc
    have h4 : SIZEOF_INT = 4 := rfl
    rw [h4] at hc hn
    have hpos : 0 < n / SIZEOF_INT := by rw [h4]; omega
    have hlt : 0 < (moves.take (n / SIZEOF_INT)).length := by
      rw [List.length_take]
      have := hc.2
      rw [h4]
      omega
    rw [← Option.some.inj h]
    unfold rd
    simp only [le_refl, if_true, Int.toNat_zero]
    rw [List.getElem?_append_left hlt, List.getElem?_take_of_lt hpos]
  · simp at h

/-- A recursive call made by a maximizing call with `beta = 1000` for a list
with a count other than 0, above the last ply, returns 1000 whenever it
returns. -/
theorem child_returns_beta (heap : List Nat → Nat → Int) (c c2 : Call) (nm : List Int)
    (k mv a u : Int) (fuel : Nat) (hbeta : c.beta = 1000) (hmm : c.maxmin = 0)
    (hnm : rd nm 0 = some a) (ha : a ≠ 0) (hdep : c.depth > c.curr_layer + 1)
    (hc : child_call heap c nm k mv = some c2) (h : run_call fuel heap c2 = some u) :
    u = 1000 := by
  obtain ⟨_, g2, g3, _, _, g6, g7⟩ := child_call_fields hc
  have g8 := child_call_maxmin hc
  rw [hmm] at g8
  unfold run_call at h
  rw [g2, hbeta] at h
  exact minmax_min_ply fuel heap c2.path c2.curr_board c2.moves c2.depth c2.curr_layer
    c2.curr_player c2.curr_bcount c2.curr_wcount c2.alpha c2.maxmin c2.first_player a u
    (by rw [g8]; decide) (by rw [g7]; exact hnm) ⟨by rw [g3, g6]; exact hdep, ha⟩ h

/-- A root call of the coordinator's search on a list with at least one move
returns 1000 whenever it returns, whatever fresh memory holds. -/
theorem root_returns_1000 (heap : List Nat → Nat → Int) (i : Nat) (board feed : List Int)
    (colour bc wc a u : Int) (fuel : Nat) (ha0 : rd feed 0 = some a) (ha : 1 ≤ a)
    (h : run_call fuel heap (root_call i board feed colour bc wc 0) = some u) : u = 1000 := by
  cases fuel with
  | zero => simp [run_call, minmax] at h
  | succ fuel =>
    rw [minmax_calls] at h
    have hm : (root_call i board feed colour bc wc 0).moves = feed := rfl
    rw [hm, ha0] at h
    simp only [] at h
    cases hnm : new_moves_of heap (root_call i board feed colour bc wc 0) with
    | none => simp [hnm] at h
    | some nm =>
      simp only [hnm] at h
      have hnt : (root_call i board feed colour bc wc 0).depth >
          (root_call i board feed colour bc wc 0).curr_layer ∧ a ≠ 0 :=
        ⟨by show DEPTH > 0; decide, by omega⟩
      rw [if_pos hnt] at h
      have hnm0 : rd nm 0 = some a := by
        unfold new_moves_of at hnm
        have h1 : ¬ (root_call i board feed colour bc wc 0).curr_layer ≠ 0 := fun hh => hh rfl
        have h2 : (root_call i board feed colour bc wc 0).curr_layer ≠
            (root_call i board feed colour bc wc 0).depth := by
          show (0 : Int) ≠ DEPTH; decide
        rw [if_neg h1, if_pos h2] at hnm
        rw [duplicate_first hnm (by decide)]
        exact ha0
      have hab : ¬ (root_call i board feed colour bc wc 0).alpha ≥
          (root_call i board feed colour bc wc 0).beta := by
        show ¬ (alpha ≥ beta); decide
      cases hl : minmax_loop
          (fun k mv => (child_call heap (root_call i board feed colour bc wc 0) nm k mv).bind
            (run_call fuel heap))
          (root_call i board feed colour bc wc 0).alpha
          (root_call i board feed colour bc wc 0).beta a feed a.toNat 1
          (List.replicate a.toNat 0) with
      | none => simp [hl] at h
      | some ua =>
        simp only [hl] at h
        obtain ⟨hall, _⟩ := minmax_loop_partial _ _ _ hab a feed a.toNat 1 _ ua le_rfl hl
        have hent : ∀ j ∈ List.range a.toNat, ua[j]? = some 1000 := by
          intro j hj
          have hjlt := List.mem_range.mp hj
          obtain ⟨mv, uk, _, e2, e3⟩ := hall ((j : Int) + 1) (by omega) (by omega)
          cases hc : child_call heap (root_call i board feed colour bc wc 0) nm
              ((j : Int) + 1) mv with
          | none => simp [hc] at e2
          | some c2 =>
            simp only [hc, Option.some_bind] at e2
            have huk : uk = 1000 :=
              child_returns_beta heap _ c2 nm _ mv a uk fuel rfl rfl hnm0 (by omega)
                (by show DEPTH > 0 + 1; decide) hc e2
            have hidx : (j : Int) + 1 - 1 = (j : Int) := by ring
            rw [hidx, huk] at e3
            simpa [rd] using e3
        unfold find_maxmin at h
        have hmx : (root_call i board feed colour bc wc 0).maxmin = 0 := rfl
        rw [hmx, if_pos (rfl : (0 : Int) = 0)] at h
        rw [find_maxmin_loop_all_1000 ua _ _ hent (by decide)] at h
        have hne : List.range a.toNat ≠ [] := by
          intro hc
          have := congrArg List.length hc
          simp only [List.length_range, List.length_nil] at this
          omega
        simp only [hne, if_false, if_true] at h
        exact (Option.some.inj h).symm

/-- The search loop of the coordinator over a list with at least one move ends
with the pair `(1000, feed[1])` whenever it ends. -/
theorem search_loop_partial (heap : List Nat → Nat → Int) (board feed : List Int)
    (colour bc wc a : Int) (ha0 : rd feed 0 = some a) (ha : 1 ≤ a) (n : Nat) (hn : 1 ≤ n)
    (ret out : Int × Int)
    (h : search_loop heap board feed colour bc wc 0 (List.range n) ret = some out) :
    ∃ mv, rd feed 1 = some mv ∧ out = (1000, mv) := by
  have hroot : ∀ (i : Nat) (u : Int),
      minmax (DEPTH.toNat + 1) heap [i] board feed DEPTH 0 colour bc wc alpha beta 0 colour
        = some u → u = 1000 := by
    intro i u hu
    exact root_returns_1000 heap i board feed colour bc wc a u _ ha0 ha hu
  have hkeep : ∀ (is : List Nat) (r o : Int × Int), 0 ∉ is → r.1 = 1000 →
      search_loop heap board feed colour bc wc 0 is r = some o → o = r := by
    intro is
    induction is with
    | nil => intro r o _ _ ho; exact (Option.some.inj ho).symm
    | cons i is ih =>
      intro r o h0 hr ho
      unfold search_loop at ho
      cases hmm : minmax (DEPTH.toNat + 1) heap [i] board feed DEPTH 0 colour bc wc alpha beta
          0 colour with
      | none => simp [hmm] at ho
      | some u =>
        have hu := hroot i u hmm
        simp only [hmm] at ho
        have hi : ¬ (i = 0 ∨ u > r.1) := by
          rw [hr, hu]
          intro hh
          rcases hh with hh | hh
          · exact h0 (hh ▸ List.mem_cons_self _ _)
          · omega
        rw [if_neg hi] at ho
        exact ih r o (fun hh => h0 (List.mem_cons_of_mem _ hh)) hr ho
  obtain ⟨k, rfl⟩ : ∃ k, n = k + 1 := ⟨n - 1, by omega⟩
  rw [List.range_succ_eq_map] at h
  unfold search_loop at h
  cases hmm : minmax (DEPTH.toNat + 1) heap [0] board feed DEPTH 0 colour bc wc alpha beta
      0 colour with
  | none => simp [hmm] at h
  | some u =>
    have hu := hroot 0 u hmm
    simp only [hmm, true_or, if_true, Nat.cast_zero, zero_add] at h
    cases hmv : rd feed 1 with
    | none => simp [hmv] at h
    | some mv =>
      simp only [hmv] at h
      have := hkeep _ (u, mv) out (by simp) hu h
      refine ⟨mv, rfl, ?_⟩
      rw [this, hu]

/-- With a single rank on a well-formed board, when fresh memory shows no
piece on border cells: every root call of the search returns 1000, and so
does every recursive call it makes at ply 1; the pair selected is
`(1000, m1)` and the move played is `m1`. -/
theorem single_unit_total (MOVEBUFSIZE : Nat) (heaps : Nat → List Nat → Nat → Int)
    (board : List Int) (colour m1 : Int) (tl : List Int) (hclean : cleanHeap (heaps 0))
    (hwf : wellFormed board) (hp : colour = BLACK ∨ colour = WHITE)
    (hlm : legal_moves board colour = some ((((m1 :: tl).length : Nat) : Int) :: m1 :: tl)) :
    ∃ bc wc feed b1, count board BLACK = some bc ∧ count board WHITE = some wc ∧
      make_feed (heaps 0 [0]) (((m1 :: tl).length : Nat) : Int) (m1 :: tl) = some feed ∧
      (∀ i : Nat, run_call (DEPTH.toNat + 1) (heaps 0)
        (root_call i board feed colour bc wc 0) = some 1000) ∧
      (∀ (i : Nat) (k : Int), 1 ≤ k → k ≤ ((m1 :: tl).length : Nat) →
        ∃ nm mv c2, new_moves_of (heaps 0) (root_call i board feed colour bc wc 0) = some nm ∧
          rd feed k = some mv ∧
          child_call (heaps 0) (root_call i board feed colour bc wc 0) nm k mv = some c2 ∧
          run_call DEPTH.toNat (heaps 0) c2 = some 1000) ∧
      make_move board m1 colour = some b1 ∧
      gen_move_master MOVEBUFSIZE heaps board colour []
        = some ⟨1000, m1, get_move_string m1, b1, []⟩ := by
  have hs := wf_safe hwf
  obtain ⟨ms2, hlm2, hvalid, hlt⟩ := legal_moves_safe hs hp
  rw [hlm] at hlm2
  have hmseq : m1 :: tl = ms2 := (List.cons.inj (Option.some.inj hlm2)).2
  rw [← hmseq] at hvalid hlt
  obtain ⟨rest, hfeed, hflen⟩ := make_feed_eq (heaps 0 [0]) (m1 :: tl) hlt
  obtain ⟨b1, hb1, hgen⟩ := single_rank_plays_first MOVEBUFSIZE heaps hclean hwf hp m1 tl hlm
  refine ⟨_, _, _, b1, count_eq hwf.1 BLACK, count_eq hwf.1 WHITE, hfeed, ?_, ?_, hb1, hgen⟩
  · intro i
    obtain ⟨u, hu, huv⟩ := minmax_total (heaps 0) hclean (cnt board BLACK (List.range' 1 88))
      (cnt board WHITE (List.range' 1 88)) colour (DEPTH.toNat + 1) [i] board (m1 :: tl)
      rest 0 colour 0 hs hp hvalid (fun _ => ⟨hflen, hlt⟩) le_rfl (by decide) (by decide)
    rw [huv (by decide) (by simp) (Or.inr rfl)] at hu
    exact hu
  · intro i k hk1 hk2
    obtain ⟨r2, hr2⟩ := duplicate_moves (heaps 0 [0, i]) (m1 :: tl) rest hflen hlt
    obtain ⟨mv, hmem, hrd⟩ := rd_moves_pos (m1 :: tl) rest k hk1 hk2
    obtain ⟨sim, hsim, hsims⟩ := duplicate_board_safe hs (heaps 0 [k.toNat, i])
      (hclean [k.toNat, i])
    have hnext : (if colour = BLACK then WHITE else BLACK) = BLACK ∨
        (if colour = BLACK then WHITE else BLACK) = WHITE := by
      split
      · exact Or.inr rfl
      · exact Or.inl rfl
    obtain ⟨sim1, hsim1, hsim1s⟩ := make_move_safe hsims hp (hvalid mv hmem)
    obtain ⟨u, hu, huv⟩ := minmax_total (heaps 0) hclean (cnt board BLACK (List.range' 1 88))
      (cnt board WHITE (List.range' 1 88)) colour DEPTH.toNat [k.toNat, i] sim1 (m1 :: tl)
      r2 (0 + 1) (if colour = BLACK then WHITE else BLACK) (if (0 : Int) = 0 then 1 else 0)
      hsim1s hnext hvalid (fun h => absurd h (by decide)) (by decide) (by decide) (by decide)
    rw [huv (by decide) (by simp) (Or.inl (by decide))] at hu
    have hc2 : child_call (heaps 0)
        (root_call i board ((((m1 :: tl).length : Int) :: m1 :: tl) ++ rest) colour
          (cnt board BLACK (List.range' 1 88)) (cnt board WHITE (List.range' 1 88)) 0)
        ((((m1 :: tl).length : Int) :: m1 :: tl) ++ r2) k mv =
        some
          { path := [k.toNat, i]
            curr_board := sim1
            moves := (((m1 :: tl).length : Int) :: m1 :: tl) ++ r2
            depth := DEPTH
            curr_layer := 0 + 1
            curr_player := if colour = BLACK then WHITE else BLACK
            curr_bcount := cnt board BLACK (List.range' 1 88)
            curr_wcount := cnt board WHITE (List.range' 1 88)
            alpha := alpha
            beta := beta
            maxmin := if (0 : Int) = 0 then 1 else 0
            first_player := colour } := by
      unfold child_call
      simp only [root_call]
      rw [hsim]
      simp only []
      rw [hsim1]
    exact ⟨_, mv, _, hr2, hrd, hc2, hu⟩

/-- A call of `gen_move_master` whose search loop has no result has none. -/
theorem gen_move_master_no_search (MOVEBUFSIZE : Nat) (heaps : Nat → List Nat → Nat → Int)
    (board : List Int) (my_colour : Int) (workers : List (Int × Int))
    (cb cw b0 N : Int) (moves my_moves feed : List Int) (wrets : List (Int × Int))
    (hcb : count board BLACK = some cb) (hcw : count board WHITE = some cw)
    (hb0 : rd board 0 = some b0) (hlm : legal_moves board my_colour = some moves)
    (hN : rd moves 0 = some N)
    (hsc : scatterv moves (send_count N (workers.length + 1)) (disp N (workers.length + 1)) 0
      (N.tdiv ((workers.length + 1 : Nat) : Int) + N.tmod ((workers.length + 1 : Nat) : Int))
        = some my_moves)
    (hwr : workers_round heaps (workers.length + 1) cb cw my_colour b0 N moves
      (send_count N (workers.length + 1)) (disp N (workers.length + 1)) 1 workers = some wrets)
    (hfeed : make_feed (heaps 0 [0])
      (N.tdiv ((workers.length + 1 : Nat) : Int) + N.tmod ((workers.length + 1 : Nat) : Int))
      my_moves = some feed)
    (hsearch : search_loop (heaps 0) board feed my_colour cb cw 0
      (List.range (N.tdiv ((workers.length + 1 : Nat) : Int)
        + N.tmod ((workers.length + 1 : Nat) : Int)).toNat) (0, 0) = none) :
    gen_move_master MOVEBUFSIZE heaps board my_colour workers = none := by
  unfold gen_move_master
  simp only [hcb, hcw, hb0, hlm, hN, hsc, hwr, hfeed, hsearch]

/-- With a single rank on a well-formed board with the legal moves
`m1 :: tl`, a call of `gen_move_master` that has a result selects
`(1000, m1)` and plays `m1`, whatever fresh memory holds. -/
theorem single_unit_partial (MOVEBUFSIZE : Nat) (heaps : Nat → List Nat → Nat → Int)
    {board : List Int} (hwf : wellFormed board) {colour : Int}
    (hp : colour = BLACK ∨ colour = WHITE) (m1 : Int) (tl : List Int)
    (hlm : legal_moves board colour = some ((((m1 :: tl).length : Nat) : Int) :: m1 :: tl))
    (b1 : List Int) (hb1 : make_move board m1 colour = some b1) (r : MoveResult)
    (h : gen_move_master MOVEBUFSIZE heaps board colour [] = some r) :
    r = ⟨1000, m1, get_move_string m1, b1, []⟩ := by
  have hs := wf_safe hwf
  obtain ⟨ms2, hlm2, hvalid, hlt⟩ := legal_moves_safe hs hp
  rw [hlm] at hlm2
  have hmseq : m1 :: tl = ms2 := (List.cons.inj (Option.some.inj hlm2)).2
  rw [← hmseq] at hvalid hlt
  obtain ⟨b0, hb0⟩ := safe_rd_total hs (c := 0) (by omega) (by omega)
  obtain ⟨rest, hfeed, hflen⟩ := make_feed_eq (heaps 0 [0]) (m1 :: tl) hlt
  have hv := hvalid m1 (List.mem_cons_self _ _)
  have hth : ((((m1 :: tl).length : Nat) : Int)).tdiv (((([] : List (Int × Int)).length + 1 : Nat)) : Int)
      + ((((m1 :: tl).length : Nat) : Int)).tmod (((([] : List (Int × Int)).length + 1 : Nat)) : Int)
      = (((m1 :: tl).length : Nat) : Int) := by
    rw [tdiv_natCast, tmod_natCast]; simp
  cases hsl : search_loop (heaps 0) board ((((m1 :: tl).length : Int) :: m1 :: tl) ++ rest) colour
      (cnt board BLACK (List.range' 1 88)) (cnt board WHITE (List.range' 1 88)) 0
      (List.range (m1 :: tl).length) (0, 0) with
  | none =>
    rw [gen_move_master_no_search MOVEBUFSIZE heaps board colour [] _ _ b0
      (((m1 :: tl).length : Nat) : Int) _ (m1 :: tl) _ []
      (count_eq hwf.1 BLACK) (count_eq hwf.1 WHITE) hb0 hlm (rd_moves_zero (m1 :: tl) [])
      (scatterv_whole (m1 :: tl) 1 le_rfl (by rw [Nat.div_one, Nat.mod_one]; rfl))
      rfl (by rw [hth]; exact hfeed) (by rw [hth]; simpa using hsl)] at h
    simp at h
  | some ret =>
    obtain ⟨mv, hmv, hret⟩ := search_loop_partial (heaps 0) board _ colour _ _
      (((m1 :: tl).length : Nat) : Int) (rd_moves_zero (m1 :: tl) rest)
      (by simp only [List.length_cons]; push_cast; omega) (m1 :: tl).length
      (by simp) (0, 0) ret hsl
    have hmv1 : mv = m1 := by
      have : rd ((((m1 :: tl).length : Int) :: m1 :: tl) ++ rest) 1 = some m1 := by simp [rd]
      rw [this] at hmv
      exact (Option.some.inj hmv).symm
    rw [hmv1] at hret
    rw [hret] at hsl
    rw [gen_move_master_steps MOVEBUFSIZE heaps board colour [] _ _ b0
      (((m1 :: tl).length : Nat) : Int) 1000 m1 _ (m1 :: tl) _ [] (1000, m1)
      (count_eq hwf.1 BLACK) (count_eq hwf.1 WHITE) hb0 hlm (rd_moves_zero (m1 :: tl) [])
      (scatterv_whole (m1 :: tl) 1 le_rfl (by rw [Nat.div_one, Nat.mod_one]; rfl))
      rfl (by rw [hth]; exact hfeed) (by rw [hth]; simpa using hsl)
      (by simp [reconcile, gather, reconcile_loop, List.range_succ])] at h
    rw [if_pos ⟨hv.1, hv.2.1⟩, hb1] at h
    exact (Option.some.inj h).symm

/-- C19. With a single rank, take a well-formed board and a player in
{BLACK, WHITE} whose list of legal moves `m1 :: tl` is not empty.  Whatever
the uninitialised memory of the rank holds, every root call of `minmax` made
by `gen_move_master`, and every recursive call such a root call makes at ply
1, returns 1000 whenever it returns, and a call of `gen_move_master` that has
a result selects the pair `(1000, m1)` and plays `m1`, the first legal move
in scan order.  The calls do return, with that result, when the
uninitialised memory shows no piece where a board has its border (the search
then never leaves a buffer). -/
theorem single_unit_first_move (MOVEBUFSIZE : Nat) (heaps : Nat → List Nat → Nat → Int)
    (board : List Int) (colour m1 : Int) (tl : List Int)
    (hwf : wellFormed board) (hp : colour = BLACK ∨ colour = WHITE)
    (hlm : legal_moves board colour = some ((((m1 :: tl).length : Nat) : Int) :: m1 :: tl)) :
    ∃ bc wc feed b1, count board BLACK = some bc ∧ count board WHITE = some wc ∧
      make_feed (heaps 0 [0]) (((m1 :: tl).length : Nat) : Int) (m1 :: tl) = some feed ∧
      make_move board m1 colour = some b1 ∧
      (∀ (i fuel : Nat) (u : Int),
        run_call fuel (heaps 0) (root_call i board feed colour bc wc 0) = some u → u = 1000) ∧
      (∀ (i fuel : Nat) (nm : List Int) (k mv : Int) (c2 : Call) (u : Int),
        new_moves_of (heaps 0) (root_call i board feed colour bc wc 0) = some nm →
        child_call (heaps 0) (root_call i board feed colour bc wc 0) nm k mv = some c2 →
        run_call fuel (heaps 0) c2 = some u → u = 1000) ∧
      (∀ r, gen_move_master MOVEBUFSIZE heaps board colour [] = some r →
        r = ⟨1000, m1, get_move_string m1, b1, []⟩) ∧
      (cleanHeap (heaps 0) →
        (∀ i : Nat, run_call (DEPTH.toNat + 1) (heaps 0)
          (root_call i board feed colour bc wc 0) = some 1000) ∧
        (∀ (i : Nat) (k : Int), 1 ≤ k → k ≤ ((m1 :: tl).length : Nat) →
          ∃ nm mv c2, new_moves_of (heaps 0) (root_call i board feed colour bc wc 0) = some nm ∧
            rd feed k = some mv ∧
            child_call (heaps 0) (root_call i board feed colour bc wc 0) nm k mv = some c2 ∧
            run_call DEPTH.toNat (heaps 0) c2 = some 1000) ∧
        gen_move_master MOVEBUFSIZE heaps board colour []
          = some ⟨1000, m1, get_move_string m1, b1, []⟩) := by
  have hs := wf_safe hwf
  obtain ⟨ms2, hlm2, hvalid, hlt⟩ := legal_moves_safe hs hp
  rw [hlm] at hlm2
  have hmseq : m1 :: tl = ms2 := (List.cons.inj (Option.some.inj hlm2)).2
  rw [← hmseq] at hvalid hlt
  obtain ⟨rest, hfeed, hflen⟩ := make_feed_eq (heaps 0 [0]) (m1 :: tl) hlt
  obtain ⟨b1, hb1, _⟩ := make_move_safe hs hp (hvalid m1 (List.mem_cons_self _ _))
  have hf0 := rd_moves_zero (m1 :: tl) rest
  have hpos : (1 : Int) ≤ (((m1 :: tl).length : Nat) : Int) := by
    simp only [List.length_cons]; push_cast; omega
  refine ⟨_, _, _, b1, count_eq hwf.1 BLACK, count_eq hwf.1 WHITE, hfeed, hb1, ?_, ?_, ?_, ?_⟩
  · intro i fuel u hu
    exact root_returns_1000 (heaps 0) i board _ colour _ _ _ u fuel hf0 hpos hu
  · intro i fuel nm k mv c2 u hnm hc hu
    have hnm0 : rd nm 0 = some (((m1 :: tl).length : Nat) : Int) := by
      unfold new_moves_of at hnm
      rw [if_neg (fun hh => hh rfl), if_pos (by show (0 : Int) ≠ DEPTH; decide)] at hnm
      rw [duplicate_first hnm (by decide)]
      exact hf0
    exact child_returns_beta (heaps 0) _ c2 nm k mv _ u fuel rfl rfl hnm0 (by omega)
      (by show DEPTH > 0 + 1; decide) hc hu
  · intro r hr
    exact single_unit_partial MOVEBUFSIZE heaps hwf hp m1 tl hlm b1 hb1 r hr
  · intro hclean
    obtain ⟨bc, wc, feed2, b2, hbc, hwc, g3, g4, g5, g6, g7⟩ :=
      single_unit_total MOVEBUFSIZE heaps board colour m1 tl hclean hwf hp hlm
    rw [count_eq hwf.1 BLACK] at hbc
    rw [count_eq hwf.1 WHITE] at hwc
    have hbe := Option.some.inj hbc
    have hwe := Option.some.inj hwc
    subst hbe
    subst hwe
    rw [hfeed] at g3
    have hfe := Option.some.inj g3
    subst hfe
    rw [hb1] at g6
    have hb := Option.some.inj g6
    subst hb
    exact ⟨g4, g5, g7⟩

/-- Every pair the workers hold after a round is a pair one of them held
before it or has utility 1000. -/
theorem workers_round_pairs (heaps : Nat → List Nat → Nat → Int) (ranks : Nat)
    (bc wc col b0 N : Int) (moves sc dp : List Int) :
    ∀ (ws : List (Int × Int)) (rank : Nat) (rs : List (Int × Int)),
      workers_round heaps ranks bc wc col b0 N moves sc dp rank ws = some rs →
      ∀ p ∈ rs, p ∈ ws ∨ p.1 = 1000 := by
  intro ws
  induction ws with
  | nil =>
    intro rank rs h p hp
    simp only [workers_round, Option.some.injEq] at h
    rw [← h] at hp
    simp at hp
  | cons w ws ih =>
    intro rank rs h p hp
    unfold workers_round at h
    cases hr : run_worker_turn (heaps rank) ranks rank w bc wc col b0 N moves sc dp with
    | none => simp [hr] at h
    | some r0 =>
      simp only [hr] at h
      cases hrest : workers_round heaps ranks bc wc col b0 N moves sc dp (rank + 1) ws with
      | none => simp [hrest] at h
      | some rs2 =>
        simp only [hrest, Option.some.injEq] at h
        rw [← h] at hp
        rcases List.mem_cons.mp hp with h1 | h1
        · rcases worker_pair_invariant _ _ _ _ _ _ _ _ _ _ _ _ _ hr with h2 | h2
          · left; rw [h1, h2]; exact List.mem_cons_self _ _
          · right; rw [h1]; exact h2
        · rcases ih (rank + 1) rs2 hrest p h1 with h2 | h2
          · left; exact List.mem_cons_of_mem _ h2
          · right; exact h2

/-- The pairs the workers hold after a call of `gen_move_master`. -/
theorem gen_move_master_workers (MOVEBUFSIZE : Nat) (heaps : Nat → List Nat → Nat → Int)
    (board : List Int) (my_colour : Int) (workers : List (Int × Int)) (r : MoveResult)
    (h : gen_move_master MOVEBUFSIZE heaps board my_colour workers = some r) :
    ∀ p ∈ r.workers, p ∈ workers ∨ p.1 = 1000 := by
  unfold gen_move_master at h
  split at h
  · split at h
    · simp at h
    · split at h
      · simp at h
      · dsimp only at h
        split at h
        · simp at h
        · split at h
          · simp at h
          · rename_i wrets hwr
            have hinv := workers_round_pairs _ _ _ _ _ _ _ _ _ _ _ _ _ hwr
            repeat' (first
              | (simp at h; done)
              | (rw [← Option.some.inj h]; exact hinv)
              | split at h)
  · simp at h

/-- A pair held by a worker when `gen_move_master` is called is `{0,0}` or
has utility 1000. -/
theorem worker_state_pairs {MOVEBUFSIZE n : Nat} {workers : List (Int × Int)}
    (h : WorkerState MOVEBUFSIZE n workers) : ∀ p ∈ workers, p = (0, 0) ∨ p.1 = 1000 := by
  induction h with
  | start =>
    intro p hp
    left
    exact (List.mem_replicate.mp hp).2
  | turn heaps board colour ws r _ hg ih =>
    intro p hp
    rcases gen_move_master_workers _ heaps board colour ws r hg p hp with h1 | h1
    · exact ih p h1
    · right; exact h1

/-- C6. For every number of workers (`P - 1 ≥ 0`), every state the workers
can be in when `gen_move_master` is called (whatever pairs they hold from
earlier turns and report for their empty chunks), and every well-formed board
on which the player to move has no legal move: `gen_move_master` writes
`strncpy("pass\n", MOVEBUFSIZE)`, which is the string `"pass\n"` with its
terminator as soon as the buffer has room for its six bytes, and leaves the
board unchanged. -/
theorem pass_on_every_run (MOVEBUFSIZE n : Nat) (heaps : Nat → List Nat → Nat → Int)
    (board : List Int) (my_colour : Int) (workers : List (Int × Int))
    (hws : WorkerState MOVEBUFSIZE n workers) (hwf : wellFormed board)
    (hN : legal_moves board my_colour = some [0]) :
    ∃ r, gen_move_master MOVEBUFSIZE heaps board my_colour workers = some r ∧
      r.move = strncpy PASS MOVEBUFSIZE ∧ (6 ≤ MOVEBUFSIZE → r.move.take 6 = PASS) ∧
      r.board = board := by
  apply pass_when_no_moves MOVEBUFSIZE heaps board my_colour workers hwf hN
  intro w hw
  rcases worker_state_pairs hws w hw with h | h
  · rw [h]
  · rw [h]; decide

/-- C11 at the starting position for BLACK's move on cell 34. -/
theorem board_wellFormed_invariant_witness :
    (wellFormed initialise_board ∧ validp 34 = 1 ∧ (BLACK = BLACK ∨ BLACK = WHITE)) ∧
    ∃ b2, make_move initialise_board 34 BLACK = some b2 ∧ wellFormed b2 ∧
      ∀ i, i < 100 → isBorder i = true → b2[i]? = initialise_board[i]? :=
  ⟨⟨initialise_board_wf, by decide, Or.inl rfl⟩,
    board_wellFormed_invariant.2 initialise_board 34 BLACK initialise_board_wf (by decide)
      (Or.inl rfl)⟩

/-- C13 (as the code has it) on the starting position at ply 2, for the root
player BLACK and the baselines 2 and 2. -/
theorem calc_util_formula_witness :
    (initialise_board.length = 100 ∧ (0 : Int) ≤ 2 ∧ (2 : Int) ≤ 7) ∧
    ∃ cb cw, count initialise_board BLACK = some cb ∧ count initialise_board WHITE = some cw ∧
      calc_util initialise_board BLACK 2 2 2 = some
        ((if BLACK = BLACK then (cb - 2) - (cw - 2) else -((cb - 2) - (cw - 2))) +
          (if (2 : Int) % 2 = 1 ∨ (2 : Int) = 7 then 0
            else if (2 : Int) + 2 < 25 then 2
            else if (2 : Int) + 2 < 50 then 2 * 2
            else 3 * 2)) :=
  ⟨⟨by decide, by decide, by decide⟩,
    calc_util_formula initialise_board BLACK 2 2 2 (by decide) (by decide) (by decide)⟩

/-- C20 on the starting position for BLACK's move on cell 34 in direction
`+10`: some `r` and some `n ≤ 8` satisfy the statement. -/
theorem walk_within_board_witness :
    (wellFormed initialise_board ∧ validp 34 = 1 ∧ (10 : Int) ∈ ALLDIRECTIONS ∧
      (BLACK = BLACK ∨ BLACK = WHITE)) ∧
    ∃ (r : Int) (n : Nat), would_flip initialise_board 34 10 BLACK = some r ∧ 1 ≤ n ∧ n ≤ 8 ∧
      (r = 0 ∨ (r = 34 + n * 10 ∧ validCell r ∧ rd initialise_board r = some BLACK)) := by
  refine ⟨⟨initialise_board_wf, by decide, by decide, Or.inl rfl⟩, ?_⟩
  obtain ⟨r, n, h1, _, h3, h4, _, _, _, _, h9, _⟩ :=
    walk_within_board initialise_board 34 10 BLACK initialise_board_wf (by decide) (by decide)
      (Or.inl rfl)
  exact ⟨r, n, h1, h3, h4, h9⟩

set_option maxRecDepth 1000000 in
/-- The first call at ply 1 of the opening search lies in the tree below the
root call of iteration 0. -/
theorem ply1Call_reach :
    Reach (zeroHeaps 0) (root_call 0 initialise_board openingFeed BLACK 2 2 0) ply1Call :=
  Reach.step _ _ openingMoves 4 1 34 Reach.root (by decide!) (by decide!) (by decide!)
    (by decide!) (by decide!) (by decide!)

set_option maxRecDepth 1000000 in
/-- C18 for the first call at ply 1 of the opening search, whose root call is
started with the counts 2 and 2 of the starting position: its parameters,
its value as one ply of the search that visits every candidate, and the fact
that it returns. -/
theorem search_never_prunes_witness :
    (count initialise_board BLACK = some 2 ∧ count initialise_board WHITE = some 2 ∧
      Reach (zeroHeaps 0) (root_call 0 initialise_board openingFeed BLACK 2 2 0) ply1Call) ∧
    (ply1Call.alpha = -1000 ∧ ply1Call.beta = 1000 ∧ ply1Call.depth = 7 ∧
      ¬ (ply1Call.alpha ≥ ply1Call.beta)) ∧
    run_call (6 + 1) (zeroHeaps 0) ply1Call = exhaustive_step 6 (zeroHeaps 0) ply1Call ∧
    ∃ u, run_call ((DEPTH - ply1Call.curr_layer).toNat + 1) (zeroHeaps 0) ply1Call = some u := by
  have h := search_never_prunes (zeroHeaps 0) 0 initialise_board openingFeed initialise_board
    BLACK 2 2 0 (by decide!) (by decide!) ply1Call ply1Call_reach
  exact ⟨⟨by decide!, by decide!, ply1Call_reach⟩, ⟨h.1, h.2.1, h.2.2.1, h.2.2.2.1⟩,
    h.2.2.2.2.1 6,
    h.2.2.2.2.2.2 (zeroHeaps_clean 0) (wf_safe initialise_board_wf) (Or.inl rfl)
      ⟨[34, 43, 56, 65], List.replicate 60 0, rfl, by decide, by decide, by decide⟩⟩

/-- C6 at the first call of `gen_move_master` of a run with three workers, on
the board with an empty interior, where BLACK has no legal move. -/
theorem pass_on_every_run_witness :
    (WorkerState 6 3 (List.replicate 3 (0, 0)) ∧ wellFormed initialise_board_frame ∧
      legal_moves initialise_board_frame BLACK = some [0]) ∧
    ∃ r, gen_move_master 6 zeroHeaps initialise_board_frame BLACK (List.replicate 3 (0, 0))
        = some r ∧
      r.move = strncpy PASS 6 ∧ (6 ≤ 6 → r.move.take 6 = PASS) ∧
      r.board = initialise_board_frame :=
  ⟨⟨WorkerState.start, emptyInterior_facts.1, emptyInterior_facts.2.2.2.2⟩,
    pass_on_every_run 6 3 zeroHeaps initialise_board_frame BLACK (List.replicate 3 (0, 0))
      WorkerState.start emptyInterior_facts.1 emptyInterior_facts.2.2.2.2⟩

set_option maxRecDepth 1000000 in
theorem initialise_board_moves_black :
    legal_moves initialise_board BLACK
      = some (((((34 : Int) :: [43, 56, 65]).length : Nat) : Int) :: 34 :: [43, 56, 65]) := by
  decide!

/-- C19 on the starting position for BLACK, with memory that reads as zero:
the pair selected is `(1000, 34)` and BLACK plays cell 34. -/
theorem single_unit_first_move_witness :
    (wellFormed initialise_board ∧ (BLACK = BLACK ∨ BLACK = WHITE) ∧
      legal_moves initialise_board BLACK
        = some (((((34 : Int) :: [43, 56, 65]).length : Nat) : Int) :: 34 :: [43, 56, 65]) ∧
      cleanHeap (zeroHeaps 0)) ∧
    ∃ b1, make_move initialise_board 34 BLACK = some b1 ∧
      (∀ r, gen_move_master 6 zeroHeaps initialise_board BLACK [] = some r →
        r = ⟨1000, 34, get_move_string 34, b1, []⟩) ∧
      gen_move_master 6 zeroHeaps initialise_board BLACK []
        = some ⟨1000, 34, get_move_string 34, b1, []⟩ := by
  refine ⟨⟨initialise_board_wf, Or.inl rfl, initialise_board_moves_black, zeroHeaps_clean 0⟩, ?_⟩
  obtain ⟨_, _, _, b1, _, _, _, h1, _, _, h2, h3⟩ :=
    single_unit_first_move 6 zeroHeaps initialise_board BLACK 34 [43, 56, 65]
      initialise_board_wf (Or.inl rfl) initialise_board_moves_black
  exact ⟨b1, h1, h2, (h3 (zeroHeaps_clean 0)).2.2⟩

end Othello
